import Mathlib

/-!
Buffer cache of xv6 (kernel/bio.c, hashed-bucket variant).

A shallow embedding of `kernel/bio.c`: the buffer pool `bcache.buf[NBUF]`, the
bucket heads `bcache.head[NBUCKET]`, the intrusive `prev`/`next` links, and the
functions `hash`, `binit`, `bget`, `bread`, `bwrite`, `brelse`, `bpin` and `bunpin`.  `NBUF`
(kernel/param.h) is a parameter `N` throughout.

Every C function is executed atomically (one caller at a time); the only place
where a caller can be suspended, `acquiresleep`, is visible in the result of
`bget` as the outcome `sleep`.  Spin locks protect nothing that a sequential
run can observe and are left out of the state; the calls of `acquire` and `release`
that `bget` makes are recorded, in program order, by `bgetOps`.
-/

namespace Bcache

/-! Machine integers -/

/-- The modulus of `uint` (32 bits). -/
def UINT : Nat := 4294967296

/-- Conversion `uint → int` as done when a `uint` is passed for an `int`
parameter or assigned to an `int` variable (two's complement). -/
def toInt (x : Nat) : Int :=
  if x % UINT < 2147483648 then ((x % UINT : Nat) : Int) else ((x % UINT : Nat) : Int) - 4294967296

/-- Conversion `int → uint` as done by the usual arithmetic conversions when an
`int` meets a `uint` in a comparison. -/
def toUint (z : Int) : Nat := (z % 4294967296).toNat

/-! Data model -/

/-- The constant `NBUCKET` (13 buckets). -/
def NBUCKET : Nat := 13

/-- An address inside `bcache`: `&bcache.buf[k]`, `&bcache.head[i]`, or the
null pointer. -/
inductive Ptr where
  | null : Ptr
  | buf (k : Nat) : Ptr
  | head (i : Nat) : Ptr
  deriving DecidableEq, Repr

/-- Modelled from the spec: `struct buf` (kernel/buf.h) and `struct sleeplock`
are not among the sources.  The fields are the ones `bio.c` uses: device
identifier, block number, validity flag, reference count, last-use timestamp,
the exclusive ownership lock (here: the pid of its holder, `none` when free),
the bucket-membership links and the data payload.  `dev`, `blockno`, `refcnt`
and `lastuse` are `uint` (as `bget`'s parameters and `ticks` are). -/
structure Buf where
  valid : Nat
  dev : Nat
  blockno : Nat
  lock : Option Nat
  refcnt : Nat
  lastuse : Nat
  prev : Ptr
  next : Ptr
  data : List Nat
  deriving DecidableEq, Repr

/-- The memory of `bcache`: what is stored at each address. -/
structure State where
  mem : Ptr → Buf

/-- Store: `*p = f(*p)`. -/
def State.upd (s : State) (p : Ptr) (f : Buf → Buf) : State :=
  { s with mem := fun q => if q = p then f (s.mem p) else s.mem q }

/-- The assignment `x.next = v`. -/
def setNext (v : Ptr) (x : Buf) : Buf := { x with next := v }

/-- The assignment `x.prev = v`. -/
def setPrev (v : Ptr) (x : Buf) : Buf := { x with prev := v }

/-- The assignment of the holder of `x.lock`. -/
def setLock (v : Option Nat) (x : Buf) : Buf := { x with lock := v }

/-- The assignment `x.lastuse = v`. -/
def setLastuse (v : Nat) (x : Buf) : Buf := { x with lastuse := v }

/-- Zero-initialised `struct buf`, as `bcache` is before `binit` runs. -/
def zeroBuf : Buf :=
  { valid := 0, dev := 0, blockno := 0, lock := none, refcnt := 0, lastuse := 0,
    prev := Ptr.null, next := Ptr.null, data := [] }

/-- The zero-initialised `bcache`. -/
def zeroed : State := { mem := fun _ => zeroBuf }

/-! hash -/

/-- The C function `int hash(int blockno) { return blockno % NBUCKET; }`; `%` on `int`
truncates toward zero. -/
def hash (blockno : Int) : Int := Int.tmod blockno (NBUCKET : Int)

/-- Array index check for `bcache.lock[z]` and `bcache.head[z]`: `none` when `z` is
outside `[0, NBUCKET)`. -/
def idx (z : Int) : Option Nat :=
  if 0 ≤ z ∧ z < (NBUCKET : Int) then some z.toNat else none

/-! binit -/

/-- First loop of `binit`: `head[i].next = &head[i]; head[i].prev = &head[i];`. -/
def initHead (s : State) (i : Nat) : State :=
  (s.upd (Ptr.head i) (setNext (Ptr.head i))).upd (Ptr.head i) (setPrev (Ptr.head i))

/-- Body of the second loop of `binit` for `b = &bcache.buf[k]`. -/
def linkBuf (s : State) (k : Nat) : State :=
  let b := Ptr.buf k
  let s1 := s.upd b (setNext (s.mem (Ptr.head 0)).next)
  let s2 := s1.upd b (setPrev (Ptr.head 0))
  let s3 := s2.upd b (setLock none)
  let s4 := s3.upd (s3.mem (Ptr.head 0)).next (setPrev b)
  s4.upd (Ptr.head 0) (setNext b)

/-- The C function `binit` with `NBUF = N`, run on the memory `s`. -/
def binit (N : Nat) (s : State) : State :=
  (List.range N).foldl linkBuf ((List.range NBUCKET).foldl initHead s)

/-! bget -/

/-- Result of a bounded run of a loop. -/
inductive Loop (α : Type) where
  | done (a : α) : Loop α
  | fault : Loop α
  | timeout : Loop α

/-- Result of `bget`. -/
inductive Outcome where
  | ret (b : Ptr) (s : State) : Outcome
  | sleep (b : Ptr) (s : State) : Outcome
  | panic (msg : String) (s : State) : Outcome
  | fault : Outcome
  | timeout : Outcome

/-- The loop `for(b = head[i].next; b != &head[i]; b = b->next)` that looks for
`(dev, blockno)`, started at `b`; `some b` is the buffer at which the body
leaves the loop. -/
def findKey (s : State) (i dev blockno : Nat) : Nat → Ptr → Loop (Option Ptr)
  | 0, _ => Loop.timeout
  | fuel + 1, b =>
    if b = Ptr.head i then Loop.done none
    else if b = Ptr.null then Loop.fault
    else if (s.mem b).dev = dev ∧ (s.mem b).blockno = blockno then Loop.done (some b)
    else findKey s i dev blockno fuel (s.mem b).next

/-- The loop `for(b = head[j].next; b != &head[j]; b = b->next)` that looks for the
least recently used free buffer, started at `b` with the current values of `b2`
and `min_ticks`. -/
def findLru (s : State) (j : Nat) : Nat → Ptr → Option Ptr → Int → Loop (Option Ptr × Int)
  | 0, _, _, _ => Loop.timeout
  | fuel + 1, b, b2, min_ticks =>
    if b = Ptr.head j then Loop.done (b2, min_ticks)
    else if b = Ptr.null then Loop.fault
    else if (s.mem b).refcnt = 0 ∧ (b2 = none ∨ (s.mem b).lastuse < toUint min_ticks) then
      findLru s j fuel (s.mem b).next (some b) (toInt (s.mem b).lastuse)
    else findLru s j fuel (s.mem b).next b2 min_ticks

/-- Modelled from the spec: `acquiresleep(&b->lock)` (kernel/sleeplock.c is not among
the sources) followed by `return b`: the caller takes the exclusive lock when it
is free and is suspended otherwise. -/
def acquiresleep (pid : Nat) (b : Ptr) (s : State) : Outcome :=
  if (s.mem b).lock = none then
    Outcome.ret b (s.upd b (setLock (some pid)))
  else Outcome.sleep b s

/-- The statement `b->refcnt++` on a `uint`. -/
def incRef (x : Buf) : Buf := { x with refcnt := (x.refcnt + 1) % UINT }

/-- The statement `b->refcnt--` on a `uint`: 0 wraps around to `UINT - 1`. -/
def decRef (x : Buf) : Buf :=
  { x with refcnt := if x.refcnt = 0 then 4294967295 else x.refcnt - 1 }

/-- Lines 146-149: `b2->dev = dev; b2->blockno = blockno; b2->refcnt++; b2->valid = 0;`
(lines 166-169 do the same in another order). -/
def claim (dev blockno : Nat) (x : Buf) : Buf :=
  { incRef { x with dev := dev, blockno := blockno } with valid := 0 }

/-- Lines 171-178: unlink `b2` from its bucket and insert it behind `head[i]`;
`none` when a null pointer is dereferenced. -/
def relink (s : State) (i : Nat) (b2 : Ptr) : Option State :=
  if (s.mem b2).next = Ptr.null then none else
  let s1 := s.upd (s.mem b2).next (setPrev (s.mem b2).prev)
  if (s1.mem b2).prev = Ptr.null then none else
  let s2 := s1.upd (s1.mem b2).prev (setNext (s1.mem b2).next)
  let s3 := s2.upd b2 (setNext (s2.mem (Ptr.head i)).next)
  let s4 := s3.upd b2 (setPrev (Ptr.head i))
  if (s4.mem (Ptr.head i)).next = Ptr.null then none else
  let s5 := s4.upd (s4.mem (Ptr.head i)).next (setPrev b2)
  some (s5.upd (Ptr.head i) (setNext b2))

/-- Step 2.3 of `bget`: the loop `for (int j = hash(i + 1); j != i; j = hash(j + 1))`
over the other buckets, entered with the loop variable equal to `j`, and the
`panic` behind it. -/
def steal (pid dev blockno i fuel : Nat) (s : State) : Nat → Int → Int → Outcome
  | 0, _, _ => Outcome.timeout
  | n + 1, j, min_ticks =>
    if j = (i : Int) then Outcome.panic "bget: no buffers" s
    else match idx j with
      | none => Outcome.fault
      | some jn =>
        match findLru s jn fuel (s.mem (Ptr.head jn)).next none min_ticks with
        | Loop.timeout => Outcome.timeout
        | Loop.fault => Outcome.fault
        | Loop.done (some b2, _) =>
          match relink (s.upd b2 (claim dev blockno)) i b2 with
          | none => Outcome.fault
          | some s1 => acquiresleep pid b2 s1
        | Loop.done (none, mt) => steal pid dev blockno i fuel s n (hash (j + 1)) mt

/-- The C function `bget(dev, blockno)` called by process `pid`; every loop runs for at
most `fuel` iterations. -/
def bget (fuel pid : Nat) (s : State) (dev blockno : Nat) : Outcome :=
  match idx (hash (toInt blockno)) with
  | none => Outcome.fault
  | some i =>
    -- 1. Is the block already cached?
    match findKey s i dev blockno fuel (s.mem (Ptr.head i)).next with
    | Loop.timeout => Outcome.timeout
    | Loop.fault => Outcome.fault
    | Loop.done (some b) => acquiresleep pid b (s.upd b incRef)
    | Loop.done none =>
      -- 2.1 find from current bucket.
      match findKey s i dev blockno fuel (s.mem (Ptr.head i)).next with
      | Loop.timeout => Outcome.timeout
      | Loop.fault => Outcome.fault
      | Loop.done (some b) => acquiresleep pid b (s.upd b incRef)
      | Loop.done none =>
        -- 2.2 find a LRU block from current bucket.
        match findLru s i fuel (s.mem (Ptr.head i)).next none 0 with
        | Loop.timeout => Outcome.timeout
        | Loop.fault => Outcome.fault
        | Loop.done (some b2, _) => acquiresleep pid b2 (s.upd b2 (claim dev blockno))
        | Loop.done (none, mt) =>
          -- 2.3 find block from the other buckets.
          steal pid dev blockno i fuel s fuel (hash ((i : Int) + 1)) mt

/-- The call ended in `panic`. -/
def Outcome.isPanic : Outcome → Bool
  | Outcome.panic _ _ => true
  | _ => false

/-- Result of a function returning `void`. -/
inductive Effect where
  | done (s : State) : Effect
  | panic (msg : String) (s : State) : Effect
  | fault : Effect

/-- Modelled from the spec: `holdingsleep(&b->lock)` (kernel/sleeplock.c is not among
the sources): the caller holds the exclusive lock. -/
def holdingsleep (pid : Nat) (x : Buf) : Bool := x.lock = some pid

/-- The C function `brelse(b)` called by process `pid` when the clock reads `ticks`. -/
def brelse (pid ticks : Nat) (s : State) (b : Ptr) : Effect :=
  if b = Ptr.null then Effect.fault
  else if !holdingsleep pid (s.mem b) then Effect.panic "brelse" s
  else
    let s1 := s.upd b (setLock none)
    match idx (hash (toInt (s1.mem b).blockno)) with
    | none => Effect.fault
    | some _ =>
      let s2 := s1.upd b decRef
      if (s2.mem b).refcnt = 0 then
        Effect.done (s2.upd b (setLastuse (ticks % UINT)))
      else Effect.done s2

/-- The C function `bpin(b)`. -/
def bpin (s : State) (b : Ptr) : Effect :=
  if b = Ptr.null then Effect.fault
  else match idx (hash (toInt (s.mem b).blockno)) with
    | none => Effect.fault
    | some _ => Effect.done (s.upd b incRef)

/-- The C function `bunpin(b)`. -/
def bunpin (s : State) (b : Ptr) : Effect :=
  if b = Ptr.null then Effect.fault
  else match idx (hash (toInt (s.mem b).blockno)) with
    | none => Effect.fault
    | some _ => Effect.done (s.upd b decRef)

/-! Bucket lists: the list of buffers met on the way from a head back to it -/

/-- Following `next` from `a` one meets exactly the buffers `bcache.buf[k]`, `k ∈ l`, in
this order, and then `z`; every `prev` link points back along the same way. -/
def Chain (s : State) : Ptr → List Nat → Ptr → Prop
  | a, [], z => (s.mem a).next = z ∧ (s.mem z).prev = a
  | a, k :: t, z =>
    (s.mem a).next = Ptr.buf k ∧ (s.mem (Ptr.buf k)).prev = a ∧ Chain s (Ptr.buf k) t z

/-- The membership list of bucket `i`, in scan order from `head[i].next`, is `l`. -/
def Ring (s : State) (i : Nat) (l : List Nat) : Prop :=
  Chain s (Ptr.head i) l (Ptr.head i)

/-- Buffer `k` carries the key `(dev, blockno)`. -/
def Carries (s : State) (dev blockno k : Nat) : Prop :=
  (s.mem (Ptr.buf k)).dev = dev ∧ (s.mem (Ptr.buf k)).blockno = blockno

instance Chain.dec (s : State) : (a : Ptr) → (l : List Nat) → (z : Ptr) → Decidable (Chain s a l z)
  | a, [], z => inferInstanceAs (Decidable ((s.mem a).next = z ∧ (s.mem z).prev = a))
  | a, k :: t, z =>
    have := Chain.dec s (Ptr.buf k) t z
    inferInstanceAs (Decidable ((s.mem a).next = Ptr.buf k ∧ (s.mem (Ptr.buf k)).prev = a
      ∧ Chain s (Ptr.buf k) t z))

instance Ring.dec (s : State) (i : Nat) (l : List Nat) : Decidable (Ring s i l) :=
  inferInstanceAs (Decidable (Chain s (Ptr.head i) l (Ptr.head i)))

instance Carries.dec (s : State) (dev blockno k : Nat) : Decidable (Carries s dev blockno k) :=
  inferInstanceAs (Decidable ((s.mem (Ptr.buf k)).dev = dev ∧ (s.mem (Ptr.buf k)).blockno = blockno))

/-- Buffer `k` is free: its reference count is 0. -/
def Free (s : State) (k : Nat) : Prop := (s.mem (Ptr.buf k)).refcnt = 0

instance Free.dec (s : State) (k : Nat) : Decidable (Free s k) :=
  inferInstanceAs (Decidable ((s.mem (Ptr.buf k)).refcnt = 0))

/-- Buffer `k` is the least recently used free buffer of the list `l`: it is in `l` and
free, every free buffer before it in `l` has a larger `lastuse` and every free buffer
behind it has a `lastuse` at least as large (minimum `lastuse`, first in scan order on
ties). -/
def IsLru (s : State) (l : List Nat) (k : Nat) : Prop :=
  ∃ l1 l2, l = l1 ++ k :: l2 ∧ Free s k
    ∧ (∀ x ∈ l1, Free s x → (s.mem (Ptr.buf k)).lastuse < (s.mem (Ptr.buf x)).lastuse)
    ∧ (∀ x ∈ l2, Free s x → (s.mem (Ptr.buf k)).lastuse ≤ (s.mem (Ptr.buf x)).lastuse)

/-- The run of `findLru` over the buffers of a list, with the loop variables `b2` and
`min_ticks`. -/
def lruScan (s : State) : List Nat → Option Ptr → Int → Option Ptr × Int
  | [], b2, min_ticks => (b2, min_ticks)
  | k :: t, b2, min_ticks =>
    if (s.mem (Ptr.buf k)).refcnt = 0
        ∧ (b2 = none ∨ (s.mem (Ptr.buf k)).lastuse < toUint min_ticks) then
      lruScan s t (some (Ptr.buf k)) (toInt (s.mem (Ptr.buf k)).lastuse)
    else lruScan s t b2 min_ticks

/-- The node that follows the start of a chain over `l` ending in `z`. -/
def firstNode (l : List Nat) (z : Ptr) : Ptr :=
  match l with
  | [] => z
  | k :: _ => Ptr.buf k

/-- The node that precedes the end of a chain over `l` starting in `a`. -/
def lastNode (a : Ptr) : List Nat → Ptr
  | [] => a
  | k :: t => lastNode (Ptr.buf k) t

/-- All fields of a buffer but its links. -/
def Buf.info (x : Buf) : Buf := { x with prev := Ptr.null, next := Ptr.null }

/-- A well-formed cache with `NBUF = N` whose bucket lists are `L 0, ..., L (NBUCKET - 1)`:
the links of every bucket form a ring through its head, the lists hold buffers of the pool
only, every buffer of the pool is in some list, no list has a buffer twice, no two lists
share a buffer, `lastuse` holds a `uint`, and every buffer is in the bucket of its block
number. -/
structure Layout (N : Nat) (s : State) (L : Nat → List Nat) : Prop where
  ring : ∀ i < NBUCKET, Ring s i (L i)
  lt : ∀ i < NBUCKET, ∀ k ∈ L i, k < N
  cover : ∀ k < N, ∃ i < NBUCKET, k ∈ L i
  nodup : ∀ i < NBUCKET, (L i).Nodup
  disj : ∀ i < NBUCKET, ∀ j < NBUCKET, i ≠ j → ∀ k ∈ L i, k ∉ L j
  time : ∀ k < N, (s.mem (Ptr.buf k)).lastuse < UINT
  home : ∀ i < NBUCKET, ∀ k ∈ L i, idx (hash (toInt (s.mem (Ptr.buf k)).blockno)) = some i

/-- The bucket lists after buffer `k` has moved from bucket `j` to the front of bucket `i`. -/
def moveTo (L : Nat → List Nat) (i j k : Nat) : Nat → List Nat :=
  fun m => if m = i then k :: L i else if m = j then (L j).erase k else L m

/-- The states the cache can be in: those reached from `binit` (with `NBUF = N`) by calls of
`bget`, `brelse`, `bpin` and `bunpin` that return, where a caller that `bget` left asleep in
`acquiresleep` takes the lock once it is free.  The loops of `bget` are given the fuel to
run to their end (`N < fuel` for the scans of a bucket, `NBUCKET ≤ fuel` for the stealing
loop). -/
inductive Reachable (N : Nat) : State → Prop where
  | init : Reachable N (binit N zeroed)
  | bget_ret (s t : State) (fuel pid dev blockno : Nat) (b : Ptr) :
      Reachable N s → N < fuel → NBUCKET ≤ fuel →
      bget fuel pid s dev blockno = Outcome.ret b t → Reachable N t
  | bget_sleep (s t : State) (fuel pid dev blockno : Nat) (b : Ptr) :
      Reachable N s → N < fuel → NBUCKET ≤ fuel →
      bget fuel pid s dev blockno = Outcome.sleep b t → Reachable N t
  | wake (s t : State) (pid k : Nat) :
      Reachable N s → k < N → acquiresleep pid (Ptr.buf k) s = Outcome.ret (Ptr.buf k) t →
      Reachable N t
  | brelse (s t : State) (pid ticks k : Nat) :
      Reachable N s → k < N → brelse pid ticks s (Ptr.buf k) = Effect.done t → Reachable N t
  | bpin (s t : State) (k : Nat) :
      Reachable N s → k < N → bpin s (Ptr.buf k) = Effect.done t → Reachable N t
  | bunpin (s t : State) (k : Nat) :
      Reachable N s → k < N → bunpin s (Ptr.buf k) = Effect.done t → Reachable N t

/-- The bucket lists right after `binit`: bucket 0 holds every buffer, the last one linked
first in scan order, and the other buckets are empty. -/
def initLists (N : Nat) : Nat → List Nat :=
  fun i => if i = 0 then (List.range N).reverse else []

/-- An example: the cache with three buffers after `bget(0, 0)` by process 1, which holds
`bcache.buf[2]`. -/
def held1 : State :=
  ((binit 3 zeroed).upd (Ptr.buf 2) incRef).upd (Ptr.buf 2) (setLock (some 1))

/-- A run of `bget` calls, one for each `(pid, dev, blockno)` of the list, none of them
followed by a `brelse`; `none` when one of the calls does not return a buffer. -/
def acquireAll (fuel : Nat) : State → List (Nat × Nat × Nat) → Option State
  | s, [] => some s
  | s, (pid, dev, blockno) :: rest =>
    match bget fuel pid s dev blockno with
    | Outcome.ret _ t => acquireAll fuel t rest
    | _ => none

/-- The cache after the keys of `seen` have been acquired and none released: it is
well-formed, every buffer is held at most once, every buffer that is held carries a key of
`seen`, and as many buffers are held as `seen` has keys. -/
def Taken (N : Nat) (s : State) (seen : List (Nat × Nat)) : Prop :=
  (∃ L, Layout N s L) ∧ (∀ k < N, (s.mem (Ptr.buf k)).refcnt ≤ 1)
    ∧ (∀ k < N, (s.mem (Ptr.buf k)).refcnt = 1 →
        ((s.mem (Ptr.buf k)).dev, (s.mem (Ptr.buf k)).blockno) ∈ seen)
    ∧ ∑ k in Finset.range N, (s.mem (Ptr.buf k)).refcnt = seen.length

/-- An example: the cache with three buffers after process 1 has acquired the blocks
`(0, 0)`, `(0, 13)` and `(0, 26)` and released none. -/
def full3 : State :=
  (((held1.upd (Ptr.buf 1) (claim 0 13)).upd (Ptr.buf 1) (setLock (some 1))).upd (Ptr.buf 0)
    (claim 0 26)).upd (Ptr.buf 0) (setLock (some 1))

/-- An example run with three buffers: `coh1` is the cache after `bget(1, 13)` by process 1,
which holds `bcache.buf[2]`; `coh2` after a `bunpin` of that buffer; `coh3` after
`bget(1, 26)` by process 3; `coh4` after `bget(1, 13)` by process 2. -/
def coh1 : State :=
  ((binit 3 zeroed).upd (Ptr.buf 2) (claim 1 13)).upd (Ptr.buf 2) (setLock (some 1))

/-- Process `p` holds buffer `k` for the key `(dev, blockno)`: in the well-formed cache `s`,
`k` is the first buffer carrying the key in the list of the key's bucket, its sleep lock
belongs to `p`, and its `refcnt` is not 0. -/
def HeldBy (N : Nat) (s : State) (dev blockno k p : Nat) : Prop :=
  ∃ (L : Nat → List Nat) (i : Nat) (l1 l2 : List Nat), Layout N s L
    ∧ idx (hash (toInt blockno)) = some i ∧ L i = l1 ++ k :: l2
    ∧ Carries s dev blockno k ∧ (∀ x ∈ l1, ¬ Carries s dev blockno x)
    ∧ (s.mem (Ptr.buf k)).lock = some p ∧ (s.mem (Ptr.buf k)).refcnt ≠ 0

/-- Modelled from the spec: the disk behind the DiskIO collaborator (kernel/virtio_disk.c is
not among the sources): the contents of every block, by device identifier and block number,
and the transfers issued so far, the latest first, each with its direction (`true` for a
write) and its buffer. -/
structure Disk where
  block : Nat → Nat → List Nat
  log : List (Bool × Ptr)

/-- The assignment `x.valid = v`. -/
def setValid (v : Nat) (x : Buf) : Buf := { x with valid := v }

/-- The assignment of the payload of `x`. -/
def setData (v : List Nat) (x : Buf) : Buf := { x with data := v }

/-- Modelled from the spec: `virtio_disk_rw(b, write)`, a synchronous transfer that always
succeeds: a write stores the payload of `b` in the block `(b->dev, b->blockno)` of the disk, a
read loads that block into the payload of `b`. -/
def virtio_disk_rw (s : State) (d : Disk) (b : Ptr) (write : Bool) : State × Disk :=
  if write then
    (s, { block := fun dev blockno =>
            if dev = (s.mem b).dev ∧ blockno = (s.mem b).blockno then (s.mem b).data
            else d.block dev blockno,
          log := (true, b) :: d.log })
  else
    (s.upd b (setData (d.block (s.mem b).dev (s.mem b).blockno)),
      { block := d.block, log := (false, b) :: d.log })

/-- Lines 231-235 of `bread`: what follows the call of `bget` once it has returned `b`. -/
def breadRest (s : State) (d : Disk) (b : Ptr) : State × Disk :=
  if (s.mem b).valid = 0 then
    let r := virtio_disk_rw s d b false
    (r.1.upd b (setValid 1), r.2)
  else (s, d)

/-- The C function `bread(dev, blockno)` called by process `pid`.  A caller that `bget` leaves
asleep in `acquiresleep` has not come to line 231 yet; it runs `breadRest` once it has the
lock. -/
def bread (fuel pid : Nat) (s : State) (d : Disk) (dev blockno : Nat) : Outcome × Disk :=
  match bget fuel pid s dev blockno with
  | Outcome.ret b t =>
    let r := breadRest t d b
    (Outcome.ret b r.1, r.2)
  | o => (o, d)

/-- The rest of a call of `bread` whose `bget` has left the caller asleep in
`acquiresleep(&b->lock)`, from the moment the caller is scheduled again, in the memory `s`
and with the disk `d`: `acquiresleep` is tried again; once it returns, `bget` returns `b`
and lines 231-235 follow. -/
def breadResume (pid : Nat) (s : State) (d : Disk) (b : Ptr) : Outcome × Disk :=
  match acquiresleep pid b s with
  | Outcome.ret c t =>
    let r := breadRest t d c
    (Outcome.ret c r.1, r.2)
  | o => (o, d)

/-- The C function `bwrite(b)` called by process `pid`. -/
def bwrite (pid : Nat) (s : State) (d : Disk) (b : Ptr) : Effect × Disk :=
  if b = Ptr.null then (Effect.fault, d)
  else if !holdingsleep pid (s.mem b) then (Effect.panic "bwrite" s, d)
  else
    let r := virtio_disk_rw s d b true
    (Effect.done r.1, r.2)

/-- An example disk: every block is empty and nothing has been transferred. -/
def blank : Disk := { block := fun _ _ => [], log := [] }

/-! The locks `bget` takes -/

/-- The locks of `bcache`: `biglock`, the bucket lock `lock[i]`, and the sleep lock of a
buffer. -/
inductive LockId where
  | big : LockId
  | bucket (i : Nat) : LockId
  | buffer (b : Ptr) : LockId
  deriving DecidableEq, Repr

/-- A call of `acquire` (for a sleep lock: of `acquiresleep`) or of `release`. -/
inductive LockOp where
  | acquire (l : LockId) : LockOp
  | release (l : LockId) : LockOp
  deriving DecidableEq, Repr

/-- The loop of `steal` together with the lock calls it makes, in program order (lines
157-188); a run that faults or runs out of fuel lists the calls made before the bucket at
which it stops. -/
def stealOps (pid dev blockno i fuel : Nat) (s : State) :
    Nat → Int → Int → Outcome × List LockOp
  | 0, _, _ => (Outcome.timeout, [])
  | n + 1, j, min_ticks =>
    if j = (i : Int) then
      (Outcome.panic "bget: no buffers" s,
        [LockOp.release (LockId.bucket i), LockOp.release LockId.big])
    else match idx j with
      | none => (Outcome.fault, [])
      | some jn =>
        match findLru s jn fuel (s.mem (Ptr.head jn)).next none min_ticks with
        | Loop.timeout => (Outcome.timeout, [LockOp.acquire (LockId.bucket jn)])
        | Loop.fault => (Outcome.fault, [LockOp.acquire (LockId.bucket jn)])
        | Loop.done (some b2, _) =>
          match relink (s.upd b2 (claim dev blockno)) i b2 with
          | none => (Outcome.fault, [LockOp.acquire (LockId.bucket jn)])
          | some s1 =>
            (acquiresleep pid b2 s1,
              [LockOp.acquire (LockId.bucket jn), LockOp.release (LockId.bucket jn),
                LockOp.release (LockId.bucket i), LockOp.release LockId.big,
                LockOp.acquire (LockId.buffer b2)])
        | Loop.done (none, mt) =>
          let r := stealOps pid dev blockno i fuel s n (hash (j + 1)) mt
          (r.1, LockOp.acquire (LockId.bucket jn) :: LockOp.release (LockId.bucket jn) :: r.2)

/-- The C function `bget` together with the lock calls it makes, in program order; a run
that faults or runs out of fuel lists the calls made before the loop in which it stops. -/
def bgetOps (fuel pid : Nat) (s : State) (dev blockno : Nat) : Outcome × List LockOp :=
  match idx (hash (toInt blockno)) with
  | none => (Outcome.fault, [])
  | some i =>
    match findKey s i dev blockno fuel (s.mem (Ptr.head i)).next with
    | Loop.timeout => (Outcome.timeout, [LockOp.acquire (LockId.bucket i)])
    | Loop.fault => (Outcome.fault, [LockOp.acquire (LockId.bucket i)])
    | Loop.done (some b) =>
      (acquiresleep pid b (s.upd b incRef),
        [LockOp.acquire (LockId.bucket i), LockOp.release (LockId.bucket i),
          LockOp.acquire (LockId.buffer b)])
    | Loop.done none =>
      let pre := [LockOp.acquire (LockId.bucket i), LockOp.release (LockId.bucket i),
        LockOp.acquire LockId.big, LockOp.acquire (LockId.bucket i)]
      match findKey s i dev blockno fuel (s.mem (Ptr.head i)).next with
      | Loop.timeout => (Outcome.timeout, pre)
      | Loop.fault => (Outcome.fault, pre)
      | Loop.done (some b) =>
        (acquiresleep pid b (s.upd b incRef),
          pre ++ [LockOp.release (LockId.bucket i), LockOp.release LockId.big,
            LockOp.acquire (LockId.buffer b)])
      | Loop.done none =>
        match findLru s i fuel (s.mem (Ptr.head i)).next none 0 with
        | Loop.timeout => (Outcome.timeout, pre)
        | Loop.fault => (Outcome.fault, pre)
        | Loop.done (some b2, _) =>
          (acquiresleep pid b2 (s.upd b2 (claim dev blockno)),
            pre ++ [LockOp.release (LockId.bucket i), LockOp.release LockId.big,
              LockOp.acquire (LockId.buffer b2)])
        | Loop.done (none, mt) =>
          let r := stealOps pid dev blockno i fuel s fuel (hash ((i : Int) + 1)) mt
          (r.1, pre ++ r.2)

/-- The locks held after the calls of `ops`, when `held` were held before them (the one
taken last comes first). -/
def heldAfter : List LockId → List LockOp → List LockId
  | held, [] => held
  | held, LockOp.acquire l :: ops => heldAfter (l :: held) ops
  | held, LockOp.release l :: ops => heldAfter (held.erase l) ops

/-- The locks held after each call of `ops` in turn, when `held` were held before them. -/
def heldAlong : List LockId → List LockOp → List (List LockId)
  | _, [] => []
  | held, LockOp.acquire l :: ops => (l :: held) :: heldAlong (l :: held) ops
  | held, LockOp.release l :: ops => held.erase l :: heldAlong (held.erase l) ops

/-- The buckets whose lock is acquired by `ops`, in the order of the calls. -/
def visits : List LockOp → List Nat
  | [] => []
  | LockOp.acquire (LockId.bucket j) :: ops => j :: visits ops
  | _ :: ops => visits ops

/-- The lock calls of a passage of the stealing loop over the buckets `js`, none of which
yields a buffer. -/
def passOps : List Nat → List LockOp
  | [] => []
  | j :: js => LockOp.acquire (LockId.bucket j) :: LockOp.release (LockId.bucket j) :: passOps js

/-- The bucket locks among `held` other than `lock[i]`. -/
def foreign (i : Nat) (held : List LockId) : List LockId :=
  held.filter (fun l => match l with
    | LockId.bucket j => decide (j ≠ i)
    | _ => false)

/-! Keys -/

/-- At most one buffer of the pool carries the key `(dev, blockno)`. -/
def Unique (N : Nat) (s : State) (dev blockno : Nat) : Prop :=
  ∀ k1 < N, ∀ k2 < N, Carries s dev blockno k1 → Carries s dev blockno k2 → k1 = k2

end Bcache

namespace Bcache

/-! Basic facts about stores -/

theorem upd_mem_same (s : State) (p : Ptr) (f : Buf → Buf) :
    (s.upd p f).mem p = f (s.mem p) := by
  simp [State.upd]

theorem upd_mem_other (s : State) (p q : Ptr) (f : Buf → Buf) (h : q ≠ p) :
    (s.upd p f).mem q = s.mem q := by
  simp [State.upd, h]

/-- A chain only depends on the links of the nodes it runs through. -/
theorem chain_congr (s t : State) (hn : ∀ q, (t.mem q).next = (s.mem q).next)
    (hp : ∀ q, (t.mem q).prev = (s.mem q).prev) :
    ∀ (l : List Nat) (a z : Ptr), Chain s a l z → Chain t a l z := by
  intro l
  induction l with
  | nil => intro a z h; simpa [Chain, hn, hp] using h
  | cons k t ih =>
    intro a z h
    obtain ⟨h1, h2, h3⟩ := h
    exact ⟨by rw [hn, h1], by rw [hp, h2], ih _ _ h3⟩

/-- The scan for a key along a chain: it stops at the first buffer that carries the key. -/
theorem findKey_chain (s : State) (i dev blockno : Nat) :
    ∀ (l : List Nat) (a : Ptr) (fuel : Nat), Chain s a l (Ptr.head i) → l.length < fuel →
      findKey s i dev blockno fuel (s.mem a).next
        = Loop.done ((l.find? (fun k => decide (Carries s dev blockno k))).map Ptr.buf) := by
  intro l
  induction l with
  | nil =>
    intro a fuel h hf
    obtain ⟨h1, _⟩ := h
    cases fuel with
    | zero => simp at hf
    | succ n => simp [findKey, h1]
  | cons k t ih =>
    intro a fuel h hf
    obtain ⟨h1, _, h3⟩ := h
    cases fuel with
    | zero => simp at hf
    | succ n =>
      have hn : t.length < n := by simpa using hf
      rw [h1]
      by_cases hc : Carries s dev blockno k
      · have hc2 := hc
        unfold Carries at hc2
        simp [findKey, List.find?, hc, hc2]
      · have hc2 := hc
        unfold Carries at hc2
        simp only [findKey, List.find?, hc, decide_False]
        simp only [reduceCtorEq, if_false, hc2]
        exact ih _ _ h3 hn

theorem ring_congr (s t : State) (hn : ∀ q, (t.mem q).next = (s.mem q).next)
    (hp : ∀ q, (t.mem q).prev = (s.mem q).prev) (j : Nat) (l : List Nat) :
    Ring s j l ↔ Ring t j l :=
  ⟨chain_congr s t hn hp l _ _,
   chain_congr t s (fun q => (hn q).symm) (fun q => (hp q).symm) l _ _⟩

theorem find_first (p : Nat → Bool) (l1 l2 : List Nat) (k : Nat) (hk : p k = true)
    (h1 : ∀ x ∈ l1, p x = false) : (l1 ++ k :: l2).find? p = some k := by
  induction l1 with
  | nil => simp [List.find?, hk]
  | cons a t ih =>
    have ha : p a = false := h1 a (by simp)
    simp only [List.cons_append, List.find?, ha]
    exact ih (fun x hx => h1 x (by simp [hx]))

/-- The outcome of `acquiresleep`: the lock is taken when free, the caller sleeps otherwise;
nothing but the lock of `b` changes. -/
theorem acquiresleep_spec (pid : Nat) (b : Ptr) (s : State) :
    ∃ t, acquiresleep pid b s
        = (if (s.mem b).lock = none then Outcome.ret b t else Outcome.sleep b t)
      ∧ (t.mem b).lock = (if (s.mem b).lock = none then some pid else (s.mem b).lock)
      ∧ (∀ q, (t.mem q).valid = (s.mem q).valid ∧ (t.mem q).dev = (s.mem q).dev
          ∧ (t.mem q).blockno = (s.mem q).blockno ∧ (t.mem q).refcnt = (s.mem q).refcnt
          ∧ (t.mem q).lastuse = (s.mem q).lastuse ∧ (t.mem q).prev = (s.mem q).prev
          ∧ (t.mem q).next = (s.mem q).next ∧ (t.mem q).data = (s.mem q).data)
      ∧ (∀ q, q ≠ b → t.mem q = s.mem q) := by
  by_cases h : (s.mem b).lock = none
  · refine ⟨s.upd b (setLock (some pid)), ?_, ?_, ?_, ?_⟩
    · simp [acquiresleep, h]
    · simp [h, upd_mem_same, setLock]
    · intro q
      by_cases hq : q = b
      · subst hq; simp [upd_mem_same, setLock]
      · simp [upd_mem_other _ _ _ _ hq]
    · intro q hq; exact upd_mem_other _ _ _ _ hq
  · exact ⟨s, by simp [acquiresleep, h], by simp [h], fun q => by simp, fun q _ => rfl⟩

/-- C1 (cache hit).  In a state where the list of bucket `hash(blockno)` is
`l1 ++ k :: l2`, buffer `k` carries the key `(dev, blockno)` and no buffer of `l1` does,
`bget(dev, blockno)` resolves to `bcache.buf[k]` (it returns it when its sleep lock is
free and waits for that lock otherwise), `refcnt` of that buffer has gone up by one (in
`uint` arithmetic, so by exactly one unless it was `UINT - 1`), its `dev`, `blockno`,
`valid`, `lastuse` and payload are as before, every other buffer is untouched, no link
has changed and every bucket has the list it had. -/
theorem bget_hit (s : State) (fuel pid dev blockno i : Nat) (l1 l2 : List Nat) (k : Nat)
    (hi : idx (hash (toInt blockno)) = some i)
    (hring : Ring s i (l1 ++ k :: l2))
    (hfuel : (l1 ++ k :: l2).length < fuel)
    (hk : Carries s dev blockno k)
    (hfirst : ∀ x ∈ l1, ¬ Carries s dev blockno x) :
    ∃ t, bget fuel pid s dev blockno
        = (if (s.mem (Ptr.buf k)).lock = none then Outcome.ret (Ptr.buf k) t
           else Outcome.sleep (Ptr.buf k) t)
      ∧ (t.mem (Ptr.buf k)).refcnt = ((s.mem (Ptr.buf k)).refcnt + 1) % UINT
      ∧ ((s.mem (Ptr.buf k)).refcnt + 1 < UINT →
          (t.mem (Ptr.buf k)).refcnt = (s.mem (Ptr.buf k)).refcnt + 1)
      ∧ (t.mem (Ptr.buf k)).dev = (s.mem (Ptr.buf k)).dev
      ∧ (t.mem (Ptr.buf k)).blockno = (s.mem (Ptr.buf k)).blockno
      ∧ (t.mem (Ptr.buf k)).valid = (s.mem (Ptr.buf k)).valid
      ∧ (t.mem (Ptr.buf k)).lastuse = (s.mem (Ptr.buf k)).lastuse
      ∧ (t.mem (Ptr.buf k)).data = (s.mem (Ptr.buf k)).data
      ∧ (∀ q, q ≠ Ptr.buf k → t.mem q = s.mem q)
      ∧ (∀ q, (t.mem q).next = (s.mem q).next ∧ (t.mem q).prev = (s.mem q).prev)
      ∧ (∀ j l, Ring s j l ↔ Ring t j l) := by
  have hscan : findKey s i dev blockno fuel (s.mem (Ptr.head i)).next
      = Loop.done (some (Ptr.buf k)) := by
    rw [findKey_chain s i dev blockno _ _ fuel hring hfuel,
      find_first _ l1 l2 k (by simpa using hk) (fun x hx => by simpa using hfirst x hx)]
    rfl
  obtain ⟨t, ht, hlock, hfields, hother⟩ := acquiresleep_spec pid (Ptr.buf k) (s.upd (Ptr.buf k) incRef)
  have hsame : (s.upd (Ptr.buf k) incRef).mem (Ptr.buf k) = incRef (s.mem (Ptr.buf k)) :=
    upd_mem_same _ _ _
  have hlinks : ∀ q, (t.mem q).next = (s.mem q).next ∧ (t.mem q).prev = (s.mem q).prev := by
    intro q
    obtain ⟨_, _, _, _, _, hp, hn, _⟩ := hfields q
    by_cases hq : q = Ptr.buf k
    · subst hq; rw [hn, hp, hsame]; simp [incRef]
    · rw [hn, hp, upd_mem_other _ _ _ _ hq]; simp
  refine ⟨t, ?_, ?_, ?_, ?_, ?_, ?_, ?_, ?_, ?_, hlinks, ?_⟩
  · simp only [bget, hi, hscan]
    rw [ht, hsame]; simp [incRef]
  · rw [(hfields _).2.2.2.1, hsame]; simp [incRef]
  · intro hlt
    rw [(hfields _).2.2.2.1, hsame]
    simp only [incRef]
    exact Nat.mod_eq_of_lt hlt
  · rw [(hfields _).2.1, hsame]; simp [incRef]
  · rw [(hfields _).2.2.1, hsame]; simp [incRef]
  · rw [(hfields _).1, hsame]; simp [incRef]
  · rw [(hfields _).2.2.2.2.1, hsame]; simp [incRef]
  · rw [(hfields _).2.2.2.2.2.2.2, hsame]; simp [incRef]
  · intro q hq
    rw [hother q hq, upd_mem_other _ _ _ _ hq]
  · intro j l
    exact ring_congr s t (fun q => (hlinks q).1) (fun q => (hlinks q).2) j l

/-- Witness for C1: right after `binit` with three buffers, `bget(0, 0)` hits
`bcache.buf[2]`, the first buffer of bucket 0. -/
theorem bget_hit_witness :
    idx (hash (toInt 0)) = some 0 ∧ Ring (binit 3 zeroed) 0 ([] ++ 2 :: [1, 0])
    ∧ ∃ t, bget 4 1 (binit 3 zeroed) 0 0
        = (if ((binit 3 zeroed).mem (Ptr.buf 2)).lock = none then Outcome.ret (Ptr.buf 2) t
           else Outcome.sleep (Ptr.buf 2) t)
      ∧ (t.mem (Ptr.buf 2)).refcnt = (((binit 3 zeroed).mem (Ptr.buf 2)).refcnt + 1) % UINT
      ∧ (((binit 3 zeroed).mem (Ptr.buf 2)).refcnt + 1 < UINT →
          (t.mem (Ptr.buf 2)).refcnt = ((binit 3 zeroed).mem (Ptr.buf 2)).refcnt + 1)
      ∧ (t.mem (Ptr.buf 2)).dev = ((binit 3 zeroed).mem (Ptr.buf 2)).dev
      ∧ (t.mem (Ptr.buf 2)).blockno = ((binit 3 zeroed).mem (Ptr.buf 2)).blockno
      ∧ (t.mem (Ptr.buf 2)).valid = ((binit 3 zeroed).mem (Ptr.buf 2)).valid
      ∧ (t.mem (Ptr.buf 2)).lastuse = ((binit 3 zeroed).mem (Ptr.buf 2)).lastuse
      ∧ (t.mem (Ptr.buf 2)).data = ((binit 3 zeroed).mem (Ptr.buf 2)).data
      ∧ (∀ q, q ≠ Ptr.buf 2 → t.mem q = (binit 3 zeroed).mem q)
      ∧ (∀ q, (t.mem q).next = ((binit 3 zeroed).mem q).next
          ∧ (t.mem q).prev = ((binit 3 zeroed).mem q).prev)
      ∧ (∀ j l, Ring (binit 3 zeroed) j l ↔ Ring t j l) :=
  ⟨by decide, by decide,
   bget_hit (binit 3 zeroed) 4 1 0 0 0 [] [1, 0] 2 (by decide) (by decide) (by decide)
     (by decide) (by simp)⟩

/-! Machine integers and bucket indices -/

theorem toUint_toInt (x : Nat) (h : x < UINT) : toUint (toInt x) = x := by
  unfold UINT at h
  simp only [toUint, toInt, UINT, Nat.mod_eq_of_lt h]
  split <;> omega

theorem hash_nonneg (z : Int) (h : 0 ≤ z) : hash z = z % 13 := by
  simp only [hash, NBUCKET]
  exact Int.tmod_eq_emod h (by decide)

/-- For a block number below `2^31` the bucket index is `blockno % NBUCKET`. -/
theorem idx_hash_blockno (blockno : Nat) (h : blockno < 2147483648) :
    idx (hash (toInt blockno)) = some (blockno % NBUCKET) := by
  have h1 : toInt blockno = (blockno : Int) := by
    have : blockno % UINT = blockno := Nat.mod_eq_of_lt (by unfold UINT; omega)
    simp [toInt, this, h]
  rw [h1, hash_nonneg _ (by omega)]
  simp only [idx, NBUCKET]
  rw [if_pos (by omega)]
  congr 1

/-- Every index accepted by the bounds check is below `NBUCKET`. -/
theorem idx_lt (z : Int) (i : Nat) (h : idx z = some i) : i < NBUCKET ∧ z = (i : Int) := by
  unfold idx at h
  split at h
  · rename_i hz
    simp only [Option.some.injEq] at h
    simp only [NBUCKET] at hz ⊢
    omega
  · simp at h

theorem idx_cast (j : Nat) (h : j < NBUCKET) : idx (j : Int) = some j := by
  simp only [NBUCKET] at h
  simp only [idx, NBUCKET]
  rw [if_pos (by omega)]
  simp

/-- The step `j = hash(j + 1)` of the stealing loop. -/
theorem hash_succ (j : Nat) : hash ((j : Int) + 1) = (((j + 1) % NBUCKET : Nat) : Int) := by
  rw [hash_nonneg _ (by omega)]
  simp only [NBUCKET]
  omega

/-! The scan for the least recently used free buffer -/

theorem findLru_chain (s : State) (j : Nat) :
    ∀ (l : List Nat) (a : Ptr) (fuel : Nat) (b2 : Option Ptr) (mt : Int),
      Chain s a l (Ptr.head j) → l.length < fuel →
      findLru s j fuel (s.mem a).next b2 mt = Loop.done (lruScan s l b2 mt) := by
  intro l
  induction l with
  | nil =>
    intro a fuel b2 mt h hf
    obtain ⟨h1, _⟩ := h
    cases fuel with
    | zero => simp at hf
    | succ n => simp [findLru, lruScan, h1]
  | cons k t ih =>
    intro a fuel b2 mt h hf
    obtain ⟨h1, _, h3⟩ := h
    cases fuel with
    | zero => simp at hf
    | succ n =>
      have hn : t.length < n := by simpa using hf
      rw [h1]
      simp only [findLru, lruScan, reduceCtorEq, if_false]
      split
      · exact ih _ _ _ _ h3 hn
      · exact ih _ _ _ _ h3 hn

/-- The scan continued with a candidate `c` in hand: it ends with `c` when no free buffer
of `l` is older, and otherwise with the least recently used free buffer of `l`. -/
theorem lruScan_some (s : State) :
    ∀ (l : List Nat) (c : Nat), (s.mem (Ptr.buf c)).lastuse < UINT →
      (∀ x ∈ l, (s.mem (Ptr.buf x)).lastuse < UINT) →
      ∃ k, lruScan s l (some (Ptr.buf c)) (toInt (s.mem (Ptr.buf c)).lastuse)
            = (some (Ptr.buf k), toInt (s.mem (Ptr.buf k)).lastuse)
        ∧ ((k = c ∧ ∀ x ∈ l, Free s x →
              (s.mem (Ptr.buf c)).lastuse ≤ (s.mem (Ptr.buf x)).lastuse)
          ∨ ((s.mem (Ptr.buf k)).lastuse < (s.mem (Ptr.buf c)).lastuse ∧ IsLru s l k)) := by
  intro l
  induction l with
  | nil =>
    intro c _ _
    exact ⟨c, rfl, Or.inl ⟨rfl, by simp⟩⟩
  | cons a t ih =>
    intro c hc hb
    have ha : (s.mem (Ptr.buf a)).lastuse < UINT := hb a (by simp)
    have ht : ∀ x ∈ t, (s.mem (Ptr.buf x)).lastuse < UINT := fun x hx => hb x (by simp [hx])
    simp only [lruScan, toUint_toInt _ hc, reduceCtorEq, false_or]
    split
    · rename_i hcond
      obtain ⟨k, hk, hcase⟩ := ih a ha ht
      refine ⟨k, hk, Or.inr ?_⟩
      rcases hcase with ⟨rfl, hmin⟩ | ⟨hlt, l1, l2, hl, hfree, h1, h2⟩
      · exact ⟨hcond.2, [], t, rfl, hcond.1, by simp, hmin⟩
      · refine ⟨by omega, (a :: l1), l2, ?_, hfree, ?_, h2⟩
        · simp [hl]
        · intro x hx hxf
          simp only [List.mem_cons] at hx
          rcases hx with rfl | hx
          · exact hlt
          · exact h1 x hx hxf
    · rename_i hcond
      obtain ⟨k, hk, hcase⟩ := ih c hc ht
      refine ⟨k, hk, ?_⟩
      have hac : Free s a → (s.mem (Ptr.buf c)).lastuse ≤ (s.mem (Ptr.buf a)).lastuse := by
        intro hf
        by_contra hlt
        exact hcond ⟨hf, by omega⟩
      rcases hcase with ⟨rfl, hmin⟩ | ⟨hlt, l1, l2, hl, hfree, h1, h2⟩
      · left
        refine ⟨rfl, ?_⟩
        intro x hx hxf
        simp only [List.mem_cons] at hx
        rcases hx with rfl | hx
        · exact hac hxf
        · exact hmin x hx hxf
      · right
        refine ⟨hlt, (a :: l1), l2, ?_, hfree, ?_, h2⟩
        · simp [hl]
        · intro x hx hxf
          simp only [List.mem_cons] at hx
          rcases hx with rfl | hx
          · have := hac hxf; omega
          · exact h1 x hx hxf

/-- A scan entered with `b2 == 0` over a list without a free buffer leaves `b2` and
`min_ticks` as they were. -/
theorem lruScan_none_of_busy (s : State) (mt : Int) :
    ∀ (l : List Nat), (∀ x ∈ l, ¬ Free s x) → lruScan s l none mt = (none, mt) := by
  intro l
  induction l with
  | nil => intro _; rfl
  | cons a t ih =>
    intro h
    have ha : ¬ (s.mem (Ptr.buf a)).refcnt = 0 := h a (by simp)
    simp only [lruScan, ha, false_and, if_false]
    exact ih (fun x hx => h x (by simp [hx]))

/-- A scan entered with `b2 == 0` over a list with a free buffer ends at the least
recently used free buffer of the list. -/
theorem lruScan_none_of_free (s : State) (mt : Int) :
    ∀ (l : List Nat), (∀ x ∈ l, (s.mem (Ptr.buf x)).lastuse < UINT) → (∃ x ∈ l, Free s x) →
      ∃ k, lruScan s l none mt = (some (Ptr.buf k), toInt (s.mem (Ptr.buf k)).lastuse)
        ∧ IsLru s l k := by
  intro l
  induction l with
  | nil => intro _ h; simp at h
  | cons a t ih =>
    intro hb hfree
    have hba : (s.mem (Ptr.buf a)).lastuse < UINT := hb a (by simp)
    have hbt : ∀ x ∈ t, (s.mem (Ptr.buf x)).lastuse < UINT := fun x hx => hb x (by simp [hx])
    by_cases ha : Free s a
    · have ha2 : (s.mem (Ptr.buf a)).refcnt = 0 := ha
      simp only [lruScan, ha2, true_or, and_self, if_true]
      obtain ⟨k, hk, hcase⟩ := lruScan_some s t a hba hbt
      refine ⟨k, hk, ?_⟩
      rcases hcase with ⟨rfl, hmin⟩ | ⟨hlt, l1, l2, hl, hkf, h1, h2⟩
      · exact ⟨[], t, rfl, ha, by simp, hmin⟩
      · refine ⟨a :: l1, l2, by simp [hl], hkf, ?_, h2⟩
        intro x hx hxf
        simp only [List.mem_cons] at hx
        rcases hx with rfl | hx
        · exact hlt
        · exact h1 x hx hxf
    · have ha2 : ¬ (s.mem (Ptr.buf a)).refcnt = 0 := ha
      simp only [lruScan, ha2, false_and, if_false]
      have hfree2 : ∃ x ∈ t, Free s x := by
        obtain ⟨x, hx, hxf⟩ := hfree
        simp only [List.mem_cons] at hx
        rcases hx with rfl | hx
        · exact absurd hxf ha
        · exact ⟨x, hx, hxf⟩
      obtain ⟨k, hk, l1, l2, hl, hkf, h1, h2⟩ := ih hbt hfree2
      refine ⟨k, hk, a :: l1, l2, by simp [hl], hkf, ?_, h2⟩
      intro x hx hxf
      simp only [List.mem_cons] at hx
      rcases hx with rfl | hx
      · exact absurd hxf ha
      · exact h1 x hx hxf

theorem find_none_of_miss (s : State) (dev blockno : Nat) (l : List Nat)
    (h : ∀ x ∈ l, ¬ Carries s dev blockno x) :
    l.find? (fun k => decide (Carries s dev blockno k)) = none := by
  simp only [List.find?_eq_none, decide_eq_true_eq]
  exact h

/-! Execution of `bget`, path by path -/

/-- Hit: `bget` is `b->refcnt++` on the first buffer carrying the key, followed by
`acquiresleep`. -/
theorem bget_exec_hit (s : State) (fuel pid dev blockno i : Nat) (l1 l2 : List Nat) (k : Nat)
    (hi : idx (hash (toInt blockno)) = some i)
    (hring : Ring s i (l1 ++ k :: l2))
    (hfuel : (l1 ++ k :: l2).length < fuel)
    (hk : Carries s dev blockno k)
    (hfirst : ∀ x ∈ l1, ¬ Carries s dev blockno x) :
    bget fuel pid s dev blockno = acquiresleep pid (Ptr.buf k) (s.upd (Ptr.buf k) incRef) := by
  have hscan : findKey s i dev blockno fuel (s.mem (Ptr.head i)).next
      = Loop.done (some (Ptr.buf k)) := by
    rw [findKey_chain s i dev blockno _ _ fuel hring hfuel,
      find_first _ l1 l2 k (by simpa using hk) (fun x hx => by simpa using hfirst x hx)]
    rfl
  simp only [bget, hi, hscan]

/-- Miss with a free buffer in the target bucket: `bget` repurposes the least recently used
free buffer of that bucket. -/
theorem bget_exec_local (s : State) (fuel pid dev blockno i : Nat) (l : List Nat)
    (hi : idx (hash (toInt blockno)) = some i)
    (hring : Ring s i l) (hfuel : l.length < fuel)
    (hmiss : ∀ x ∈ l, ¬ Carries s dev blockno x)
    (hbound : ∀ x ∈ l, (s.mem (Ptr.buf x)).lastuse < UINT)
    (hfree : ∃ x ∈ l, Free s x) :
    ∃ k, IsLru s l k ∧ bget fuel pid s dev blockno
        = acquiresleep pid (Ptr.buf k) (s.upd (Ptr.buf k) (claim dev blockno)) := by
  have hscan : findKey s i dev blockno fuel (s.mem (Ptr.head i)).next = Loop.done none := by
    rw [findKey_chain s i dev blockno _ _ fuel hring hfuel, find_none_of_miss s dev blockno l hmiss]
    rfl
  obtain ⟨k, hk, hlru⟩ := lruScan_none_of_free s 0 l hbound hfree
  refine ⟨k, hlru, ?_⟩
  simp only [bget, hi, hscan, findLru_chain s i l _ fuel none 0 hring hfuel, hk]

/-! Chains under pointer updates -/

theorem chain_next (s : State) (a z : Ptr) (l : List Nat) (h : Chain s a l z) :
    (s.mem a).next = firstNode l z := by
  cases l with
  | nil => exact h.1
  | cons k t => exact h.1

theorem chain_prev (s : State) (z : Ptr) :
    ∀ (l : List Nat) (a : Ptr), Chain s a l z → (s.mem z).prev = lastNode a l := by
  intro l
  induction l with
  | nil => intro a h; exact h.2
  | cons k t ih => intro a h; exact ih _ h.2.2

theorem lastNode_cases (a : Ptr) (l : List Nat) :
    lastNode a l = a ∨ ∃ y ∈ l, lastNode a l = Ptr.buf y := by
  induction l generalizing a with
  | nil => exact Or.inl rfl
  | cons k t ih =>
    right
    rcases ih (Ptr.buf k) with h | ⟨y, hy, h⟩
    · exact ⟨k, by simp, h⟩
    · exact ⟨y, by simp [hy], h⟩

theorem firstNode_cases (l : List Nat) (z : Ptr) :
    firstNode l z = z ∨ ∃ y ∈ l, firstNode l z = Ptr.buf y := by
  cases l with
  | nil => exact Or.inl rfl
  | cons k t => exact Or.inr ⟨k, by simp, rfl⟩

/-- A chain is kept by any change of the memory that leaves alone the `next` of its start
and of its buffers and the `prev` of its buffers and of its end. -/
theorem chain_frame (s t : State) (z : Ptr) :
    ∀ (l : List Nat) (a : Ptr), Chain s a l z →
      (t.mem a).next = (s.mem a).next →
      (∀ x ∈ l, (t.mem (Ptr.buf x)).next = (s.mem (Ptr.buf x)).next
        ∧ (t.mem (Ptr.buf x)).prev = (s.mem (Ptr.buf x)).prev) →
      (t.mem z).prev = (s.mem z).prev → Chain t a l z := by
  intro l
  induction l with
  | nil =>
    intro a h ha _ hz
    exact ⟨by rw [ha]; exact h.1, by rw [hz]; exact h.2⟩
  | cons k r ih =>
    intro a h ha hl hz
    obtain ⟨h1, h2, h3⟩ := h
    refine ⟨by rw [ha]; exact h1, by rw [(hl k (by simp)).2]; exact h2, ?_⟩
    exact ih _ h3 (hl k (by simp)).1 (fun x hx => hl x (by simp [hx])) hz

/-- Unlinking: when the node before `k` is made to point to the node behind `k` and back,
the chain over `l1 ++ k :: l2` becomes a chain over `l1 ++ l2`. -/
theorem chain_unlink (s t : State) (z : Ptr) (k : Nat) (l2 : List Nat)
    (hz : ∀ x, z ≠ Ptr.buf x) :
    ∀ (l1 : List Nat) (a : Ptr), Chain s a (l1 ++ k :: l2) z → (l1 ++ k :: l2).Nodup →
      (∀ x ∈ l1 ++ k :: l2, a ≠ Ptr.buf x) →
      (t.mem (lastNode a l1)).next = firstNode l2 z →
      (t.mem (firstNode l2 z)).prev = lastNode a l1 →
      (∀ q, q ≠ lastNode a l1 → (q = a ∨ ∃ x ∈ l1 ++ l2, q = Ptr.buf x) →
        (t.mem q).next = (s.mem q).next) →
      (∀ q, q ≠ firstNode l2 z → (q = z ∨ ∃ x ∈ l1 ++ l2, q = Ptr.buf x) →
        (t.mem q).prev = (s.mem q).prev) →
      Chain t a (l1 ++ l2) z := by
  intro l1
  induction l1 with
  | nil =>
    intro a h hnd ha h1 h2 h3 h4
    simp only [List.nil_append, lastNode] at *
    obtain ⟨_, _, hrest⟩ := h
    cases l2 with
    | nil => exact ⟨h1, h2⟩
    | cons x r =>
      simp only [firstNode] at h1 h2 h4
      obtain ⟨hx1, hx2, hx3⟩ := hrest
      have hxr : x ∉ r := by
        have := (List.nodup_cons.1 hnd).2
        exact (List.nodup_cons.1 this).1
      refine ⟨h1, h2, chain_frame s t z r _ hx3 ?_ ?_ ?_⟩
      · exact h3 _ (fun hq => ha x (by simp) hq.symm) (Or.inr ⟨x, by simp, rfl⟩)
      · intro y hy
        refine ⟨h3 _ (fun hq => ha y (by simp [hy]) hq.symm) (Or.inr ⟨y, by simp [hy], rfl⟩), ?_⟩
        refine h4 _ ?_ (Or.inr ⟨y, by simp [hy], rfl⟩)
        intro hq
        simp only [Ptr.buf.injEq] at hq
        exact hxr (hq ▸ hy)
      · exact h4 _ (hz x) (Or.inl rfl)
  | cons y t1 ih =>
    intro a h hnd ha h1 h2 h3 h4
    simp only [List.cons_append, lastNode] at *
    obtain ⟨hy1, hy2, hy3⟩ := h
    have hnd2 := List.nodup_cons.1 hnd
    have hlast : a ≠ lastNode (Ptr.buf y) t1 := by
      rcases lastNode_cases (Ptr.buf y) t1 with h | ⟨w, hw, h⟩
      · rw [h]; exact ha y (by simp)
      · rw [h]; exact ha w (by simp [hw])
    have hfirst : Ptr.buf y ≠ firstNode l2 z := by
      rcases firstNode_cases l2 z with h | ⟨w, hw, h⟩
      · rw [h]; exact (hz y).symm
      · rw [h]
        intro hq
        simp only [Ptr.buf.injEq] at hq
        exact hnd2.1 (by simp [hq, hw])
    refine ⟨?_, ?_, ih (Ptr.buf y) hy3 hnd2.2 ?_ h1 h2 ?_ ?_⟩
    · rw [h3 a hlast (Or.inl rfl)]; exact hy1
    · rw [h4 _ hfirst (Or.inr ⟨y, by simp, rfl⟩)]; exact hy2
    · intro x hx hq
      simp only [Ptr.buf.injEq] at hq
      exact hnd2.1 (hq ▸ hx)
    · intro q hq hmem
      refine h3 q hq (Or.inr ?_)
      rcases hmem with rfl | ⟨x, hx, rfl⟩
      · exact ⟨y, by simp, rfl⟩
      · exact ⟨x, by simp [hx], rfl⟩
    · intro q hq hmem
      refine h4 q hq ?_
      rcases hmem with rfl | ⟨x, hx, rfl⟩
      · exact Or.inl rfl
      · exact Or.inr ⟨x, by simp [hx], rfl⟩

/-- Insertion behind the head: when `k` is linked between `head[i]` and the old first node,
the list `li` of the bucket becomes `k :: li`. -/
theorem ring_push (s t : State) (i k : Nat) (li : List Nat)
    (h : Ring s i li) (hnd : li.Nodup)
    (h1 : (t.mem (Ptr.head i)).next = Ptr.buf k)
    (h2 : (t.mem (Ptr.buf k)).prev = Ptr.head i)
    (h3 : (t.mem (Ptr.buf k)).next = firstNode li (Ptr.head i))
    (h4 : (t.mem (firstNode li (Ptr.head i))).prev = Ptr.buf k)
    (h5 : ∀ x ∈ li, (t.mem (Ptr.buf x)).next = (s.mem (Ptr.buf x)).next)
    (h6 : ∀ q, q ≠ firstNode li (Ptr.head i) → (q = Ptr.head i ∨ ∃ x ∈ li, q = Ptr.buf x) →
      (t.mem q).prev = (s.mem q).prev) :
    Ring t i (k :: li) := by
  refine ⟨h1, h2, ?_⟩
  cases li with
  | nil => exact ⟨h3, h4⟩
  | cons x r =>
    simp only [firstNode] at h3 h4 h6
    obtain ⟨_, _, hx3⟩ := h
    have hxr : x ∉ r := (List.nodup_cons.1 hnd).1
    refine ⟨h3, h4, chain_frame s t _ r _ hx3 (h5 x (by simp)) ?_ ?_⟩
    · intro y hy
      refine ⟨h5 y (by simp [hy]), h6 _ ?_ (Or.inr ⟨y, by simp [hy], rfl⟩)⟩
      intro hq
      simp only [Ptr.buf.injEq] at hq
      exact hxr (hq ▸ hy)
    · exact h6 _ (by simp) (Or.inl rfl)

/-! Links after a store -/

theorem upd_setPrev_next (s : State) (p q v : Ptr) :
    ((s.upd p (setPrev v)).mem q).next = (s.mem q).next := by
  by_cases h : q = p
  · subst h; rw [upd_mem_same]; rfl
  · rw [upd_mem_other _ _ _ _ h]

theorem upd_setPrev_prev (s : State) (p q v : Ptr) :
    ((s.upd p (setPrev v)).mem q).prev = if q = p then v else (s.mem q).prev := by
  by_cases h : q = p
  · subst h; rw [upd_mem_same]; simp [setPrev]
  · rw [upd_mem_other _ _ _ _ h]; simp [h]

theorem upd_setNext_prev (s : State) (p q v : Ptr) :
    ((s.upd p (setNext v)).mem q).prev = (s.mem q).prev := by
  by_cases h : q = p
  · subst h; rw [upd_mem_same]; rfl
  · rw [upd_mem_other _ _ _ _ h]

theorem upd_setNext_next (s : State) (p q v : Ptr) :
    ((s.upd p (setNext v)).mem q).next = if q = p then v else (s.mem q).next := by
  by_cases h : q = p
  · subst h; rw [upd_mem_same]; simp [setNext]
  · rw [upd_mem_other _ _ _ _ h]; simp [h]

theorem upd_setPrev_info (s : State) (p q v : Ptr) :
    ((s.upd p (setPrev v)).mem q).info = (s.mem q).info := by
  by_cases h : q = p
  · subst h; rw [upd_mem_same]; rfl
  · rw [upd_mem_other _ _ _ _ h]

theorem upd_setNext_info (s : State) (p q v : Ptr) :
    ((s.upd p (setNext v)).mem q).info = (s.mem q).info := by
  by_cases h : q = p
  · subst h; rw [upd_mem_same]; rfl
  · rw [upd_mem_other _ _ _ _ h]

/-- The links after lines 171-178, when `P`, `X` are the neighbours of `b2` and `F` is the
first node of bucket `i`. -/
theorem relink_links (s : State) (i k : Nat) (P X F : Ptr)
    (hP : (s.mem (Ptr.buf k)).prev = P) (hX : (s.mem (Ptr.buf k)).next = X)
    (hF : (s.mem (Ptr.head i)).next = F)
    (hXn : X ≠ Ptr.null) (hPn : P ≠ Ptr.null) (hFn : F ≠ Ptr.null) (hPi : P ≠ Ptr.head i) :
    ∃ t, relink s i (Ptr.buf k) = some t
      ∧ (∀ q, (t.mem q).next = if q = Ptr.head i then Ptr.buf k else if q = Ptr.buf k then F
          else if q = P then X else (s.mem q).next)
      ∧ (∀ q, (t.mem q).prev = if q = F then Ptr.buf k else if q = Ptr.buf k then Ptr.head i
          else if q = X then P else (s.mem q).prev)
      ∧ (∀ q, (t.mem q).info = (s.mem q).info) := by
  have hiP : Ptr.head i ≠ P := fun h => hPi h.symm
  have e1 : ((s.upd X (setPrev P)).mem (Ptr.buf k)).prev = P := by
    rw [upd_setPrev_prev]; split
    · rfl
    · exact hP
  unfold relink
  simp only [hX, hP, e1, upd_setPrev_next, upd_setNext_next, upd_setNext_prev, upd_setPrev_prev,
    hXn, hPn, hFn, hF, hiP, if_false, reduceCtorEq]
  refine ⟨_, rfl, ?_, ?_, ?_⟩
  · intro q
    simp only [upd_setPrev_next, upd_setNext_next]
  · intro q
    simp only [upd_setNext_prev, upd_setPrev_prev]
  · intro q
    simp only [upd_setNext_info, upd_setPrev_info]

theorem chain_split (s : State) (z : Ptr) (k : Nat) (l2 : List Nat) :
    ∀ (l1 : List Nat) (a : Ptr), Chain s a (l1 ++ k :: l2) z →
      (s.mem (Ptr.buf k)).prev = lastNode a l1 ∧ (s.mem (Ptr.buf k)).next = firstNode l2 z := by
  intro l1
  induction l1 with
  | nil =>
    intro a h
    exact ⟨h.2.1, chain_next s _ z l2 h.2.2⟩
  | cons y t ih =>
    intro a h
    exact ih _ h.2.2

/-- A node of the bucket with head `a` and list `l`. -/
theorem node_ne (p q : Ptr) (a b : Nat) (l m : List Nat)
    (hp : p = Ptr.head a ∨ ∃ y ∈ l, p = Ptr.buf y)
    (hq : q = Ptr.head b ∨ ∃ y ∈ m, q = Ptr.buf y)
    (hab : a ≠ b) (hd : ∀ x ∈ l, x ∉ m) : p ≠ q := by
  rcases hp with rfl | ⟨y, hy, rfl⟩ <;> rcases hq with rfl | ⟨w, hw, rfl⟩
  · simpa using hab
  · simp
  · simp
  · intro h
    simp only [Ptr.buf.injEq] at h
    exact hd y hy (h ▸ hw)

theorem node_ne_null (p : Ptr) (a : Nat) (l : List Nat)
    (hp : p = Ptr.head a ∨ ∃ y ∈ l, p = Ptr.buf y) : p ≠ Ptr.null := by
  rcases hp with rfl | ⟨y, _, rfl⟩ <;> simp

theorem node_ne_buf (p : Ptr) (a k : Nat) (l : List Nat)
    (hp : p = Ptr.head a ∨ ∃ y ∈ l, p = Ptr.buf y) (hk : k ∉ l) : p ≠ Ptr.buf k := by
  rcases hp with rfl | ⟨y, hy, rfl⟩
  · simp
  · intro h
    simp only [Ptr.buf.injEq] at h
    exact hk (h ▸ hy)

theorem node_ne_head (p : Ptr) (a b : Nat) (l : List Nat)
    (hp : p = Ptr.head a ∨ ∃ y ∈ l, p = Ptr.buf y) (hab : a ≠ b) : p ≠ Ptr.head b := by
  rcases hp with rfl | ⟨y, _, rfl⟩
  · simpa using hab
  · simp

/-- Lines 171-178 move buffer `k` from bucket `j` to the front of bucket `i` and leave
every other bucket and every field but the links alone. -/
theorem relink_spec (s : State) (i j k : Nat) (l1 l2 li : List Nat) (hij : i ≠ j)
    (hj : Ring s j (l1 ++ k :: l2)) (hi : Ring s i li)
    (hnd : (l1 ++ k :: l2).Nodup) (hndi : li.Nodup)
    (hdisj : ∀ x ∈ li, x ∉ l1 ++ k :: l2) :
    ∃ t, relink s i (Ptr.buf k) = some t
      ∧ (∀ q, (t.mem q).info = (s.mem q).info)
      ∧ Ring t i (k :: li) ∧ Ring t j (l1 ++ l2)
      ∧ (∀ m l, m ≠ i → m ≠ j → (∀ x ∈ l, x ∉ l1 ++ k :: l2 ∧ x ∉ li) →
          Ring s m l → Ring t m l) := by
  obtain ⟨hP, hX⟩ := chain_split s _ k l2 l1 _ hj
  have hF := chain_next s _ _ li hi
  have hk1 : k ∉ l1 := by
    intro h
    have := List.nodup_append.1 hnd
    exact this.2.2 h (by simp)
  have hk2 : k ∉ l2 := by
    have := (List.nodup_append.1 hnd).2.1
    exact (List.nodup_cons.1 this).1
  have hki : k ∉ li := fun h => hdisj k h (by simp)
  have h12 : ∀ x ∈ l1, x ∉ l2 := by
    intro x hx hx2
    exact (List.nodup_append.1 hnd).2.2 hx (by simp [hx2])
  have hi1 : ∀ x ∈ li, x ∉ l1 := fun x hx h => hdisj x hx (by simp [h])
  have hi2 : ∀ x ∈ li, x ∉ l2 := fun x hx h => hdisj x hx (by simp [h])
  have h1i : ∀ x ∈ l1, x ∉ li := fun x hx h => hi1 x h hx
  have h2i : ∀ x ∈ l2, x ∉ li := fun x hx h => hi2 x h hx
  have cP := lastNode_cases (Ptr.head j) l1
  have cX := firstNode_cases l2 (Ptr.head j)
  have cF := firstNode_cases li (Ptr.head i)
  generalize eP : lastNode (Ptr.head j) l1 = P at hP cP
  generalize eX : firstNode l2 (Ptr.head j) = X at hX cX
  generalize eF : firstNode li (Ptr.head i) = F at hF cF
  have hji : j ≠ i := fun h => hij h.symm
  obtain ⟨t, ht, hnx, hpv, hinfo⟩ := relink_links s i k P X F hP hX hF
    (node_ne_null X j l2 cX) (node_ne_null P j l1 cP) (node_ne_null F i li cF)
    (node_ne_head P j i l1 cP hji)
  have hPk : P ≠ Ptr.buf k := node_ne_buf P j k l1 cP hk1
  have hXk : X ≠ Ptr.buf k := node_ne_buf X j k l2 cX hk2
  have hFk : F ≠ Ptr.buf k := node_ne_buf F i k li cF hki
  have hPi : P ≠ Ptr.head i := node_ne_head P j i l1 cP hji
  have hXF : X ≠ F := node_ne X F j i l2 li cX cF hji h2i
  refine ⟨t, ht, hinfo, ?_, ?_, ?_⟩
  · refine ring_push s t i k li hi hndi ?_ ?_ ?_ ?_ ?_ ?_
    · rw [hnx]; simp
    · rw [hpv, if_neg (Ne.symm hFk)]; simp
    · rw [hnx, eF]; simp
    · rw [hpv, eF]; simp
    · intro x hx
      have hxk : x ≠ k := fun h => hki (h ▸ hx)
      have hxP : Ptr.buf x ≠ P :=
        node_ne (Ptr.buf x) P i j li l1 (Or.inr ⟨x, hx, rfl⟩) cP hij hi1
      rw [hnx]; simp [hxk, hxP]
    · intro q hq hmem
      rw [eF] at hq
      have hqk : q ≠ Ptr.buf k := node_ne_buf q i k li hmem hki
      have hqX : q ≠ X := node_ne q X i j li l2 hmem cX hij hi2
      rw [hpv]; simp [hq, hqk, hqX]
  · refine chain_unlink s t (Ptr.head j) k l2 (by simp) l1 (Ptr.head j) hj hnd (by simp)
      ?_ ?_ ?_ ?_
    · rw [eP, eX, hnx]; simp [hPi, hPk]
    · rw [eP, eX, hpv]; simp [hXF, hXk]
    · intro q hq hmem
      rw [eP] at hq
      have hmem2 : q = Ptr.head j ∨ ∃ y ∈ l1 ++ l2, q = Ptr.buf y := hmem
      have hqk : q ≠ Ptr.buf k := node_ne_buf q j k (l1 ++ l2) hmem2 (by simp [hk1, hk2])
      have hqi : q ≠ Ptr.head i := node_ne_head q j i (l1 ++ l2) hmem2 hji
      rw [hnx]; simp [hq, hqk, hqi]
    · intro q hq hmem
      rw [eX] at hq
      have hmem2 : q = Ptr.head j ∨ ∃ y ∈ l1 ++ l2, q = Ptr.buf y := hmem
      have hqk : q ≠ Ptr.buf k := node_ne_buf q j k (l1 ++ l2) hmem2 (by simp [hk1, hk2])
      have hqF : q ≠ F := node_ne q F j i (l1 ++ l2) li hmem2 cF hji (by
        intro x hx
        rcases List.mem_append.1 hx with h | h
        · exact h1i x h
        · exact h2i x h)
      rw [hpv]; simp [hq, hqk, hqF]
  · intro m l hmi hmj hl hm
    have hXm : Ptr.head m ≠ X := by
      rcases cX with rfl | ⟨y, _, rfl⟩ <;> simp [hmj]
    have hPm : Ptr.head m ≠ P := by
      rcases cP with rfl | ⟨y, _, rfl⟩ <;> simp [hmj]
    have hFm : Ptr.head m ≠ F := by
      rcases cF with rfl | ⟨y, _, rfl⟩ <;> simp [hmi]
    refine chain_frame s t _ l _ hm ?_ ?_ ?_
    · rw [hnx]; simp [hmi, hPm]
    · intro x hx
      obtain ⟨hx1, hx2⟩ := hl x hx
      have hxk : x ≠ k := fun h => hx1 (by simp [h])
      have hxP : Ptr.buf x ≠ P := by
        rcases cP with rfl | ⟨y, hy, rfl⟩
        · simp
        · intro h
          simp only [Ptr.buf.injEq] at h
          exact hx1 (by simp [h, hy])
      have hxX : Ptr.buf x ≠ X := by
        rcases cX with rfl | ⟨y, hy, rfl⟩
        · simp
        · intro h
          simp only [Ptr.buf.injEq] at h
          exact hx1 (by simp [h, hy])
      have hxF : Ptr.buf x ≠ F := by
        rcases cF with rfl | ⟨y, hy, rfl⟩
        · simp
        · intro h
          simp only [Ptr.buf.injEq] at h
          exact hx2 (h ▸ hy)
      constructor
      · rw [hnx]; simp [hxk, hxP]
      · rw [hpv]; simp [hxk, hxX, hxF]
    · rw [hpv]; simp [hXm, hFm]

/-! The stealing loop -/

/-- One turn of the stealing loop at a bucket without a free buffer moves on to the next
bucket. -/
theorem steal_step_busy (pid dev blockno i fuel : Nat) (s : State) (l : List Nat) (mt : Int)
    (n j : Nat) (hj : j < NBUCKET) (hji : j ≠ i)
    (hring : Ring s j l) (hfuel : l.length < fuel) (hbusy : ∀ x ∈ l, ¬ Free s x) :
    steal pid dev blockno i fuel s (n + 1) (j : Int) mt
      = steal pid dev blockno i fuel s n (((j + 1) % NBUCKET : Nat) : Int) mt := by
  have hne : ¬ ((j : Int) = (i : Int)) := by omega
  simp only [steal, hne, if_false, idx_cast j hj, findLru_chain s j l _ fuel none mt hring hfuel,
    lruScan_none_of_busy s mt l hbusy, hash_succ]

/-- The stealing loop passes over buckets that have no free buffer. -/
theorem steal_skip (pid dev blockno i fuel : Nat) (s : State) (L : Nat → List Nat) (mt : Int)
    (hring : ∀ j < NBUCKET, Ring s j (L j)) (hfuel : ∀ j < NBUCKET, (L j).length < fuel)
    (n : Nat) :
    ∀ (e d : Nat), 1 ≤ d → d + e ≤ NBUCKET →
      (∀ c, d ≤ c → c < d + e → ∀ x ∈ L ((i + c) % NBUCKET), ¬ Free s x) →
      steal pid dev blockno i fuel s (n + e) (((i + d) % NBUCKET : Nat) : Int) mt
        = steal pid dev blockno i fuel s n (((i + (d + e)) % NBUCKET : Nat) : Int) mt := by
  intro e
  induction e with
  | zero => intro d _ _ _; rfl
  | succ e ih =>
    intro d hd1 hd2 hbusy
    have hlt : (i + d) % NBUCKET < NBUCKET := Nat.mod_lt _ (by decide)
    have hne : (i + d) % NBUCKET ≠ i := by
      simp only [NBUCKET] at hd2 ⊢
      omega
    have hstep := steal_step_busy pid dev blockno i fuel s (L ((i + d) % NBUCKET)) mt (n + e)
      ((i + d) % NBUCKET) hlt hne (hring _ hlt) (hfuel _ hlt) (hbusy d (le_refl _) (by omega))
    have hmod : ((i + d) % NBUCKET + 1) % NBUCKET = (i + (d + 1)) % NBUCKET := by
      simp only [NBUCKET]; omega
    rw [show n + (e + 1) = n + e + 1 by omega, hstep, hmod,
      ih (d + 1) (by omega) (by omega) (fun c h1 h2 => hbusy c (by omega) (by omega))]
    congr 3
    omega

/-- Miss, no free buffer in the target bucket, and bucket `(i + d) % NBUCKET` is the first one
behind it that has a free buffer: `bget` takes the least recently used free buffer of that
bucket and relinks it into the target bucket. -/
theorem bget_exec_steal (s : State) (fuel pid dev blockno i : Nat) (L : Nat → List Nat)
    (hi : idx (hash (toInt blockno)) = some i)
    (hring : ∀ j < NBUCKET, Ring s j (L j)) (hfuel : ∀ j < NBUCKET, (L j).length < fuel)
    (hfuel2 : NBUCKET ≤ fuel)
    (hmiss : ∀ x ∈ L i, ¬ Carries s dev blockno x)
    (hbusy : ∀ x ∈ L i, ¬ Free s x)
    (d : Nat) (hd1 : 1 ≤ d) (hd2 : d < NBUCKET)
    (hskip : ∀ c, 1 ≤ c → c < d → ∀ x ∈ L ((i + c) % NBUCKET), ¬ Free s x)
    (hfree : ∃ x ∈ L ((i + d) % NBUCKET), Free s x)
    (hbound : ∀ x ∈ L ((i + d) % NBUCKET), (s.mem (Ptr.buf x)).lastuse < UINT) :
    ∃ k, IsLru s (L ((i + d) % NBUCKET)) k ∧ bget fuel pid s dev blockno
        = (match relink (s.upd (Ptr.buf k) (claim dev blockno)) i (Ptr.buf k) with
          | none => Outcome.fault
          | some s1 => acquiresleep pid (Ptr.buf k) s1) := by
  obtain ⟨hilt, _⟩ := idx_lt _ _ hi
  have hscan : findKey s i dev blockno fuel (s.mem (Ptr.head i)).next = Loop.done none := by
    rw [findKey_chain s i dev blockno _ _ fuel (hring i hilt) (hfuel i hilt),
      find_none_of_miss s dev blockno _ hmiss]
    rfl
  have hj : (i + d) % NBUCKET < NBUCKET := Nat.mod_lt _ (by decide)
  have hji : (i + d) % NBUCKET ≠ i := by
    simp only [NBUCKET] at hd2 hilt ⊢
    omega
  obtain ⟨k, hk, hlru⟩ := lruScan_none_of_free s 0 _ hbound hfree
  refine ⟨k, hlru, ?_⟩
  obtain ⟨n, hn⟩ : ∃ n, fuel = n + 1 + (d - 1) := ⟨fuel - d, by omega⟩
  have hskip2 := steal_skip pid dev blockno i fuel s L 0 hring hfuel (n + 1) (d - 1) 1
    (le_refl _) (by omega) (fun c h1 h2 => hskip c h1 (by omega))
  have hd : 1 + (d - 1) = d := by omega
  rw [hd] at hskip2
  have hne : ¬ ((((i + d) % NBUCKET : Nat) : Int) = (i : Int)) := by omega
  simp only [bget, hi, hscan, findLru_chain s i _ _ fuel none 0 (hring i hilt) (hfuel i hilt),
    lruScan_none_of_busy s 0 _ hbusy, hash_succ]
  rw [show steal pid dev blockno i fuel s fuel = steal pid dev blockno i fuel s (n + 1 + (d - 1))
    by rw [← hn], hskip2]
  simp only [steal, hne, if_false, idx_cast _ hj,
    findLru_chain s _ _ _ fuel none 0 (hring _ hj) (hfuel _ hj), hk]

/-- Miss and no free buffer in any bucket: `bget` panics and leaves the memory as it is. -/
theorem bget_exec_panic (s : State) (fuel pid dev blockno i : Nat) (L : Nat → List Nat)
    (hi : idx (hash (toInt blockno)) = some i)
    (hring : ∀ j < NBUCKET, Ring s j (L j)) (hfuel : ∀ j < NBUCKET, (L j).length < fuel)
    (hfuel2 : NBUCKET ≤ fuel)
    (hmiss : ∀ x ∈ L i, ¬ Carries s dev blockno x)
    (hbusy : ∀ j < NBUCKET, ∀ x ∈ L j, ¬ Free s x) :
    bget fuel pid s dev blockno = Outcome.panic "bget: no buffers" s := by
  obtain ⟨hilt, _⟩ := idx_lt _ _ hi
  have hscan : findKey s i dev blockno fuel (s.mem (Ptr.head i)).next = Loop.done none := by
    rw [findKey_chain s i dev blockno _ _ fuel (hring i hilt) (hfuel i hilt),
      find_none_of_miss s dev blockno _ hmiss]
    rfl
  obtain ⟨n, hn⟩ : ∃ n, fuel = n + 1 + 12 := ⟨fuel - 13, by simp only [NBUCKET] at hfuel2; omega⟩
  have hskip2 := steal_skip pid dev blockno i fuel s L 0 hring hfuel (n + 1) 12 1
    (le_refl _) (by simp [NBUCKET]) (fun c _ _ => hbusy _ (Nat.mod_lt _ (by decide)))
  have hback : (i + (1 + 12)) % NBUCKET = i := by
    simp only [NBUCKET] at hilt ⊢
    omega
  rw [hback] at hskip2
  simp only [bget, hi, hscan, findLru_chain s i _ _ fuel none 0 (hring i hilt) (hfuel i hilt),
    lruScan_none_of_busy s 0 _ (hbusy i hilt), hash_succ]
  rw [show steal pid dev blockno i fuel s fuel = steal pid dev blockno i fuel s (n + 1 + 12)
    by rw [← hn], hskip2]
  simp [steal]

/-! Well-formed caches -/

/-- A store through `f` leaves alone every field that `f` leaves alone. -/
theorem upd_preserve {α : Type} (g : Buf → α) (s : State) (p q : Ptr) (f : Buf → Buf)
    (hf : ∀ x, g (f x) = g x) : g ((s.upd p f).mem q) = g (s.mem q) := by
  by_cases h : q = p
  · subst h; rw [upd_mem_same, hf]
  · rw [upd_mem_other _ _ _ _ h]

theorem nodup_length_le (N : Nat) (l : List Nat) (hnd : l.Nodup) (hlt : ∀ k ∈ l, k < N) :
    l.length ≤ N := by
  have hsub : l ⊆ List.range N := fun k hk => List.mem_range.2 (hlt k hk)
  have := (List.subperm_of_subset hnd hsub).length_le
  simpa using this

theorem layout_length (N : Nat) (s : State) (L : Nat → List Nat) (h : Layout N s L)
    (i : Nat) (hi : i < NBUCKET) : (L i).length ≤ N :=
  nodup_length_le N (L i) (h.nodup i hi) (h.lt i hi)

/-- A well-formed cache stays well-formed, with the same lists, under a change of the
memory that keeps the links, keeps `lastuse` a `uint` and keeps every buffer in the bucket
of its block number. -/
theorem layout_same_links (N : Nat) (s t : State) (L : Nat → List Nat) (h : Layout N s L)
    (hn : ∀ q, (t.mem q).next = (s.mem q).next) (hp : ∀ q, (t.mem q).prev = (s.mem q).prev)
    (ht : ∀ k < N, (t.mem (Ptr.buf k)).lastuse < UINT)
    (hh : ∀ i < NBUCKET, ∀ k ∈ L i, idx (hash (toInt (t.mem (Ptr.buf k)).blockno)) = some i) :
    Layout N t L :=
  { ring := fun i hi => (ring_congr s t hn hp i (L i)).1 (h.ring i hi)
    lt := h.lt
    cover := h.cover
    nodup := h.nodup
    disj := h.disj
    time := ht
    home := hh }

/-- A store to one node that does not touch links or `blockno` and keeps `lastuse` a
`uint`. -/
theorem layout_upd (N : Nat) (s : State) (L : Nat → List Nat) (h : Layout N s L) (p : Ptr)
    (f : Buf → Buf) (hn : ∀ x, (f x).next = x.next) (hp : ∀ x, (f x).prev = x.prev)
    (hl : ∀ x, (f x).lastuse = x.lastuse ∨ (f x).lastuse < UINT)
    (hb : ∀ x, (f x).blockno = x.blockno) :
    Layout N (s.upd p f) L := by
  refine layout_same_links N s _ L h (fun q => upd_preserve Buf.next s p q f hn)
    (fun q => upd_preserve Buf.prev s p q f hp) ?_ ?_
  · intro k hk
    by_cases hq : Ptr.buf k = p
    · rw [← hq, upd_mem_same]
      rcases hl (s.mem (Ptr.buf k)) with e | e
      · rw [e]; exact h.time k hk
      · exact e
    · rw [upd_mem_other _ _ _ _ hq]; exact h.time k hk
  · intro i hi k hk
    rw [upd_preserve Buf.blockno s p _ f hb]
    exact h.home i hi k hk

/-- What `acquiresleep` leaves behind is well-formed. -/
theorem layout_acquiresleep (N : Nat) (s t : State) (L : Nat → List Nat) (h : Layout N s L)
    (pid : Nat) (b c : Ptr)
    (ht : acquiresleep pid b s = Outcome.ret c t ∨ acquiresleep pid b s = Outcome.sleep c t) :
    Layout N t L := by
  unfold acquiresleep at ht
  split at ht
  · rcases ht with ht | ht
    · simp only [Outcome.ret.injEq] at ht
      rw [← ht.2]
      exact layout_upd N s L h b _ (fun _ => rfl) (fun _ => rfl) (fun _ => Or.inl rfl) (fun _ => rfl)
    · simp at ht
  · rcases ht with ht | ht
    · simp at ht
    · simp only [Outcome.sleep.injEq] at ht
      rw [← ht.2]
      exact h

theorem mem_moveTo (N : Nat) (s : State) (L : Nat → List Nat) (h : Layout N s L)
    (i j k : Nat) (hi : i < NBUCKET) (hj : j < NBUCKET) (hij : i ≠ j) (hk : k ∈ L j)
    (m : Nat) (hm : m < NBUCKET) (x : Nat) :
    x ∈ moveTo L i j k m ↔ (if x = k then m = i else x ∈ L m) := by
  have hki : k ∉ L i := fun hc => h.disj j hj i hi (fun e => hij e.symm) k hk hc
  unfold moveTo
  by_cases hxk : x = k
  · subst hxk
    simp only [if_true]
    by_cases hmi : m = i
    · simp [hmi]
    · simp only [hmi, if_false, iff_false]
      by_cases hmj : m = j
      · simp only [hmj, if_true]
        exact fun hc => (List.Nodup.mem_erase_iff (h.nodup j hj)).1 hc |>.1 rfl
      · simp only [hmj, if_false]
        exact fun hc => h.disj j hj m hm (fun e => hmj e.symm) x hk hc
  · simp only [hxk, if_false]
    by_cases hmi : m = i
    · simp [hmi, hxk]
    · simp only [hmi, if_false]
      by_cases hmj : m = j
      · simp only [hmj, if_true]
        rw [List.Nodup.mem_erase_iff (h.nodup j hj)]
        simp [hxk]
      · simp [hmj]

/-- Stealing buffer `k` of bucket `j` for a key of bucket `i` leaves a well-formed cache whose
lists are the old ones with `k` moved to the front of bucket `i`. -/
theorem layout_steal (N : Nat) (s : State) (L : Nat → List Nat) (h : Layout N s L)
    (i j k dev blockno : Nat) (hj : j < NBUCKET) (hij : i ≠ j) (hk : k ∈ L j)
    (hb : idx (hash (toInt blockno)) = some i) :
    ∃ t, relink (s.upd (Ptr.buf k) (claim dev blockno)) i (Ptr.buf k) = some t
      ∧ Layout N t (moveTo L i j k)
      ∧ (∀ q, (t.mem q).info = ((s.upd (Ptr.buf k) (claim dev blockno)).mem q).info) := by
  obtain ⟨hi, _⟩ := idx_lt _ _ hb
  have hn : ∀ q, ((s.upd (Ptr.buf k) (claim dev blockno)).mem q).next = (s.mem q).next :=
    fun q => upd_preserve Buf.next s _ q _ (fun _ => rfl)
  have hp : ∀ q, ((s.upd (Ptr.buf k) (claim dev blockno)).mem q).prev = (s.mem q).prev :=
    fun q => upd_preserve Buf.prev s _ q _ (fun _ => rfl)
  have hrc := fun m l => ring_congr s (s.upd (Ptr.buf k) (claim dev blockno)) hn hp m l
  obtain ⟨l1, l2, hl⟩ := List.append_of_mem hk
  have hndj := h.nodup j hj
  rw [hl] at hndj
  have hk1 : k ∉ l1 := fun hc => (List.nodup_append.1 hndj).2.2 hc (by simp)
  have herase : (L j).erase k = l1 ++ l2 := by
    rw [hl, List.erase_append_right _ hk1, List.erase_cons_head]
  obtain ⟨t, ht, hinfo, hri, hrj, hrm⟩ := relink_spec (s.upd (Ptr.buf k) (claim dev blockno))
    i j k l1 l2 (L i) hij (by rw [← hl]; exact (hrc j _).1 (h.ring j hj))
    ((hrc i _).1 (h.ring i hi)) hndj (h.nodup i hi)
    (fun x hx => by rw [← hl]; exact h.disj i hi j hj hij x hx)
  have hmem := mem_moveTo N s L h i j k hi hj hij hk
  refine ⟨t, ht, ?_, hinfo⟩
  refine { ring := ?_, lt := ?_, cover := ?_, nodup := ?_, disj := ?_, time := ?_, home := ?_ }
  · intro m hm
    unfold moveTo
    by_cases hmi : m = i
    · simp only [hmi, if_true]; exact hri
    · by_cases hmj : m = j
      · have hji : ¬ j = i := fun e => hij e.symm
        simp only [hmj, hji, if_false, if_true, herase]; exact hrj
      · simp only [hmi, hmj, if_false]
        refine hrm m (L m) hmi hmj ?_ ((hrc m _).1 (h.ring m hm))
        intro x hx
        refine ⟨?_, h.disj m hm i hi hmi x hx⟩
        rw [← hl]
        exact h.disj m hm j hj hmj x hx
  · intro m hm x hx
    rw [hmem m hm x] at hx
    by_cases hxk : x = k
    · rw [hxk]; exact h.lt j hj k hk
    · rw [if_neg hxk] at hx; exact h.lt m hm x hx
  · intro x hx
    by_cases hxk : x = k
    · exact ⟨i, hi, by rw [hmem i hi x, if_pos hxk]⟩
    · obtain ⟨m, hm, hxm⟩ := h.cover x hx
      exact ⟨m, hm, by rw [hmem m hm x, if_neg hxk]; exact hxm⟩
  · intro m hm
    unfold moveTo
    by_cases hmi : m = i
    · simp only [hmi, if_true]
      exact List.nodup_cons.2
        ⟨fun hc => h.disj j hj i hi (fun e => hij e.symm) k hk hc, h.nodup i hi⟩
    · by_cases hmj : m = j
      · have hji : ¬ j = i := fun e => hij e.symm
        simp only [hmj, hji, if_false, if_true]
        exact (h.nodup j hj).erase k
      · simp only [hmi, hmj, if_false]
        exact h.nodup m hm
  · intro a ha b hb hab x hxa hxb
    rw [hmem a ha x] at hxa
    rw [hmem b hb x] at hxb
    by_cases hxk : x = k
    · rw [if_pos hxk] at hxa hxb
      exact hab (hxa.trans hxb.symm)
    · rw [if_neg hxk] at hxa hxb
      exact h.disj a ha b hb hab x hxa hxb
  · intro x hx
    have e1 := congrArg Buf.lastuse (hinfo (Ptr.buf x))
    have e2 : (t.mem (Ptr.buf x)).lastuse
        = ((s.upd (Ptr.buf k) (claim dev blockno)).mem (Ptr.buf x)).lastuse := e1
    rw [e2, upd_preserve Buf.lastuse s _ _ (claim dev blockno) (fun _ => rfl)]
    exact h.time x hx
  · intro m hm x hx
    have e1 := congrArg Buf.blockno (hinfo (Ptr.buf x))
    have e2 : (t.mem (Ptr.buf x)).blockno
        = ((s.upd (Ptr.buf k) (claim dev blockno)).mem (Ptr.buf x)).blockno := e1
    rw [e2]
    rw [hmem m hm x] at hx
    by_cases hxk : x = k
    · rw [if_pos hxk] at hx
      rw [hxk, upd_mem_same, hx]
      exact hb
    · rw [if_neg hxk] at hx
      rw [upd_mem_other _ _ _ _ (by simpa using hxk)]
      exact h.home m hm x hx

theorem first_split (p : Nat → Prop) :
    ∀ (l : List Nat), (∃ x ∈ l, p x) → ∃ l1 k l2, l = l1 ++ k :: l2 ∧ p k ∧ ∀ x ∈ l1, ¬ p x := by
  intro l
  induction l with
  | nil => intro h; simp at h
  | cons a t ih =>
    intro h
    by_cases ha : p a
    · exact ⟨[], a, t, rfl, ha, by simp⟩
    · have ht : ∃ x ∈ t, p x := by
        obtain ⟨x, hx, hpx⟩ := h
        simp only [List.mem_cons] at hx
        rcases hx with rfl | hx
        · exact absurd hpx ha
        · exact ⟨x, hx, hpx⟩
      obtain ⟨l1, k, l2, hl, hk, hfirst⟩ := ih ht
      refine ⟨a :: l1, k, l2, by simp [hl], hk, ?_⟩
      intro x hx
      simp only [List.mem_cons] at hx
      rcases hx with rfl | hx
      · exact ha
      · exact hfirst x hx

/-- The four ways through `bget` in a well-formed cache, for a key that has a bucket: hit,
local eviction, stealing, panic. -/
theorem bget_cases (N : Nat) (s : State) (L : Nat → List Nat) (h : Layout N s L)
    (fuel pid dev blockno i : Nat) (hfuel : N < fuel) (hfuel2 : NBUCKET ≤ fuel)
    (hi : idx (hash (toInt blockno)) = some i) :
    (∃ l1 k l2, L i = l1 ++ k :: l2 ∧ Carries s dev blockno k
        ∧ (∀ x ∈ l1, ¬ Carries s dev blockno x)
        ∧ bget fuel pid s dev blockno = acquiresleep pid (Ptr.buf k) (s.upd (Ptr.buf k) incRef))
    ∨ ((∀ x ∈ L i, ¬ Carries s dev blockno x) ∧
      ((∃ k, IsLru s (L i) k ∧ bget fuel pid s dev blockno
            = acquiresleep pid (Ptr.buf k) (s.upd (Ptr.buf k) (claim dev blockno)))
      ∨ ((∀ x ∈ L i, ¬ Free s x) ∧
        ((∃ d k t, 1 ≤ d ∧ d < NBUCKET
            ∧ (∀ c, 1 ≤ c → c < d → ∀ x ∈ L ((i + c) % NBUCKET), ¬ Free s x)
            ∧ IsLru s (L ((i + d) % NBUCKET)) k
            ∧ relink (s.upd (Ptr.buf k) (claim dev blockno)) i (Ptr.buf k) = some t
            ∧ Layout N t (moveTo L i ((i + d) % NBUCKET) k)
            ∧ (∀ q, (t.mem q).info = ((s.upd (Ptr.buf k) (claim dev blockno)).mem q).info)
            ∧ bget fuel pid s dev blockno = acquiresleep pid (Ptr.buf k) t)
        ∨ ((∀ j < NBUCKET, ∀ x ∈ L j, ¬ Free s x)
            ∧ bget fuel pid s dev blockno = Outcome.panic "bget: no buffers" s))))) := by
  obtain ⟨hilt, _⟩ := idx_lt _ _ hi
  have hlen : ∀ j < NBUCKET, (L j).length < fuel := fun j hj =>
    lt_of_le_of_lt (layout_length N s L h j hj) hfuel
  by_cases hhit : ∃ x ∈ L i, Carries s dev blockno x
  · left
    obtain ⟨l1, k, l2, hl, hk, hfirst⟩ := first_split _ _ hhit
    refine ⟨l1, k, l2, hl, hk, hfirst, ?_⟩
    exact bget_exec_hit s fuel pid dev blockno i l1 l2 k hi (by rw [← hl]; exact h.ring i hilt)
      (by rw [← hl]; exact hlen i hilt) hk hfirst
  · right
    have hmiss : ∀ x ∈ L i, ¬ Carries s dev blockno x := fun x hx hc => hhit ⟨x, hx, hc⟩
    refine ⟨hmiss, ?_⟩
    by_cases hfree : ∃ x ∈ L i, Free s x
    · left
      exact bget_exec_local s fuel pid dev blockno i (L i) hi (h.ring i hilt) (hlen i hilt) hmiss
        (fun x hx => h.time x (h.lt i hilt x hx)) hfree
    · right
      have hbusy : ∀ x ∈ L i, ¬ Free s x := fun x hx hc => hfree ⟨x, hx, hc⟩
      refine ⟨hbusy, ?_⟩
      by_cases hany : ∃ d, 1 ≤ d ∧ d < NBUCKET ∧ ∃ x ∈ L ((i + d) % NBUCKET), Free s x
      · left
        classical
        have hspec := Nat.find_spec hany
        have hmin := fun c => @Nat.find_min _ _ hany c
        generalize Nat.find hany = d at hspec hmin
        obtain ⟨hd1, hd2, hdfree⟩ := hspec
        have hj : (i + d) % NBUCKET < NBUCKET := Nat.mod_lt _ (by decide)
        have hji : i ≠ (i + d) % NBUCKET := by
          simp only [NBUCKET] at hd2 hilt ⊢
          omega
        have hskip : ∀ c, 1 ≤ c → c < d → ∀ x ∈ L ((i + c) % NBUCKET), ¬ Free s x := by
          intro c hc1 hc2 x hx hf
          exact hmin c hc2 ⟨hc1, by omega, x, hx, hf⟩
        obtain ⟨k, hlru, hexec⟩ := bget_exec_steal s fuel pid dev blockno i L hi h.ring hlen
          hfuel2 hmiss hbusy d hd1 hd2 hskip hdfree
          (fun x hx => h.time x (h.lt _ hj x hx))
        have hkmem : k ∈ L ((i + d) % NBUCKET) := by
          obtain ⟨l1, l2, hl, _⟩ := hlru
          rw [hl]; simp
        obtain ⟨t, ht, hlay, hinfo⟩ := layout_steal N s L h i _ k dev blockno hj hji hkmem hi
        refine ⟨d, k, t, hd1, hd2, hskip, hlru, ht, hlay, hinfo, ?_⟩
        rw [hexec, ht]
      · right
        have hall : ∀ j < NBUCKET, ∀ x ∈ L j, ¬ Free s x := by
          intro j hj x hx hf
          by_cases hji : j = i
          · exact hbusy x (hji ▸ hx) hf
          · refine hany ⟨(j + NBUCKET - i) % NBUCKET, ?_, Nat.mod_lt _ (by decide), x, ?_, hf⟩
            · simp only [NBUCKET] at hj hilt ⊢
              omega
            · have : (i + (j + NBUCKET - i) % NBUCKET) % NBUCKET = j := by
                simp only [NBUCKET] at hj hilt ⊢
                omega
              rw [this]; exact hx
        exact ⟨hall, bget_exec_panic s fuel pid dev blockno i L hi h.ring hlen hfuel2 hmiss hall⟩

/-! The state after `binit` -/

theorem upd_setLock_next (s : State) (p q : Ptr) (v : Option Nat) :
    ((s.upd p (setLock v)).mem q).next = (s.mem q).next :=
  upd_preserve Buf.next s p q _ (fun _ => rfl)

theorem upd_setLock_prev (s : State) (p q : Ptr) (v : Option Nat) :
    ((s.upd p (setLock v)).mem q).prev = (s.mem q).prev :=
  upd_preserve Buf.prev s p q _ (fun _ => rfl)

/-- The links after one turn of the second loop of `binit`. -/
theorem linkBuf_links (s : State) (n : Nat) (F : Ptr) (hF : (s.mem (Ptr.head 0)).next = F) :
    (∀ q, ((linkBuf s n).mem q).next
        = if q = Ptr.head 0 then Ptr.buf n else if q = Ptr.buf n then F else (s.mem q).next)
    ∧ (∀ q, ((linkBuf s n).mem q).prev
        = if q = F then Ptr.buf n else if q = Ptr.buf n then Ptr.head 0 else (s.mem q).prev) := by
  unfold linkBuf
  simp only [upd_setPrev_next, upd_setNext_next, upd_setNext_prev, upd_setPrev_prev,
    upd_setLock_next, upd_setLock_prev, hF, reduceCtorEq, if_false, implies_true, and_self]

/-- The second loop of `binit` leaves every field but the links as the first loop left it,
when no lock was held. -/
theorem linkBuf_info (s : State) (n : Nat) (q : Ptr) (hlock : (s.mem (Ptr.buf n)).lock = none) :
    ((linkBuf s n).mem q).info = (s.mem q).info := by
  unfold linkBuf
  simp only [upd_setNext_info, upd_setPrev_info]
  by_cases h : q = Ptr.buf n
  · subst h
    rw [upd_mem_same]
    have e : ((s.upd (Ptr.buf n) (setNext (s.mem (Ptr.head 0)).next)).upd (Ptr.buf n)
        (setPrev (Ptr.head 0))).mem (Ptr.buf n)
        = setPrev (Ptr.head 0) (setNext (s.mem (Ptr.head 0)).next (s.mem (Ptr.buf n))) := by
      rw [upd_mem_same, upd_mem_same]
    rw [e]
    simp only [setLock, setPrev, setNext, Buf.info, ← hlock]
  · rw [upd_mem_other _ _ _ _ h, upd_setPrev_info, upd_setNext_info]

theorem initHead_buf (s : State) (i k : Nat) : (initHead s i).mem (Ptr.buf k) = s.mem (Ptr.buf k) := by
  unfold initHead
  rw [upd_mem_other _ _ _ _ (by simp), upd_mem_other _ _ _ _ (by simp)]

theorem initHead_info (s : State) (i : Nat) (q : Ptr) :
    ((initHead s i).mem q).info = (s.mem q).info := by
  unfold initHead
  rw [upd_setPrev_info, upd_setNext_info]

theorem foldl_initHead_info (l : List Nat) (s : State) (q : Ptr) :
    ((l.foldl initHead s).mem q).info = (s.mem q).info := by
  induction l generalizing s with
  | nil => rfl
  | cons a t ih => rw [List.foldl_cons, ih, initHead_info]

/-- After the first loop of `binit` every bucket is empty. -/
theorem heads_empty : ∀ i < NBUCKET, Ring ((List.range NBUCKET).foldl initHead zeroed) i [] := by
  decide

/-- After `binit` every field but the links is zero, and no lock is held. -/
theorem binit_info (N : Nat) (q : Ptr) : ((binit N zeroed).mem q).info = zeroBuf.info := by
  unfold binit
  induction N generalizing q with
  | zero => simp only [List.range_zero, List.foldl_nil, foldl_initHead_info]; rfl
  | succ n ih =>
    rw [List.range_succ, List.foldl_append, List.foldl_cons, List.foldl_nil, linkBuf_info, ih]
    have := congrArg Buf.lock (ih (Ptr.buf n))
    exact this

theorem binit_succ (n : Nat) : binit (n + 1) zeroed = linkBuf (binit n zeroed) n := by
  unfold binit
  rw [List.range_succ, List.foldl_append, List.foldl_cons, List.foldl_nil]

/-- After `binit` bucket 0 holds all buffers, the last one linked first, and every other
bucket is empty. -/
theorem binit_rings (N : Nat) :
    Ring (binit N zeroed) 0 (List.range N).reverse
      ∧ ∀ i, 0 < i → i < NBUCKET → Ring (binit N zeroed) i [] := by
  induction N with
  | zero =>
    exact ⟨heads_empty 0 (by decide), fun i _ hi => heads_empty i hi⟩
  | succ n ih =>
    obtain ⟨h0, hrest⟩ := ih
    have hF := chain_next _ _ _ _ h0
    have cF := firstNode_cases (List.range n).reverse (Ptr.head 0)
    generalize eF : firstNode (List.range n).reverse (Ptr.head 0) = F at hF cF
    obtain ⟨hnx, hpv⟩ := linkBuf_links (binit n zeroed) n F hF
    have hnF : Ptr.buf n ≠ F := by
      rcases cF with rfl | ⟨y, hy, rfl⟩
      · simp
      · simp only [List.mem_reverse, List.mem_range] at hy
        intro hc
        simp only [Ptr.buf.injEq] at hc
        omega
    rw [binit_succ]
    constructor
    · rw [List.range_succ, List.reverse_append, List.reverse_singleton, List.singleton_append]
      refine ring_push (binit n zeroed) _ 0 n _ h0 (List.nodup_reverse.2 (List.nodup_range n))
        ?_ ?_ ?_ ?_ ?_ ?_
      · rw [hnx]; simp
      · rw [hpv, if_neg hnF]; simp
      · rw [hnx, eF]; simp
      · rw [hpv, eF]; simp
      · intro x hx
        simp only [List.mem_reverse, List.mem_range] at hx
        have hxn : x ≠ n := by omega
        rw [hnx]; simp [hxn]
      · intro q hq hmem
        rw [eF] at hq
        have hqn : q ≠ Ptr.buf n := by
          rcases hmem with rfl | ⟨x, hx, rfl⟩
          · simp
          · simp only [List.mem_reverse, List.mem_range] at hx
            intro hc
            simp only [Ptr.buf.injEq] at hc
            omega
        rw [hpv]; simp [hq, hqn]
    · intro i hi0 hi
      obtain ⟨h1, h2⟩ := hrest i hi0 hi
      have hi0 : i ≠ 0 := by omega
      have hiF : Ptr.head i ≠ F := by
        rcases cF with rfl | ⟨y, _, rfl⟩ <;> simp [hi0]
      exact ⟨by rw [hnx]; simpa [hi0] using h1, by rw [hpv]; simpa [hi0, hiF] using h2⟩

/-- The state after `binit` is a well-formed cache. -/
theorem binit_layout (N : Nat) : Layout N (binit N zeroed) (initLists N) := by
  obtain ⟨h0, hrest⟩ := binit_rings N
  have hlast : ∀ k, ((binit N zeroed).mem (Ptr.buf k)).lastuse = 0 :=
    fun k => congrArg Buf.lastuse (binit_info N (Ptr.buf k))
  have hblk : ∀ k, ((binit N zeroed).mem (Ptr.buf k)).blockno = 0 :=
    fun k => congrArg Buf.blockno (binit_info N (Ptr.buf k))
  refine { ring := ?_, lt := ?_, cover := ?_, nodup := ?_, disj := ?_, time := ?_, home := ?_ }
  · intro i hi
    by_cases h : i = 0
    · subst h; simpa [initLists] using h0
    · simpa [initLists, h] using hrest i (by omega) hi
  · intro i _ k hk
    by_cases h : i = 0
    · simpa [initLists, h] using hk
    · simp [initLists, h] at hk
  · intro k hk
    exact ⟨0, by decide, by simpa [initLists] using hk⟩
  · intro i _
    by_cases h : i = 0
    · simp only [initLists, h, if_true]
      exact List.nodup_reverse.2 (List.nodup_range N)
    · simp [initLists, h]
  · intro i _ j _ hij k hk
    by_cases h : i = 0
    · have hj : j ≠ 0 := fun e => hij (h.trans e.symm)
      simp [initLists, hj]
    · simp [initLists, h] at hk
  · intro k _
    rw [hlast]; decide
  · intro i _ k hk
    by_cases h : i = 0
    · subst h; rw [hblk]; decide
    · simp [initLists, h] at hk

/-- Repurposing a buffer of bucket `i` for a key of bucket `i` keeps the cache well-formed. -/
theorem layout_claim (N : Nat) (s : State) (L : Nat → List Nat) (h : Layout N s L)
    (i k dev blockno : Nat) (hk : k ∈ L i) (hb : idx (hash (toInt blockno)) = some i) :
    Layout N (s.upd (Ptr.buf k) (claim dev blockno)) L := by
  obtain ⟨hi, _⟩ := idx_lt _ _ hb
  refine layout_same_links N s _ L h (fun q => upd_preserve Buf.next s _ q _ (fun _ => rfl))
    (fun q => upd_preserve Buf.prev s _ q _ (fun _ => rfl)) ?_ ?_
  · intro x hx
    rw [upd_preserve Buf.lastuse s _ _ (claim dev blockno) (fun _ => rfl)]
    exact h.time x hx
  · intro m hm x hx
    by_cases hxk : x = k
    · subst hxk
      have hmi : m = i := by
        by_contra hne
        exact h.disj m hm i hi hne x hx hk
      rw [upd_mem_same, hmi]
      exact hb
    · rw [upd_mem_other _ _ _ _ (by simpa using hxk)]
      exact h.home m hm x hx

/-- A key without a bucket makes `bget` fault. -/
theorem bget_fault_of_idx (fuel pid dev blockno : Nat) (s : State)
    (h : idx (hash (toInt blockno)) = none) : bget fuel pid s dev blockno = Outcome.fault := by
  simp only [bget, h]

/-- Whatever `bget` leaves behind, when it returns or puts its caller to sleep, is a
well-formed cache. -/
theorem bget_layout (N : Nat) (s t : State) (L : Nat → List Nat) (h : Layout N s L)
    (fuel pid dev blockno : Nat) (hfuel : N < fuel) (hfuel2 : NBUCKET ≤ fuel) (b : Ptr)
    (hout : bget fuel pid s dev blockno = Outcome.ret b t
      ∨ bget fuel pid s dev blockno = Outcome.sleep b t) :
    ∃ M, Layout N t M := by
  cases hidx : idx (hash (toInt blockno)) with
  | none =>
    rw [bget_fault_of_idx fuel pid dev blockno s hidx] at hout
    simp at hout
  | some i =>
    obtain ⟨hilt, _⟩ := idx_lt _ _ hidx
    rcases bget_cases N s L h fuel pid dev blockno i hfuel hfuel2 hidx with
      ⟨l1, k, l2, hl, _, _, hexec⟩ | ⟨_, ⟨k, hlru, hexec⟩ | ⟨_, ⟨d, k, u, _, _, _, _, _, hlay, _, hexec⟩ | ⟨_, hexec⟩⟩⟩
    · rw [hexec] at hout
      exact ⟨L, layout_acquiresleep N _ t L
        (layout_upd N s L h _ incRef (fun _ => rfl) (fun _ => rfl) (fun _ => Or.inl rfl) (fun _ => rfl))
        pid _ b hout⟩
    · rw [hexec] at hout
      have hk : k ∈ L i := by
        obtain ⟨l1, l2, hl, _⟩ := hlru
        rw [hl]; simp
      exact ⟨L, layout_acquiresleep N _ t L (layout_claim N s L h i k dev blockno hk hidx)
        pid _ b hout⟩
    · rw [hexec] at hout
      exact ⟨_, layout_acquiresleep N _ t _ hlay pid _ b hout⟩
    · rw [hexec] at hout
      simp at hout

/-- What `brelse` leaves behind is a well-formed cache with the same lists. -/
theorem brelse_layout (N : Nat) (s t : State) (L : Nat → List Nat) (h : Layout N s L)
    (pid ticks : Nat) (b : Ptr) (hout : brelse pid ticks s b = Effect.done t) :
    Layout N t L := by
  unfold brelse at hout
  have h1 := layout_upd N s L h b (setLock none) (fun _ => rfl) (fun _ => rfl) (fun _ => Or.inl rfl)
    (fun _ => rfl)
  have h2 := layout_upd N _ L h1 b decRef (fun _ => rfl) (fun _ => rfl) (fun _ => Or.inl rfl)
    (fun _ => rfl)
  have h3 := layout_upd N _ L h2 b (setLastuse (ticks % UINT)) (fun _ => rfl) (fun _ => rfl)
    (fun _ => Or.inr (Nat.mod_lt _ (by decide))) (fun _ => rfl)
  split at hout
  · simp at hout
  · split at hout
    · simp at hout
    · dsimp only at hout
      split at hout
      · simp at hout
      · split at hout
        · simp only [Effect.done.injEq] at hout
          rw [← hout]; exact h3
        · simp only [Effect.done.injEq] at hout
          rw [← hout]; exact h2

theorem bpin_layout (N : Nat) (s t : State) (L : Nat → List Nat) (h : Layout N s L)
    (b : Ptr) (hout : bpin s b = Effect.done t) : Layout N t L := by
  unfold bpin at hout
  split at hout
  · simp at hout
  · split at hout
    · simp at hout
    · simp only [Effect.done.injEq] at hout
      rw [← hout]
      exact layout_upd N s L h b incRef (fun _ => rfl) (fun _ => rfl) (fun _ => Or.inl rfl)
        (fun _ => rfl)

theorem bunpin_layout (N : Nat) (s t : State) (L : Nat → List Nat) (h : Layout N s L)
    (b : Ptr) (hout : bunpin s b = Effect.done t) : Layout N t L := by
  unfold bunpin at hout
  split at hout
  · simp at hout
  · split at hout
    · simp at hout
    · simp only [Effect.done.injEq] at hout
      rw [← hout]
      exact layout_upd N s L h b decRef (fun _ => rfl) (fun _ => rfl) (fun _ => Or.inl rfl)
        (fun _ => rfl)

/-- Every reachable state is a well-formed cache. -/
theorem reachable_layout (N : Nat) (s : State) (h : Reachable N s) : ∃ L, Layout N s L := by
  induction h with
  | init => exact ⟨_, binit_layout N⟩
  | bget_ret s t fuel pid dev blockno b _ hf1 hf2 hout ih =>
    obtain ⟨L, hL⟩ := ih
    exact bget_layout N s t L hL fuel pid dev blockno hf1 hf2 b (Or.inl hout)
  | bget_sleep s t fuel pid dev blockno b _ hf1 hf2 hout ih =>
    obtain ⟨L, hL⟩ := ih
    exact bget_layout N s t L hL fuel pid dev blockno hf1 hf2 b (Or.inr hout)
  | wake s t pid k _ _ hout ih =>
    obtain ⟨L, hL⟩ := ih
    exact ⟨L, layout_acquiresleep N s t L hL pid _ _ (Or.inl hout)⟩
  | brelse s t pid ticks k _ _ hout ih =>
    obtain ⟨L, hL⟩ := ih
    exact ⟨L, brelse_layout N s t L hL pid ticks _ hout⟩
  | bpin s t k _ _ hout ih =>
    obtain ⟨L, hL⟩ := ih
    exact ⟨L, bpin_layout N s t L hL _ hout⟩
  | bunpin s t k _ _ hout ih =>
    obtain ⟨L, hL⟩ := ih
    exact ⟨L, bunpin_layout N s t L hL _ hout⟩

/-! The claims about `bget` -/

/-- The caller of `acquiresleep` ends up with the lock or asleep, and nothing but the lock
of `b` has changed. -/
theorem acquiresleep_post (pid : Nat) (b : Ptr) (s : State) :
    ∃ t, (acquiresleep pid b s = Outcome.ret b t ∨ acquiresleep pid b s = Outcome.sleep b t)
      ∧ (∀ q, (t.mem q).valid = (s.mem q).valid ∧ (t.mem q).dev = (s.mem q).dev
          ∧ (t.mem q).blockno = (s.mem q).blockno ∧ (t.mem q).refcnt = (s.mem q).refcnt
          ∧ (t.mem q).lastuse = (s.mem q).lastuse ∧ (t.mem q).prev = (s.mem q).prev
          ∧ (t.mem q).next = (s.mem q).next ∧ (t.mem q).data = (s.mem q).data)
      ∧ (∀ q, q ≠ b → t.mem q = s.mem q) := by
  obtain ⟨t, ht, _, hfields, hother⟩ := acquiresleep_spec pid b s
  refine ⟨t, ?_, hfields, hother⟩
  by_cases h : (s.mem b).lock = none
  · left; rw [ht, if_pos h]
  · right; rw [ht, if_neg h]

/-- C2 (local eviction choice).  In a state where the list of bucket `hash(blockno)` is `l`,
no buffer of `l` carries the key `(dev, blockno)` and some buffer of `l` has `refcnt == 0`,
`bget(dev, blockno)` repurposes a buffer `k` of `l` (it gives `k` the key and touches no
other buffer) with `refcnt == 0` such that every free buffer before `k` in `l` has a
larger `lastuse` and every free buffer behind `k` has a `lastuse` at least as large: the
free buffer of minimum `lastuse`, the first one in scan order among those. -/
theorem bget_local_lru (s : State) (fuel pid dev blockno i : Nat) (l : List Nat)
    (hi : idx (hash (toInt blockno)) = some i)
    (hring : Ring s i l) (hfuel : l.length < fuel)
    (hbound : ∀ x ∈ l, (s.mem (Ptr.buf x)).lastuse < UINT)
    (hmiss : ∀ x ∈ l, ¬ Carries s dev blockno x)
    (hfree : ∃ x ∈ l, Free s x) :
    ∃ k t l1 l2, (bget fuel pid s dev blockno = Outcome.ret (Ptr.buf k) t
        ∨ bget fuel pid s dev blockno = Outcome.sleep (Ptr.buf k) t)
      ∧ Carries t dev blockno k ∧ (∀ q, q ≠ Ptr.buf k → t.mem q = s.mem q)
      ∧ l = l1 ++ k :: l2 ∧ (s.mem (Ptr.buf k)).refcnt = 0
      ∧ (∀ x ∈ l1, (s.mem (Ptr.buf x)).refcnt = 0 →
          (s.mem (Ptr.buf k)).lastuse < (s.mem (Ptr.buf x)).lastuse)
      ∧ (∀ x ∈ l2, (s.mem (Ptr.buf x)).refcnt = 0 →
          (s.mem (Ptr.buf k)).lastuse ≤ (s.mem (Ptr.buf x)).lastuse) := by
  obtain ⟨k, ⟨l1, l2, hl, hk, h1, h2⟩, hexec⟩ :=
    bget_exec_local s fuel pid dev blockno i l hi hring hfuel hmiss hbound hfree
  obtain ⟨t, hout, hfields, hother⟩ :=
    acquiresleep_post pid (Ptr.buf k) (s.upd (Ptr.buf k) (claim dev blockno))
  refine ⟨k, t, l1, l2, by rw [hexec]; exact hout, ?_, ?_, hl, hk, h1, h2⟩
  · constructor
    · rw [(hfields _).2.1, upd_mem_same]; rfl
    · rw [(hfields _).2.2.1, upd_mem_same]; rfl
  · intro q hq
    rw [hother q hq, upd_mem_other _ _ _ _ hq]

/-- Witness for C2: right after `binit` with three buffers, `bget(1, 13)` misses in bucket 0
and repurposes its first buffer. -/
theorem bget_local_lru_witness :
    idx (hash (toInt 13)) = some 0 ∧ Ring (binit 3 zeroed) 0 [2, 1, 0]
    ∧ (∀ x ∈ [2, 1, 0], ¬ Carries (binit 3 zeroed) 1 13 x)
    ∧ (∃ x ∈ [2, 1, 0], Free (binit 3 zeroed) x)
    ∧ ∃ k t l1 l2, (bget 4 1 (binit 3 zeroed) 1 13 = Outcome.ret (Ptr.buf k) t
        ∨ bget 4 1 (binit 3 zeroed) 1 13 = Outcome.sleep (Ptr.buf k) t)
      ∧ Carries t 1 13 k ∧ (∀ q, q ≠ Ptr.buf k → t.mem q = (binit 3 zeroed).mem q)
      ∧ [2, 1, 0] = l1 ++ k :: l2 ∧ ((binit 3 zeroed).mem (Ptr.buf k)).refcnt = 0
      ∧ (∀ x ∈ l1, ((binit 3 zeroed).mem (Ptr.buf x)).refcnt = 0 →
          ((binit 3 zeroed).mem (Ptr.buf k)).lastuse < ((binit 3 zeroed).mem (Ptr.buf x)).lastuse)
      ∧ (∀ x ∈ l2, ((binit 3 zeroed).mem (Ptr.buf x)).refcnt = 0 →
          ((binit 3 zeroed).mem (Ptr.buf k)).lastuse ≤ ((binit 3 zeroed).mem (Ptr.buf x)).lastuse) :=
  ⟨by decide, by decide, by decide, by decide,
   bget_local_lru (binit 3 zeroed) 4 1 1 13 0 [2, 1, 0] (by decide) (by decide) (by decide)
     (by decide) (by decide) (by decide)⟩

theorem isLru_mem (s : State) (l : List Nat) (k : Nat) (h : IsLru s l k) : k ∈ l ∧ Free s k := by
  obtain ⟨l1, l2, hl, hk, _⟩ := h
  exact ⟨by rw [hl]; simp, hk⟩

/-- The fields of a stolen buffer and of the others, from what `relink` keeps. -/
theorem info_fields (x y : Buf) (h : x.info = y.info) :
    x.valid = y.valid ∧ x.dev = y.dev ∧ x.blockno = y.blockno ∧ x.lock = y.lock
      ∧ x.refcnt = y.refcnt ∧ x.lastuse = y.lastuse ∧ x.data = y.data :=
  ⟨show x.info.valid = y.info.valid from congrArg Buf.valid h,
   show x.info.dev = y.info.dev from congrArg Buf.dev h,
   show x.info.blockno = y.info.blockno from congrArg Buf.blockno h,
   show x.info.lock = y.info.lock from congrArg Buf.lock h,
   show x.info.refcnt = y.info.refcnt from congrArg Buf.refcnt h,
   show x.info.lastuse = y.info.lastuse from congrArg Buf.lastuse h,
   show x.info.data = y.info.data from congrArg Buf.data h⟩

/-- C3 (cross-bucket stealing choice).  In a well-formed cache where bucket
`i = hash(blockno)` neither has the key `(dev, blockno)` nor a buffer with `refcnt == 0`
and some bucket has one, `bget(dev, blockno)` takes its buffer from bucket
`(i + d) % NBUCKET` for the least `d ≥ 1` such that this bucket has a free buffer, and the
buffer `k` it takes is the least recently used free buffer of that bucket (every free
buffer before `k` in the list has a larger `lastuse`, every free buffer behind it one at
least as large); `k` gets the key and moves to the front of bucket `i`. -/
theorem bget_steal_choice (N : Nat) (s : State) (L : Nat → List Nat) (h : Layout N s L)
    (fuel pid dev blockno i : Nat) (hfuel : N < fuel) (hfuel2 : NBUCKET ≤ fuel)
    (hi : idx (hash (toInt blockno)) = some i)
    (hmiss : ∀ x ∈ L i, ¬ Carries s dev blockno x)
    (hbusy : ∀ x ∈ L i, (s.mem (Ptr.buf x)).refcnt ≠ 0)
    (hother : ∃ j < NBUCKET, ∃ x ∈ L j, (s.mem (Ptr.buf x)).refcnt = 0) :
    ∃ d k t l1 l2, 1 ≤ d ∧ d < NBUCKET
      ∧ (∀ c, 1 ≤ c → c < d → ∀ x ∈ L ((i + c) % NBUCKET), (s.mem (Ptr.buf x)).refcnt ≠ 0)
      ∧ L ((i + d) % NBUCKET) = l1 ++ k :: l2 ∧ (s.mem (Ptr.buf k)).refcnt = 0
      ∧ (∀ x ∈ l1, (s.mem (Ptr.buf x)).refcnt = 0 →
          (s.mem (Ptr.buf k)).lastuse < (s.mem (Ptr.buf x)).lastuse)
      ∧ (∀ x ∈ l2, (s.mem (Ptr.buf x)).refcnt = 0 →
          (s.mem (Ptr.buf k)).lastuse ≤ (s.mem (Ptr.buf x)).lastuse)
      ∧ (bget fuel pid s dev blockno = Outcome.ret (Ptr.buf k) t
        ∨ bget fuel pid s dev blockno = Outcome.sleep (Ptr.buf k) t)
      ∧ Carries t dev blockno k
      ∧ (∀ m < NBUCKET, Ring t m (moveTo L i ((i + d) % NBUCKET) k m)) := by
  rcases bget_cases N s L h fuel pid dev blockno i hfuel hfuel2 hi with
    ⟨l1, k, l2, hl, hk, _, _⟩ | ⟨_, ⟨k, hlru, _⟩ | ⟨_, ⟨d, k, u, hd1, hd2, hskip, hlru, _, hlay, hinfo, hexec⟩ | ⟨hall, _⟩⟩⟩
  · exact absurd hk (hmiss k (by rw [hl]; simp))
  · exact absurd (isLru_mem s _ k hlru).2 (hbusy k (isLru_mem s _ k hlru).1)
  · obtain ⟨l1, l2, hl, hk, h1, h2⟩ := hlru
    obtain ⟨t, hout, hfields, _⟩ := acquiresleep_post pid (Ptr.buf k) u
    have hf := info_fields _ _ (hinfo (Ptr.buf k))
    rw [upd_mem_same] at hf
    refine ⟨d, k, t, l1, l2, hd1, hd2, hskip, hl, hk, h1, h2, by rw [hexec]; exact hout, ?_, ?_⟩
    · constructor
      · rw [(hfields _).2.1, hf.2.1]; rfl
      · rw [(hfields _).2.2.1, hf.2.2.1]; rfl
    · intro m hm
      exact (ring_congr u t (fun q => (hfields q).2.2.2.2.2.2.1)
        (fun q => (hfields q).2.2.2.2.2.1) m _).1 (hlay.ring m hm)
  · obtain ⟨j, hj, x, hx, hf⟩ := hother
    exact absurd hf (hall j hj x hx)

/-- Witness for C3: right after `binit` with three buffers, `bget(1, 14)` finds bucket 1
empty and steals from bucket 0, the first bucket with a free buffer behind bucket 1. -/
theorem bget_steal_choice_witness :
    Layout 3 (binit 3 zeroed) (initLists 3) ∧ idx (hash (toInt 14)) = some 1
    ∧ (∃ j < NBUCKET, ∃ x ∈ initLists 3 j, ((binit 3 zeroed).mem (Ptr.buf x)).refcnt = 0)
    ∧ ∃ d k t l1 l2, 1 ≤ d ∧ d < NBUCKET
      ∧ (∀ c, 1 ≤ c → c < d → ∀ x ∈ initLists 3 ((1 + c) % NBUCKET),
          ((binit 3 zeroed).mem (Ptr.buf x)).refcnt ≠ 0)
      ∧ initLists 3 ((1 + d) % NBUCKET) = l1 ++ k :: l2
      ∧ ((binit 3 zeroed).mem (Ptr.buf k)).refcnt = 0
      ∧ (∀ x ∈ l1, ((binit 3 zeroed).mem (Ptr.buf x)).refcnt = 0 →
          ((binit 3 zeroed).mem (Ptr.buf k)).lastuse < ((binit 3 zeroed).mem (Ptr.buf x)).lastuse)
      ∧ (∀ x ∈ l2, ((binit 3 zeroed).mem (Ptr.buf x)).refcnt = 0 →
          ((binit 3 zeroed).mem (Ptr.buf k)).lastuse ≤ ((binit 3 zeroed).mem (Ptr.buf x)).lastuse)
      ∧ (bget 13 1 (binit 3 zeroed) 1 14 = Outcome.ret (Ptr.buf k) t
        ∨ bget 13 1 (binit 3 zeroed) 1 14 = Outcome.sleep (Ptr.buf k) t)
      ∧ Carries t 1 14 k
      ∧ (∀ m < NBUCKET, Ring t m (moveTo (initLists 3) 1 ((1 + d) % NBUCKET) k m)) :=
  ⟨binit_layout 3, by decide, ⟨0, by decide, 2, by decide, by decide⟩,
   bget_steal_choice 3 (binit 3 zeroed) (initLists 3) (binit_layout 3) 13 1 1 14 1 (by decide)
     (by decide) (by decide) (by decide) (by decide) ⟨0, by decide, 2, by decide, by decide⟩⟩

theorem claim_fields (dev blockno : Nat) (x : Buf) (h : x.refcnt = 0) :
    (claim dev blockno x).dev = dev ∧ (claim dev blockno x).blockno = blockno
      ∧ (claim dev blockno x).valid = 0 ∧ (claim dev blockno x).refcnt = 1 := by
  refine ⟨rfl, rfl, rfl, ?_⟩
  show (x.refcnt + 1) % UINT = 1
  rw [h]
  decide

/-- C4 (miss postcondition).  In a well-formed cache, when `bget(dev, blockno)` does not find
the key in bucket `i = hash(blockno)` and does not panic, the buffer it resolves the key
to (taken from bucket `i` or stolen from another bucket) has `dev` and `blockno` equal to the
key, `valid == 0` and `refcnt == 1`, and it is in the list of bucket `i` of the well-formed
cache that `bget` leaves behind. -/
theorem bget_miss_post (N : Nat) (s : State) (L : Nat → List Nat) (h : Layout N s L)
    (fuel pid dev blockno i : Nat) (hfuel : N < fuel) (hfuel2 : NBUCKET ≤ fuel)
    (hi : idx (hash (toInt blockno)) = some i)
    (hmiss : ∀ x ∈ L i, ¬ Carries s dev blockno x)
    (hnp : (bget fuel pid s dev blockno).isPanic = false) :
    ∃ k t M, (bget fuel pid s dev blockno = Outcome.ret (Ptr.buf k) t
        ∨ bget fuel pid s dev blockno = Outcome.sleep (Ptr.buf k) t)
      ∧ (t.mem (Ptr.buf k)).dev = dev ∧ (t.mem (Ptr.buf k)).blockno = blockno
      ∧ (t.mem (Ptr.buf k)).valid = 0 ∧ (t.mem (Ptr.buf k)).refcnt = 1
      ∧ Layout N t M ∧ k ∈ M i := by
  obtain ⟨hilt, _⟩ := idx_lt _ _ hi
  rcases bget_cases N s L h fuel pid dev blockno i hfuel hfuel2 hi with
    ⟨l1, k, l2, hl, hk, _, _⟩ | ⟨_, ⟨k, hlru, hexec⟩ | ⟨_, ⟨d, k, u, hd1, hd2, _, hlru, _, hlay, hinfo, hexec⟩ | ⟨_, hexec⟩⟩⟩
  · exact absurd hk (hmiss k (by rw [hl]; simp))
  · obtain ⟨hkmem, hkfree⟩ := isLru_mem s _ k hlru
    obtain ⟨t, hout, hfields, _⟩ :=
      acquiresleep_post pid (Ptr.buf k) (s.upd (Ptr.buf k) (claim dev blockno))
    have hc := claim_fields dev blockno (s.mem (Ptr.buf k)) hkfree
    have hlay := layout_claim N s L h i k dev blockno hkmem hi
    refine ⟨k, t, L, by rw [hexec]; exact hout, ?_, ?_, ?_, ?_,
      layout_acquiresleep N _ t L hlay pid _ _ hout, hkmem⟩
    · rw [(hfields _).2.1, upd_mem_same]; exact hc.1
    · rw [(hfields _).2.2.1, upd_mem_same]; exact hc.2.1
    · rw [(hfields _).1, upd_mem_same]; exact hc.2.2.1
    · rw [(hfields _).2.2.2.1, upd_mem_same]; exact hc.2.2.2
  · obtain ⟨hkmem, hkfree⟩ := isLru_mem s _ k hlru
    obtain ⟨t, hout, hfields, _⟩ := acquiresleep_post pid (Ptr.buf k) u
    have hc := claim_fields dev blockno (s.mem (Ptr.buf k)) hkfree
    have hf := info_fields _ _ (hinfo (Ptr.buf k))
    rw [upd_mem_same] at hf
    refine ⟨k, t, _, by rw [hexec]; exact hout, ?_, ?_, ?_, ?_,
      layout_acquiresleep N _ t _ hlay pid _ _ hout, ?_⟩
    · rw [(hfields _).2.1, hf.2.1]; exact hc.1
    · rw [(hfields _).2.2.1, hf.2.2.1]; exact hc.2.1
    · rw [(hfields _).1, hf.1]; exact hc.2.2.1
    · rw [(hfields _).2.2.2.1, hf.2.2.2.2.1]; exact hc.2.2.2
    · simp [moveTo]
  · rw [hexec] at hnp
    simp [Outcome.isPanic] at hnp

/-- Witness for C4: right after `binit` with three buffers, `bget(1, 14)` misses in bucket 1
and does not panic. -/
theorem bget_miss_post_witness :
    Layout 3 (binit 3 zeroed) (initLists 3) ∧ idx (hash (toInt 14)) = some 1
    ∧ (∀ x ∈ initLists 3 1, ¬ Carries (binit 3 zeroed) 1 14 x)
    ∧ (bget 13 1 (binit 3 zeroed) 1 14).isPanic = false
    ∧ ∃ k t M, (bget 13 1 (binit 3 zeroed) 1 14 = Outcome.ret (Ptr.buf k) t
        ∨ bget 13 1 (binit 3 zeroed) 1 14 = Outcome.sleep (Ptr.buf k) t)
      ∧ (t.mem (Ptr.buf k)).dev = 1 ∧ (t.mem (Ptr.buf k)).blockno = 14
      ∧ (t.mem (Ptr.buf k)).valid = 0 ∧ (t.mem (Ptr.buf k)).refcnt = 1
      ∧ Layout 3 t M ∧ k ∈ M 1 :=
  ⟨binit_layout 3, by decide, by decide, by decide,
   bget_miss_post 3 (binit 3 zeroed) (initLists 3) (binit_layout 3) 13 1 1 14 1 (by decide)
     (by decide) (by decide) (by decide) (by decide)⟩

/-- C7 (no double-assignment).  In a well-formed cache, whatever `bget(dev, blockno)` does
(return a buffer, put its caller to sleep on a buffer's lock, or panic), every buffer that
had `refcnt > 0` before the call is in the list of the same bucket afterwards and has the
same `dev`, `blockno`, `valid`, `lastuse` and payload; its `refcnt` is unchanged unless
it is the buffer `bget` resolved the key to on a hit, where it has gone up by one. -/
theorem bget_spares_busy (N : Nat) (s t : State) (L : Nat → List Nat) (h : Layout N s L)
    (fuel pid dev blockno : Nat) (hfuel : N < fuel) (hfuel2 : NBUCKET ≤ fuel) (b : Ptr)
    (hout : bget fuel pid s dev blockno = Outcome.ret b t
      ∨ bget fuel pid s dev blockno = Outcome.sleep b t
      ∨ (∃ msg, bget fuel pid s dev blockno = Outcome.panic msg t)) :
    ∃ M, Layout N t M ∧ ∀ i < NBUCKET, ∀ k ∈ L i, (s.mem (Ptr.buf k)).refcnt ≠ 0 →
      k ∈ M i
      ∧ (t.mem (Ptr.buf k)).dev = (s.mem (Ptr.buf k)).dev
      ∧ (t.mem (Ptr.buf k)).blockno = (s.mem (Ptr.buf k)).blockno
      ∧ (t.mem (Ptr.buf k)).valid = (s.mem (Ptr.buf k)).valid
      ∧ (t.mem (Ptr.buf k)).lastuse = (s.mem (Ptr.buf k)).lastuse
      ∧ (t.mem (Ptr.buf k)).data = (s.mem (Ptr.buf k)).data
      ∧ ((t.mem (Ptr.buf k)).refcnt = (s.mem (Ptr.buf k)).refcnt
        ∨ (b = Ptr.buf k ∧ Carries s dev blockno k
          ∧ (t.mem (Ptr.buf k)).refcnt = ((s.mem (Ptr.buf k)).refcnt + 1) % UINT)) := by
  cases hidx : idx (hash (toInt blockno)) with
  | none =>
    rw [bget_fault_of_idx fuel pid dev blockno s hidx] at hout
    simp at hout
  | some i =>
    obtain ⟨hilt, _⟩ := idx_lt _ _ hidx
    have hout2 : ∀ c u, bget fuel pid s dev blockno = acquiresleep pid c u →
        (acquiresleep pid c u = Outcome.ret b t ∨ acquiresleep pid c u = Outcome.sleep b t) := by
      intro c u he
      rw [he] at hout
      rcases hout with ho | ho | ⟨msg, ho⟩
      · exact Or.inl ho
      · exact Or.inr ho
      · unfold acquiresleep at ho
        split at ho <;> simp at ho
    have hpost : ∀ c u, (acquiresleep pid c u = Outcome.ret b t
        ∨ acquiresleep pid c u = Outcome.sleep b t) →
        b = c ∧ ∀ q, (t.mem q).valid = (u.mem q).valid ∧ (t.mem q).dev = (u.mem q).dev
          ∧ (t.mem q).blockno = (u.mem q).blockno ∧ (t.mem q).refcnt = (u.mem q).refcnt
          ∧ (t.mem q).lastuse = (u.mem q).lastuse ∧ (t.mem q).prev = (u.mem q).prev
          ∧ (t.mem q).next = (u.mem q).next ∧ (t.mem q).data = (u.mem q).data := by
      intro c u ho
      obtain ⟨t0, ht0, hf, _⟩ := acquiresleep_post pid c u
      rcases ho with ho | ho <;> rcases ht0 with ht0 | ht0 <;> rw [ho] at ht0 <;>
        simp only [Outcome.ret.injEq, Outcome.sleep.injEq, reduceCtorEq] at ht0
      · exact ⟨ht0.1, by rw [ht0.2]; exact hf⟩
      · exact ⟨ht0.1, by rw [ht0.2]; exact hf⟩
    rcases bget_cases N s L h fuel pid dev blockno i hfuel hfuel2 hidx with
      ⟨l1, k0, l2, hl, hk0, _, hexec⟩ | ⟨_, ⟨k0, hlru, hexec⟩ | ⟨_, ⟨d, k0, u, hd1, hd2, _, hlru, _, hlay, hinfo, hexec⟩ | ⟨_, hexec⟩⟩⟩
    · have ho := hout2 _ _ hexec
      obtain ⟨hb, hf⟩ := hpost _ _ ho
      refine ⟨L, layout_acquiresleep N _ t L (layout_upd N s L h _ incRef (fun _ => rfl)
        (fun _ => rfl) (fun _ => Or.inl rfl) (fun _ => rfl)) pid _ b ho, ?_⟩
      intro m _ k hk _
      obtain ⟨f1, f2, f3, f4, f5, _, _, f8⟩ := hf (Ptr.buf k)
      by_cases hkk : k = k0
      · subst hkk
        rw [f1, f2, f3, f4, f5, f8, upd_mem_same]
        exact ⟨hk, rfl, rfl, rfl, rfl, rfl, Or.inr ⟨hb, hk0, rfl⟩⟩
      · rw [f1, f2, f3, f4, f5, f8, upd_mem_other _ _ _ _ (by simpa using hkk)]
        exact ⟨hk, rfl, rfl, rfl, rfl, rfl, Or.inl rfl⟩
    · obtain ⟨hkmem, hkfree⟩ := isLru_mem s _ k0 hlru
      have ho := hout2 _ _ hexec
      obtain ⟨_, hf⟩ := hpost _ _ ho
      refine ⟨L, layout_acquiresleep N _ t L (layout_claim N s L h i k0 dev blockno hkmem hidx)
        pid _ b ho, ?_⟩
      intro m _ k hk hbusy
      obtain ⟨f1, f2, f3, f4, f5, _, _, f8⟩ := hf (Ptr.buf k)
      have hkk : k ≠ k0 := fun e => hbusy (e ▸ hkfree)
      rw [f1, f2, f3, f4, f5, f8, upd_mem_other _ _ _ _ (by simpa using hkk)]
      exact ⟨hk, rfl, rfl, rfl, rfl, rfl, Or.inl rfl⟩
    · obtain ⟨hkmem, hkfree⟩ := isLru_mem s _ k0 hlru
      have ho := hout2 _ _ hexec
      obtain ⟨_, hf⟩ := hpost _ _ ho
      refine ⟨_, layout_acquiresleep N _ t _ hlay pid _ b ho, ?_⟩
      intro m hm k hk hbusy
      obtain ⟨f1, f2, f3, f4, f5, _, _, f8⟩ := hf (Ptr.buf k)
      have hkk : k ≠ k0 := fun e => hbusy (e ▸ hkfree)
      obtain ⟨g1, g2, g3, _, g5, g6, g7⟩ := info_fields _ _ (hinfo (Ptr.buf k))
      rw [upd_mem_other _ _ _ _ (by simpa using hkk)] at g1 g2 g3 g5 g6 g7
      have hj : (i + d) % NBUCKET < NBUCKET := Nat.mod_lt _ (by decide)
      have hij : i ≠ (i + d) % NBUCKET := by
        simp only [NBUCKET] at hd2 hilt ⊢
        omega
      refine ⟨?_, by rw [f2, g2], by rw [f3, g3], by rw [f1, g1], by rw [f5, g6], by rw [f8, g7],
        Or.inl (by rw [f4, g5])⟩
      rw [mem_moveTo N s L h i _ k0 hilt hj hij hkmem m hm k, if_neg hkk]
      exact hk
    · rw [hexec] at hout
      simp only [reduceCtorEq, false_or, Outcome.panic.injEq, exists_and_right,
        exists_eq_left] at hout
      rw [← hout.2]
      exact ⟨L, h, fun m _ k hk _ => ⟨hk, rfl, rfl, rfl, rfl, rfl, Or.inl rfl⟩⟩

theorem held1_layout : Layout 3 held1 (initLists 3) :=
  layout_upd 3 _ _ (layout_upd 3 _ _ (binit_layout 3) _ incRef (fun _ => rfl) (fun _ => rfl)
    (fun _ => Or.inl rfl) (fun _ => rfl)) _ (setLock (some 1)) (fun _ => rfl) (fun _ => rfl)
    (fun _ => Or.inl rfl) (fun _ => rfl)

theorem held1_eq : bget 4 1 (binit 3 zeroed) 0 0 = Outcome.ret (Ptr.buf 2) held1 := rfl

/-- Witness for C7: with `bcache.buf[2]` held, `bget(1, 13)` by process 2 repurposes
`bcache.buf[1]` and leaves `bcache.buf[2]` alone. -/
theorem bget_spares_busy_witness :
    Layout 3 held1 (initLists 3)
    ∧ bget 13 2 held1 1 13 = Outcome.ret (Ptr.buf 1)
        ((held1.upd (Ptr.buf 1) (claim 1 13)).upd (Ptr.buf 1) (setLock (some 2)))
    ∧ ∃ M, Layout 3 ((held1.upd (Ptr.buf 1) (claim 1 13)).upd (Ptr.buf 1) (setLock (some 2))) M
      ∧ ∀ i < NBUCKET, ∀ k ∈ initLists 3 i, (held1.mem (Ptr.buf k)).refcnt ≠ 0 →
        k ∈ M i
        ∧ (((held1.upd (Ptr.buf 1) (claim 1 13)).upd (Ptr.buf 1) (setLock (some 2))).mem
            (Ptr.buf k)).dev = (held1.mem (Ptr.buf k)).dev
        ∧ (((held1.upd (Ptr.buf 1) (claim 1 13)).upd (Ptr.buf 1) (setLock (some 2))).mem
            (Ptr.buf k)).blockno = (held1.mem (Ptr.buf k)).blockno
        ∧ (((held1.upd (Ptr.buf 1) (claim 1 13)).upd (Ptr.buf 1) (setLock (some 2))).mem
            (Ptr.buf k)).valid = (held1.mem (Ptr.buf k)).valid
        ∧ (((held1.upd (Ptr.buf 1) (claim 1 13)).upd (Ptr.buf 1) (setLock (some 2))).mem
            (Ptr.buf k)).lastuse = (held1.mem (Ptr.buf k)).lastuse
        ∧ (((held1.upd (Ptr.buf 1) (claim 1 13)).upd (Ptr.buf 1) (setLock (some 2))).mem
            (Ptr.buf k)).data = (held1.mem (Ptr.buf k)).data
        ∧ ((((held1.upd (Ptr.buf 1) (claim 1 13)).upd (Ptr.buf 1) (setLock (some 2))).mem
            (Ptr.buf k)).refcnt = (held1.mem (Ptr.buf k)).refcnt
          ∨ (Ptr.buf 1 = Ptr.buf k ∧ Carries held1 1 13 k
            ∧ (((held1.upd (Ptr.buf 1) (claim 1 13)).upd (Ptr.buf 1) (setLock (some 2))).mem
                (Ptr.buf k)).refcnt = ((held1.mem (Ptr.buf k)).refcnt + 1) % UINT)) :=
  ⟨held1_layout, rfl,
   bget_spares_busy 3 held1 _ (initLists 3) held1_layout 13 2 1 13 (by decide) (by decide)
     (Ptr.buf 1) (Or.inl rfl)⟩

/-- The buffer and the memory that a call of `acquiresleep` leaves behind. -/
theorem acquiresleep_inv (pid : Nat) (b c : Ptr) (s t : State)
    (ho : acquiresleep pid c s = Outcome.ret b t ∨ acquiresleep pid c s = Outcome.sleep b t) :
    b = c ∧ (∀ q, (t.mem q).valid = (s.mem q).valid ∧ (t.mem q).dev = (s.mem q).dev
          ∧ (t.mem q).blockno = (s.mem q).blockno ∧ (t.mem q).refcnt = (s.mem q).refcnt
          ∧ (t.mem q).lastuse = (s.mem q).lastuse ∧ (t.mem q).prev = (s.mem q).prev
          ∧ (t.mem q).next = (s.mem q).next ∧ (t.mem q).data = (s.mem q).data)
      ∧ (∀ q, q ≠ c → t.mem q = s.mem q) := by
  obtain ⟨t0, ht0, hf, hother⟩ := acquiresleep_post pid c s
  rcases ho with ho | ho <;> rcases ht0 with ht0 | ht0 <;> rw [ho] at ht0 <;>
    simp only [Outcome.ret.injEq, Outcome.sleep.injEq, reduceCtorEq] at ht0
  · exact ⟨ht0.1, by rw [ht0.2]; exact hf, by rw [ht0.2]; exact hother⟩
  · exact ⟨ht0.1, by rw [ht0.2]; exact hf, by rw [ht0.2]; exact hother⟩

/-- In a well-formed cache every buffer of the pool is in exactly one list, once. -/
theorem layout_count (N : Nat) (s : State) (L : Nat → List Nat) (h : Layout N s L)
    (k : Nat) (hk : k < N) :
    ∃ i < NBUCKET, (L i).count k = 1 ∧ ∀ j < NBUCKET, j ≠ i → (L j).count k = 0 := by
  obtain ⟨i, hi, hki⟩ := h.cover k hk
  refine ⟨i, hi, List.count_eq_one_of_mem (h.nodup i hi) hki, ?_⟩
  intro j hj hji
  exact List.count_eq_zero_of_not_mem (h.disj i hi j hj (fun e => hji e.symm) k hki)

/-- C5 (single membership).  In every state reachable from `binit` by calls of `bget`,
`brelse`, `bpin` and `bunpin`, the buckets have lists `L 0, ..., L (NBUCKET - 1)` and each of
the `N = NBUF` buffers occurs exactly once in exactly one of them.  When `bget` resolves a
key of bucket `i` to a buffer `k` that was in another bucket `j` (a steal), then afterwards
`k` occurs once in the list of bucket `i` and in no other list, so not in that of `j`. -/
theorem single_membership (N : Nat) (s : State) (h : Reachable N s) :
    ∃ L : Nat → List Nat, (∀ i < NBUCKET, Ring s i (L i))
      ∧ (∀ k < N, ∃ i < NBUCKET, (L i).count k = 1 ∧ ∀ j < NBUCKET, j ≠ i → (L j).count k = 0)
      ∧ (∀ fuel pid dev blockno i j k t, N < fuel → NBUCKET ≤ fuel →
          idx (hash (toInt blockno)) = some i → j < NBUCKET → j ≠ i → k ∈ L j →
          (bget fuel pid s dev blockno = Outcome.ret (Ptr.buf k) t
            ∨ bget fuel pid s dev blockno = Outcome.sleep (Ptr.buf k) t) →
          ∃ M : Nat → List Nat, (∀ m < NBUCKET, Ring t m (M m)) ∧ (M i).count k = 1
            ∧ ∀ m < NBUCKET, m ≠ i → (M m).count k = 0) := by
  obtain ⟨L, hL⟩ := reachable_layout N s h
  refine ⟨L, hL.ring, layout_count N s L hL, ?_⟩
  intro fuel pid dev blockno i j k t hfuel hfuel2 hidx hj hji hkj hout
  obtain ⟨hilt, _⟩ := idx_lt _ _ hidx
  have hki : k ∉ L i := hL.disj j hj i hilt hji k hkj
  rcases bget_cases N s L hL fuel pid dev blockno i hfuel hfuel2 hidx with
    ⟨l1, k0, l2, hl, _, _, hexec⟩ | ⟨_, ⟨k0, hlru, hexec⟩ | ⟨_, ⟨d, k0, u, hd1, hd2, _, hlru, _, hlay, _, hexec⟩ | ⟨_, hexec⟩⟩⟩
  · rw [hexec] at hout
    have hb := (acquiresleep_inv pid _ _ _ t hout).1
    simp only [Ptr.buf.injEq] at hb
    exact absurd (by rw [hb, hl]; simp) hki
  · rw [hexec] at hout
    have hb := (acquiresleep_inv pid _ _ _ t hout).1
    simp only [Ptr.buf.injEq] at hb
    exact absurd (hb ▸ (isLru_mem s _ k0 hlru).1) hki
  · rw [hexec] at hout
    have hb := (acquiresleep_inv pid _ _ _ t hout).1
    simp only [Ptr.buf.injEq] at hb
    subst hb
    have hlt := layout_acquiresleep N u t _ hlay pid _ _ hout
    have hmem : k ∈ moveTo L i ((i + d) % NBUCKET) k i := by simp [moveTo]
    refine ⟨_, hlt.ring, List.count_eq_one_of_mem (hlt.nodup i hilt) hmem, ?_⟩
    intro m hm hmi
    exact List.count_eq_zero_of_not_mem (hlt.disj i hilt m hm (fun e => hmi e.symm) k hmem)
  · rw [hexec] at hout
    simp at hout

/-- Witness for C5: the state after `binit` with three buffers. -/
theorem single_membership_witness :
    Reachable 3 (binit 3 zeroed)
    ∧ ∃ L : Nat → List Nat, (∀ i < NBUCKET, Ring (binit 3 zeroed) i (L i))
      ∧ (∀ k < 3, ∃ i < NBUCKET, (L i).count k = 1 ∧ ∀ j < NBUCKET, j ≠ i → (L j).count k = 0)
      ∧ (∀ fuel pid dev blockno i j k t, 3 < fuel → NBUCKET ≤ fuel →
          idx (hash (toInt blockno)) = some i → j < NBUCKET → j ≠ i → k ∈ L j →
          (bget fuel pid (binit 3 zeroed) dev blockno = Outcome.ret (Ptr.buf k) t
            ∨ bget fuel pid (binit 3 zeroed) dev blockno = Outcome.sleep (Ptr.buf k) t) →
          ∃ M : Nat → List Nat, (∀ m < NBUCKET, Ring t m (M m)) ∧ (M i).count k = 1
            ∧ ∀ m < NBUCKET, m ≠ i → (M m).count k = 0) :=
  ⟨Reachable.init, single_membership 3 (binit 3 zeroed) Reachable.init⟩

/-! Exhaustion of the pool -/

theorem sum_bump (N : Nat) (f g : Nat → Nat) (k0 : Nat) (hk : k0 < N) (hf : f k0 = 0)
    (hg : g k0 = 1) (hsame : ∀ k, k ≠ k0 → g k = f k) :
    ∑ k in Finset.range N, g k = ∑ k in Finset.range N, f k + 1 := by
  have hmem : k0 ∈ Finset.range N := Finset.mem_range.2 hk
  rw [← Finset.add_sum_erase _ g hmem, ← Finset.add_sum_erase _ f hmem, hf, hg]
  have : ∑ x in (Finset.range N).erase k0, g x = ∑ x in (Finset.range N).erase k0, f x :=
    Finset.sum_congr rfl (fun x hx => hsame x (Finset.ne_of_mem_erase hx))
  rw [this]
  omega

theorem sum_full (N : Nat) (f : Nat → Nat) (hle : ∀ k < N, f k ≤ 1)
    (hsum : ∑ k in Finset.range N, f k = N) : ∀ k < N, f k = 1 := by
  intro k0 hk
  by_contra hne
  have h0 : f k0 = 0 := by have := hle k0 hk; omega
  have hmem : k0 ∈ Finset.range N := Finset.mem_range.2 hk
  have h1 : ∑ x in (Finset.range N).erase k0, f x ≤ ((Finset.range N).erase k0).card • 1 :=
    Finset.sum_le_card_nsmul _ _ _
      (fun x hx => hle x (Finset.mem_range.1 (Finset.mem_of_mem_erase hx)))
  rw [Finset.card_erase_of_mem hmem, Finset.card_range] at h1
  have h2 := Finset.add_sum_erase _ f hmem
  rw [h0, hsum] at h2
  simp only [smul_eq_mul, mul_one] at h1
  omega

/-- A call of `bget` that returns, for a key that no buffer in use carries, takes one free
buffer: the `refcnt` of one buffer of the pool goes from 0 to 1, that buffer carries the key
afterwards, and no other buffer changes its key or its `refcnt`. -/
theorem bget_takes_free (N : Nat) (s t : State) (L : Nat → List Nat) (h : Layout N s L)
    (fuel pid dev blockno : Nat) (hfuel : N < fuel) (hfuel2 : NBUCKET ≤ fuel) (b : Ptr)
    (hout : bget fuel pid s dev blockno = Outcome.ret b t)
    (hnew : ∀ k < N, Carries s dev blockno k → (s.mem (Ptr.buf k)).refcnt = 0) :
    ∃ k0 M, k0 < N ∧ Layout N t M ∧ (s.mem (Ptr.buf k0)).refcnt = 0
      ∧ (t.mem (Ptr.buf k0)).refcnt = 1 ∧ Carries t dev blockno k0
      ∧ ∀ k, k ≠ k0 → (t.mem (Ptr.buf k)).refcnt = (s.mem (Ptr.buf k)).refcnt
          ∧ (t.mem (Ptr.buf k)).dev = (s.mem (Ptr.buf k)).dev
          ∧ (t.mem (Ptr.buf k)).blockno = (s.mem (Ptr.buf k)).blockno := by
  cases hidx : idx (hash (toInt blockno)) with
  | none =>
    rw [bget_fault_of_idx fuel pid dev blockno s hidx] at hout
    simp at hout
  | some i =>
    obtain ⟨hilt, _⟩ := idx_lt _ _ hidx
    rcases bget_cases N s L h fuel pid dev blockno i hfuel hfuel2 hidx with
      ⟨l1, k0, l2, hl, hk0, _, hexec⟩ | ⟨_, ⟨k0, hlru, hexec⟩ | ⟨_, ⟨d, k0, u, hd1, hd2, _, hlru, _, hlay, hinfo, hexec⟩ | ⟨_, hexec⟩⟩⟩
    · rw [hexec] at hout
      obtain ⟨_, hf, _⟩ := acquiresleep_inv pid _ _ _ t (Or.inl hout)
      have hmem : k0 ∈ L i := by rw [hl]; simp
      have hlt := h.lt i hilt k0 hmem
      have hfree := hnew k0 hlt hk0
      refine ⟨k0, L, hlt, layout_acquiresleep N _ t L (layout_upd N s L h _ incRef (fun _ => rfl)
        (fun _ => rfl) (fun _ => Or.inl rfl) (fun _ => rfl)) pid _ b (Or.inl hout), hfree, ?_, ?_, ?_⟩
      · rw [(hf _).2.2.2.1, upd_mem_same]
        show ((s.mem (Ptr.buf k0)).refcnt + 1) % UINT = 1
        rw [hfree]; decide
      · constructor
        · rw [(hf _).2.1, upd_mem_same]; exact hk0.1
        · rw [(hf _).2.2.1, upd_mem_same]; exact hk0.2
      · intro k hk
        rw [(hf _).2.2.2.1, (hf _).2.1, (hf _).2.2.1, upd_mem_other _ _ _ _ (by simpa using hk)]
        exact ⟨rfl, rfl, rfl⟩
    · rw [hexec] at hout
      obtain ⟨_, hf, _⟩ := acquiresleep_inv pid _ _ _ t (Or.inl hout)
      obtain ⟨hkmem, hkfree⟩ := isLru_mem s _ k0 hlru
      have hc := claim_fields dev blockno (s.mem (Ptr.buf k0)) hkfree
      refine ⟨k0, L, h.lt i hilt k0 hkmem, layout_acquiresleep N _ t L
        (layout_claim N s L h i k0 dev blockno hkmem hidx) pid _ b (Or.inl hout), hkfree, ?_, ?_, ?_⟩
      · rw [(hf _).2.2.2.1, upd_mem_same]; exact hc.2.2.2
      · constructor
        · rw [(hf _).2.1, upd_mem_same]; exact hc.1
        · rw [(hf _).2.2.1, upd_mem_same]; exact hc.2.1
      · intro k hk
        rw [(hf _).2.2.2.1, (hf _).2.1, (hf _).2.2.1, upd_mem_other _ _ _ _ (by simpa using hk)]
        exact ⟨rfl, rfl, rfl⟩
    · rw [hexec] at hout
      obtain ⟨_, hf, _⟩ := acquiresleep_inv pid _ _ _ t (Or.inl hout)
      obtain ⟨hkmem, hkfree⟩ := isLru_mem s _ k0 hlru
      have hc := claim_fields dev blockno (s.mem (Ptr.buf k0)) hkfree
      have hj : (i + d) % NBUCKET < NBUCKET := Nat.mod_lt _ (by decide)
      have hg := info_fields _ _ (hinfo (Ptr.buf k0))
      rw [upd_mem_same] at hg
      refine ⟨k0, _, h.lt _ hj k0 hkmem, layout_acquiresleep N _ t _ hlay pid _ b (Or.inl hout),
        hkfree, ?_, ?_, ?_⟩
      · rw [(hf _).2.2.2.1, hg.2.2.2.2.1]; exact hc.2.2.2
      · constructor
        · rw [(hf _).2.1, hg.2.1]; exact hc.1
        · rw [(hf _).2.2.1, hg.2.2.1]; exact hc.2.1
      · intro k hk
        have hg2 := info_fields _ _ (hinfo (Ptr.buf k))
        rw [upd_mem_other _ _ _ _ (by simpa using hk)] at hg2
        rw [(hf _).2.2.2.1, (hf _).2.1, (hf _).2.2.1]
        exact ⟨hg2.2.2.2.2.1, hg2.2.1, hg2.2.2.1⟩
    · rw [hexec] at hout
      simp at hout

theorem taken_init (N : Nat) : Taken N (binit N zeroed) [] := by
  have hz : ∀ k, ((binit N zeroed).mem (Ptr.buf k)).refcnt = 0 :=
    fun k => (info_fields _ _ (binit_info N (Ptr.buf k))).2.2.2.2.1
  refine ⟨⟨_, binit_layout N⟩, fun k _ => by rw [hz]; omega, fun k _ h1 => ?_, ?_⟩
  · rw [hz] at h1; omega
  · simp [hz]

theorem taken_step (N : Nat) (s t : State) (seen : List (Nat × Nat))
    (fuel pid dev blockno : Nat) (hfuel : N < fuel) (hfuel2 : NBUCKET ≤ fuel) (b : Ptr)
    (h : Taken N s seen) (hnew : (dev, blockno) ∉ seen)
    (hout : bget fuel pid s dev blockno = Outcome.ret b t) :
    Taken N t ((dev, blockno) :: seen) := by
  obtain ⟨⟨L, hL⟩, hle, hkey, hsum⟩ := h
  have hfresh : ∀ k < N, Carries s dev blockno k → (s.mem (Ptr.buf k)).refcnt = 0 := by
    intro k hk hc
    by_contra hne
    have h1 : (s.mem (Ptr.buf k)).refcnt = 1 := by have := hle k hk; omega
    have := hkey k hk h1
    rw [hc.1, hc.2] at this
    exact hnew this
  obtain ⟨k0, M, hk0, hM, hf0, hf1, hc, hsame⟩ :=
    bget_takes_free N s t L hL fuel pid dev blockno hfuel hfuel2 b hout hfresh
  refine ⟨⟨M, hM⟩, ?_, ?_, ?_⟩
  · intro k hk
    by_cases e : k = k0
    · rw [e, hf1]
    · rw [(hsame k e).1]; exact hle k hk
  · intro k hk h1
    by_cases e : k = k0
    · rw [e, hc.1, hc.2]; simp
    · rw [(hsame k e).1] at h1
      rw [(hsame k e).2.1, (hsame k e).2.2]
      exact List.mem_cons_of_mem _ (hkey k hk h1)
  · rw [sum_bump N (fun k => (s.mem (Ptr.buf k)).refcnt) (fun k => (t.mem (Ptr.buf k)).refcnt)
      k0 hk0 hf0 hf1 (fun k e => (hsame k e).1), hsum]
    simp

theorem taken_run (N fuel : Nat) (hfuel : N < fuel) (hfuel2 : NBUCKET ≤ fuel) :
    ∀ (calls : List (Nat × Nat × Nat)) (s t : State) (seen : List (Nat × Nat)),
      Taken N s seen → (calls.map Prod.snd).Nodup → (∀ c ∈ calls, c.2 ∉ seen) →
      acquireAll fuel s calls = some t → Taken N t ((calls.map Prod.snd).reverse ++ seen) := by
  intro calls
  induction calls with
  | nil =>
    intro s t seen h _ _ hrun
    simp only [acquireAll, Option.some.injEq] at hrun
    rw [← hrun]
    simpa using h
  | cons c rest ih =>
    intro s t seen h hnd hnew hrun
    obtain ⟨pid, dev, blockno⟩ := c
    simp only [acquireAll] at hrun
    split at hrun
    · rename_i b s1 hout
      simp only [List.map_cons, List.nodup_cons] at hnd
      have h1 := taken_step N s s1 seen fuel pid dev blockno hfuel hfuel2 b h
        (hnew (pid, dev, blockno) (by simp)) hout
      have h2 := ih s1 t ((dev, blockno) :: seen) h1 hnd.2 (by
        intro c hc hin
        simp only [List.mem_cons] at hin
        rcases hin with e | hin
        · exact hnd.1 (by rw [← e]; exact List.mem_map_of_mem _ hc)
        · exact hnew c (by simp [hc]) hin) hrun
      simpa using h2
    · simp at hrun

/-- After `N = NBUF` pairwise distinct keys have been acquired from the state after `binit`
and none released, `bget` for a further key that has a bucket panics and leaves the memory
as it is. -/
theorem bget_exhausted (N fuel : Nat) (hfuel : N < fuel) (hfuel2 : NBUCKET ≤ fuel)
    (calls : List (Nat × Nat × Nat)) (t : State) (hlen : calls.length = N)
    (hnd : (calls.map Prod.snd).Nodup)
    (hrun : acquireAll fuel (binit N zeroed) calls = some t)
    (pid dev blockno i : Nat) (hnew : (dev, blockno) ∉ calls.map Prod.snd)
    (hi : idx (hash (toInt blockno)) = some i) :
    bget fuel pid t dev blockno = Outcome.panic "bget: no buffers" t := by
  have h := taken_run N fuel hfuel hfuel2 calls _ t [] (taken_init N) hnd (by simp) hrun
  obtain ⟨⟨L, hL⟩, hle, hkey, hsum⟩ := h
  simp only [List.append_nil, List.length_reverse, List.length_map, hlen] at hsum
  have hall := sum_full N _ hle hsum
  obtain ⟨hilt, _⟩ := idx_lt _ _ hi
  refine bget_exec_panic t fuel pid dev blockno i L hi hL.ring
    (fun j hj => lt_of_le_of_lt (layout_length N t L hL j hj) hfuel) hfuel2 ?_ ?_
  · intro x hx hc
    have hxlt := hL.lt i hilt x hx
    have := hkey x hxlt (hall x hxlt)
    rw [hc.1, hc.2] at this
    simp only [List.append_nil, List.mem_reverse] at this
    exact hnew this
  · intro j hj x hx hfree
    have := hall x (hL.lt j hj x hx)
    unfold Free at hfree
    omega

theorem acquiresleep_not_panic (pid : Nat) (b : Ptr) (s : State) :
    (acquiresleep pid b s).isPanic = false := by
  unfold acquiresleep
  split <;> rfl

/-- In a well-formed cache `bget` panics exactly when the key has a bucket, is not in it, and
no bucket has a free buffer; the panic is "bget: no buffers" and the memory is untouched. -/
theorem bget_panic_iff (N : Nat) (s : State) (L : Nat → List Nat) (h : Layout N s L)
    (fuel pid dev blockno : Nat) (hfuel : N < fuel) (hfuel2 : NBUCKET ≤ fuel) :
    ((bget fuel pid s dev blockno).isPanic = true ↔
        ∃ i, idx (hash (toInt blockno)) = some i ∧ (∀ x ∈ L i, ¬ Carries s dev blockno x)
          ∧ ∀ j < NBUCKET, ∀ x ∈ L j, (s.mem (Ptr.buf x)).refcnt ≠ 0)
    ∧ (∀ msg t, bget fuel pid s dev blockno = Outcome.panic msg t →
        msg = "bget: no buffers" ∧ t = s) := by
  cases hidx : idx (hash (toInt blockno)) with
  | none =>
    rw [bget_fault_of_idx fuel pid dev blockno s hidx]
    simp [Outcome.isPanic]
  | some i =>
    obtain ⟨hilt, _⟩ := idx_lt _ _ hidx
    have hlen : ∀ j < NBUCKET, (L j).length < fuel := fun j hj =>
      lt_of_le_of_lt (layout_length N s L h j hj) hfuel
    have hback : (∃ i2, some i = some i2 ∧ (∀ x ∈ L i2, ¬ Carries s dev blockno x)
        ∧ ∀ j < NBUCKET, ∀ x ∈ L j, (s.mem (Ptr.buf x)).refcnt ≠ 0) →
        bget fuel pid s dev blockno = Outcome.panic "bget: no buffers" s := by
      rintro ⟨i2, e, hmiss, hbusy⟩
      simp only [Option.some.injEq] at e
      subst e
      exact bget_exec_panic s fuel pid dev blockno i L hidx h.ring hlen hfuel2 hmiss hbusy
    rcases bget_cases N s L h fuel pid dev blockno i hfuel hfuel2 hidx with
      ⟨l1, k0, l2, hl, hk0, _, hexec⟩ | ⟨hmiss, ⟨k0, hlru, hexec⟩ | ⟨_, ⟨d, k0, u, hd1, hd2, _, hlru, _, _, _, hexec⟩ | ⟨hall, hexec⟩⟩⟩
    · have hnp := acquiresleep_not_panic pid (Ptr.buf k0) (s.upd (Ptr.buf k0) incRef)
      rw [← hexec] at hnp
      refine ⟨⟨fun hp => by rw [hnp] at hp; simp at hp, fun hx => by rw [hback hx]; rfl⟩, ?_⟩
      intro msg t he
      rw [he] at hnp
      simp [Outcome.isPanic] at hnp
    · have hnp := acquiresleep_not_panic pid (Ptr.buf k0) (s.upd (Ptr.buf k0) (claim dev blockno))
      rw [← hexec] at hnp
      refine ⟨⟨fun hp => by rw [hnp] at hp; simp at hp, fun hx => by rw [hback hx]; rfl⟩, ?_⟩
      intro msg t he
      rw [he] at hnp
      simp [Outcome.isPanic] at hnp
    · have hnp := acquiresleep_not_panic pid (Ptr.buf k0) u
      rw [← hexec] at hnp
      refine ⟨⟨fun hp => by rw [hnp] at hp; simp at hp, fun hx => by rw [hback hx]; rfl⟩, ?_⟩
      intro msg t he
      rw [he] at hnp
      simp [Outcome.isPanic] at hnp
    · rw [hexec]
      refine ⟨⟨fun _ => ⟨i, rfl, hmiss, hall⟩, fun _ => rfl⟩, ?_⟩
      intro msg t he
      simp only [Outcome.panic.injEq] at he
      exact ⟨he.1.symm, he.2.symm⟩

/-- Exhaustion, for keys that have a bucket.  Start from the state after `binit` with
`N = NBUF` buffers and let `N` pairwise distinct keys be acquired with `bget`, none released.
Then `bget` for a further key, distinct from all of them and with a bucket to look in, panics
with "bget: no buffers" and the memory (every field of every buffer, every list) is what it
was before the call.  More generally, in any well-formed cache `bget` panics if and only if
the key has a bucket, no buffer in that bucket carries the key, and no buffer in any bucket
has `refcnt == 0`; and a panicking `bget` leaves the memory as it was. -/
theorem bget_exhaustion (N fuel : Nat) (hfuel : N < fuel) (hfuel2 : NBUCKET ≤ fuel)
    (calls : List (Nat × Nat × Nat)) (t : State) (hlen : calls.length = N)
    (hnd : (calls.map Prod.snd).Nodup)
    (hrun : acquireAll fuel (binit N zeroed) calls = some t)
    (pid dev blockno i : Nat) (hnew : (dev, blockno) ∉ calls.map Prod.snd)
    (hi : idx (hash (toInt blockno)) = some i) :
    bget fuel pid t dev blockno = Outcome.panic "bget: no buffers" t
    ∧ ∀ (s : State) (L : Nat → List Nat), Layout N s L → ∀ pid2 dev2 blockno2,
        ((bget fuel pid2 s dev2 blockno2).isPanic = true ↔
          ∃ i2, idx (hash (toInt blockno2)) = some i2
            ∧ (∀ x ∈ L i2, ¬ Carries s dev2 blockno2 x)
            ∧ ∀ j < NBUCKET, ∀ x ∈ L j, (s.mem (Ptr.buf x)).refcnt ≠ 0)
        ∧ (∀ msg u, bget fuel pid2 s dev2 blockno2 = Outcome.panic msg u →
            msg = "bget: no buffers" ∧ u = s) :=
  ⟨bget_exhausted N fuel hfuel hfuel2 calls t hlen hnd hrun pid dev blockno i hnew hi,
   fun s L h pid2 dev2 blockno2 => bget_panic_iff N s L h fuel pid2 dev2 blockno2 hfuel hfuel2⟩

/-- An instance of the exhaustion theorem: with three buffers, after `(0, 0)`, `(0, 13)` and
`(0, 26)` have been acquired, `bget(0, 1)` panics. -/
theorem bget_exhaustion_witness :
    acquireAll 13 (binit 3 zeroed) [(1, 0, 0), (1, 0, 13), (1, 0, 26)] = some full3
    ∧ (0, 1) ∉ [(1, 0, 0), (1, 0, 13), (1, 0, 26)].map Prod.snd
    ∧ idx (hash (toInt 1)) = some 1
    ∧ bget 13 2 full3 0 1 = Outcome.panic "bget: no buffers" full3
    ∧ ∀ (s : State) (L : Nat → List Nat), Layout 3 s L → ∀ pid2 dev2 blockno2,
        ((bget 13 pid2 s dev2 blockno2).isPanic = true ↔
          ∃ i2, idx (hash (toInt blockno2)) = some i2
            ∧ (∀ x ∈ L i2, ¬ Carries s dev2 blockno2 x)
            ∧ ∀ j < NBUCKET, ∀ x ∈ L j, (s.mem (Ptr.buf x)).refcnt ≠ 0)
        ∧ (∀ msg u, bget 13 pid2 s dev2 blockno2 = Outcome.panic msg u →
            msg = "bget: no buffers" ∧ u = s) :=
  ⟨rfl, by decide, by decide,
   bget_exhaustion 3 13 (by decide) (by decide) [(1, 0, 0), (1, 0, 13), (1, 0, 26)] full3 rfl
     (by decide) rfl 2 0 1 1 (by decide) (by decide)⟩

/-- C6 at a block number of `2^31` or more.  With three buffers, after `(0, 0)`, `(0, 13)` and
`(0, 26)` have been acquired and none released, `bget(0, 2147483648)` is a call for a further
key; `hash` gets the block number as the `int` `-2147483648` and returns `-11`, so `bget`
indexes `bcache.lock` and `bcache.head` out of bounds: it does not reach
`panic("bget: no buffers")`. -/
theorem exhaustion_out_of_range :
    acquireAll 13 (binit 3 zeroed) [(1, 0, 0), (1, 0, 13), (1, 0, 26)] = some full3
    ∧ (0, 2147483648) ∉ [(1, 0, 0), (1, 0, 13), (1, 0, 26)].map Prod.snd
    ∧ toInt 2147483648 = -2147483648
    ∧ hash (toInt 2147483648) = -11
    ∧ idx (hash (toInt 2147483648)) = none
    ∧ bget 13 2 full3 0 2147483648 = Outcome.fault
    ∧ (bget 13 2 full3 0 2147483648).isPanic = false :=
  ⟨rfl, by decide, by decide, by decide, by decide, rfl, rfl⟩

/-! `brelse` -/

/-- What `brelse` does when its caller holds the lock of `b` and `b`'s block number has a
bucket: the cell of `b` loses its holder, its `refcnt` goes down by one and, when that makes
it 0, `lastuse` is set to `ticks`; no other cell changes. -/
theorem brelse_effect (s : State) (pid ticks : Nat) (b : Ptr) (i : Nat)
    (hb : b ≠ Ptr.null) (hold : (s.mem b).lock = some pid)
    (hidx : idx (hash (toInt (s.mem b).blockno)) = some i) :
    ∃ t, brelse pid ticks s b = Effect.done t
      ∧ t.mem b = (if (decRef (s.mem b)).refcnt = 0
          then setLastuse (ticks % UINT) (decRef (setLock none (s.mem b)))
          else decRef (setLock none (s.mem b)))
      ∧ ∀ q, q ≠ b → t.mem q = s.mem q := by
  have hh : holdingsleep pid (s.mem b) = true := by simp [holdingsleep, hold]
  have e1 : ((s.upd b (setLock none)).mem b).blockno = (s.mem b).blockno := by
    rw [upd_mem_same]; rfl
  have e2 : (((s.upd b (setLock none)).upd b decRef).mem b).refcnt = (decRef (s.mem b)).refcnt := by
    rw [upd_mem_same, upd_mem_same]; rfl
  unfold brelse
  simp only [hb, if_false, hh, Bool.not_true, Bool.false_eq_true, e1, hidx, e2]
  by_cases hz : (decRef (s.mem b)).refcnt = 0
  · simp only [hz, if_true]
    refine ⟨_, rfl, ?_, ?_⟩
    · rw [upd_mem_same, upd_mem_same, upd_mem_same]
    · intro q hq
      rw [upd_mem_other _ _ _ _ hq, upd_mem_other _ _ _ _ hq, upd_mem_other _ _ _ _ hq]
  · simp only [hz, if_false]
    refine ⟨_, rfl, ?_, ?_⟩
    · rw [upd_mem_same, upd_mem_same]
    · intro q hq
      rw [upd_mem_other _ _ _ _ hq, upd_mem_other _ _ _ _ hq]

/-- C10 (release bookkeeping).  In a well-formed cache, when the caller holds the sleep lock of
the buffer `b = bcache.buf[k]`, `brelse(b)` returns; `b->refcnt` has gone down by one (in
`uint` arithmetic: by exactly one when it was positive, and 0 wraps around), `b->lastuse` is
the value of the `uint` `ticks` (`ticks % UINT`) if the new `refcnt` is 0 and is unchanged
otherwise; the key, the
`valid` flag, the payload and the links of `b` are unchanged and its lock is free; no other
buffer changes in any field, no link changes, and every bucket has the list it had. -/
theorem brelse_bookkeeping (N : Nat) (s : State) (L : Nat → List Nat) (h : Layout N s L)
    (pid ticks k : Nat) (hk : k < N) (hold : holdingsleep pid (s.mem (Ptr.buf k)) = true) :
    ∃ t, brelse pid ticks s (Ptr.buf k) = Effect.done t
      ∧ (t.mem (Ptr.buf k)).refcnt
          = (if (s.mem (Ptr.buf k)).refcnt = 0 then 4294967295 else (s.mem (Ptr.buf k)).refcnt - 1)
      ∧ (0 < (s.mem (Ptr.buf k)).refcnt →
          (t.mem (Ptr.buf k)).refcnt + 1 = (s.mem (Ptr.buf k)).refcnt)
      ∧ (t.mem (Ptr.buf k)).lastuse
          = (if (t.mem (Ptr.buf k)).refcnt = 0 then ticks % UINT else (s.mem (Ptr.buf k)).lastuse)
      ∧ (t.mem (Ptr.buf k)).dev = (s.mem (Ptr.buf k)).dev
      ∧ (t.mem (Ptr.buf k)).blockno = (s.mem (Ptr.buf k)).blockno
      ∧ (t.mem (Ptr.buf k)).valid = (s.mem (Ptr.buf k)).valid
      ∧ (t.mem (Ptr.buf k)).data = (s.mem (Ptr.buf k)).data
      ∧ (t.mem (Ptr.buf k)).lock = none
      ∧ (∀ q, q ≠ Ptr.buf k → t.mem q = s.mem q)
      ∧ (∀ q, (t.mem q).next = (s.mem q).next ∧ (t.mem q).prev = (s.mem q).prev)
      ∧ (∀ j l, Ring s j l ↔ Ring t j l) := by
  obtain ⟨i, hi, hki⟩ := h.cover k hk
  have hlock : (s.mem (Ptr.buf k)).lock = some pid := by
    simpa [holdingsleep] using hold
  obtain ⟨t, ht, hcell, hother⟩ := brelse_effect s pid ticks (Ptr.buf k) i (by simp) hlock
    (h.home i hi k hki)
  have hlinks : ∀ q, (t.mem q).next = (s.mem q).next ∧ (t.mem q).prev = (s.mem q).prev := by
    intro q
    by_cases hq : q = Ptr.buf k
    · subst hq
      rw [hcell]
      split <;> exact ⟨rfl, rfl⟩
    · rw [hother q hq]; exact ⟨rfl, rfl⟩
  have hr : (t.mem (Ptr.buf k)).refcnt = (decRef (s.mem (Ptr.buf k))).refcnt := by
    rw [hcell]; split <;> rfl
  have hd : (decRef (s.mem (Ptr.buf k))).refcnt
      = (if (s.mem (Ptr.buf k)).refcnt = 0 then 4294967295 else (s.mem (Ptr.buf k)).refcnt - 1) :=
    rfl
  refine ⟨t, ht, by rw [hr, hd], ?_, ?_, ?_, ?_, ?_, ?_, ?_, hother, hlinks, ?_⟩
  · intro hpos
    rw [hr, hd, if_neg (by omega)]
    omega
  · rw [hr, hcell]
    split <;> rfl
  · rw [hcell]; split <;> rfl
  · rw [hcell]; split <;> rfl
  · rw [hcell]; split <;> rfl
  · rw [hcell]; split <;> rfl
  · rw [hcell]; split <;> rfl
  · intro j l
    exact ring_congr s t (fun q => (hlinks q).1) (fun q => (hlinks q).2) j l

/-- Witness for C10: process 1, which holds `bcache.buf[2]` with `refcnt == 1`, releases it
at `ticks == 77`. -/
theorem brelse_bookkeeping_witness :
    Layout 3 held1 (initLists 3) ∧ holdingsleep 1 (held1.mem (Ptr.buf 2)) = true
    ∧ ∃ t, brelse 1 77 held1 (Ptr.buf 2) = Effect.done t
      ∧ (t.mem (Ptr.buf 2)).refcnt
          = (if (held1.mem (Ptr.buf 2)).refcnt = 0 then 4294967295
             else (held1.mem (Ptr.buf 2)).refcnt - 1)
      ∧ (0 < (held1.mem (Ptr.buf 2)).refcnt →
          (t.mem (Ptr.buf 2)).refcnt + 1 = (held1.mem (Ptr.buf 2)).refcnt)
      ∧ (t.mem (Ptr.buf 2)).lastuse
          = (if (t.mem (Ptr.buf 2)).refcnt = 0 then 77 % UINT else (held1.mem (Ptr.buf 2)).lastuse)
      ∧ (t.mem (Ptr.buf 2)).dev = (held1.mem (Ptr.buf 2)).dev
      ∧ (t.mem (Ptr.buf 2)).blockno = (held1.mem (Ptr.buf 2)).blockno
      ∧ (t.mem (Ptr.buf 2)).valid = (held1.mem (Ptr.buf 2)).valid
      ∧ (t.mem (Ptr.buf 2)).data = (held1.mem (Ptr.buf 2)).data
      ∧ (t.mem (Ptr.buf 2)).lock = none
      ∧ (∀ q, q ≠ Ptr.buf 2 → t.mem q = held1.mem q)
      ∧ (∀ q, (t.mem q).next = (held1.mem q).next ∧ (t.mem q).prev = (held1.mem q).prev)
      ∧ (∀ j l, Ring held1 j l ↔ Ring t j l) :=
  ⟨held1_layout, by decide,
   brelse_bookkeeping 3 held1 (initLists 3) held1_layout 1 77 2 (by decide) (by decide)⟩

/-! Paired `bget` and `brelse` -/

/-- When `brelse` returns, its caller held the lock and the block number had a bucket. -/
theorem brelse_done_inv (pid ticks : Nat) (s t : State) (b : Ptr)
    (h : brelse pid ticks s b = Effect.done t) :
    b ≠ Ptr.null ∧ (s.mem b).lock = some pid
      ∧ ∃ i, idx (hash (toInt (s.mem b).blockno)) = some i := by
  unfold brelse at h
  split at h
  · simp at h
  · rename_i hb
    split at h
    · simp at h
    · rename_i hh
      dsimp only at h
      refine ⟨hb, by simpa [holdingsleep] using hh, ?_⟩
      split at h
      · simp at h
      · rename_i i hi
        rw [upd_mem_same] at hi
        exact ⟨i, hi⟩

/-- In a well-formed cache, with the fuel to run its loops to their end, `bget` for a block
number below `2^31` comes to an end without a fault: it returns a buffer, leaves its caller
asleep on a buffer's lock, or panics. -/
theorem bget_total (N : Nat) (s : State) (L : Nat → List Nat) (h : Layout N s L)
    (fuel pid dev blockno : Nat) (hfuel : N < fuel) (hfuel2 : NBUCKET ≤ fuel)
    (hb : blockno < 2147483648) :
    ∃ b t, bget fuel pid s dev blockno = Outcome.ret b t
      ∨ bget fuel pid s dev blockno = Outcome.sleep b t
      ∨ bget fuel pid s dev blockno = Outcome.panic "bget: no buffers" t := by
  have hidx := idx_hash_blockno blockno hb
  rcases bget_cases N s L h fuel pid dev blockno _ hfuel hfuel2 hidx with
    ⟨_, k0, _, _, _, _, hexec⟩ | ⟨_, ⟨k0, _, hexec⟩ | ⟨_, ⟨_, k0, u, _, _, _, _, _, _, _, hexec⟩ | ⟨_, hexec⟩⟩⟩
  · obtain ⟨t, ho, _⟩ := acquiresleep_post pid (Ptr.buf k0) (s.upd (Ptr.buf k0) incRef)
    rw [← hexec] at ho
    exact ⟨_, t, ho.elim Or.inl (fun x => Or.inr (Or.inl x))⟩
  · obtain ⟨t, ho, _⟩ := acquiresleep_post pid (Ptr.buf k0) (s.upd (Ptr.buf k0) (claim dev blockno))
    rw [← hexec] at ho
    exact ⟨_, t, ho.elim Or.inl (fun x => Or.inr (Or.inl x))⟩
  · obtain ⟨t, ho, _⟩ := acquiresleep_post pid (Ptr.buf k0) u
    rw [← hexec] at ho
    exact ⟨_, t, ho.elim Or.inl (fun x => Or.inr (Or.inl x))⟩
  · exact ⟨Ptr.null, s, Or.inr (Or.inr hexec)⟩
/-! The bucket index -/

/-- For a block number below `2^31` the bucket index `hash(blockno)` is `blockno % NBUCKET`,
an index in `[0, NBUCKET)`. -/
theorem hash_range (blockno : Nat) (h : blockno < 2147483648) :
    hash (toInt blockno) = ((blockno % NBUCKET : Nat) : Int)
      ∧ 0 ≤ hash (toInt blockno) ∧ hash (toInt blockno) < (NBUCKET : Int) := by
  obtain ⟨h1, h2⟩ := idx_lt _ _ (idx_hash_blockno blockno h)
  rw [h2]
  exact ⟨rfl, by omega, by omega⟩

/-- C14 at the block number `2^31`.  `bget` takes `blockno` as a `uint` and passes it to
`hash(int)`: 2147483648 arrives as `-2147483648`, and `%` on `int` truncates toward zero, so
`hash` returns `-11`, which is no index in `[0, NBUCKET)`; `bget` then indexes `bcache.lock`
and `bcache.head` out of bounds, whatever the state.  The largest block number, 4294967295,
arrives as `-1` and gets the index `-1`. -/
theorem hash_index_negative :
    NBUCKET = 13
    ∧ toInt 2147483648 = -2147483648
    ∧ hash (toInt 2147483648) = -11
    ∧ ¬ (0 ≤ hash (toInt 2147483648))
    ∧ idx (hash (toInt 2147483648)) = none
    ∧ hash (toInt 4294967295) = -1
    ∧ idx (hash (toInt 4294967295)) = none
    ∧ (∀ (fuel pid dev : Nat) (s : State), bget fuel pid s dev 2147483648 = Outcome.fault) :=
  ⟨rfl, by decide, by decide, by decide, by decide, by decide, by decide,
    fun fuel pid dev s => bget_fault_of_idx fuel pid dev 2147483648 s (by decide)⟩

/-! Owning bucket -/

/-- C15.  In every state reachable from `binit` by calls of `bget`, `brelse`, `bpin` and
`bunpin`, the bucket lists `L 0, ..., L (NBUCKET - 1)` hold every buffer of the pool, and
every buffer in the list of bucket `k` has `hash(blockno) = k`: the index that `brelse`,
`bpin` and `bunpin` compute from `b->blockno` is the one of the bucket whose list holds
`b`, and no other list holds it. -/
theorem owning_bucket (N : Nat) (s : State) (h : Reachable N s) :
    ∃ L : Nat → List Nat, (∀ k < NBUCKET, Ring s k (L k))
      ∧ (∀ b < N, ∃ k < NBUCKET, b ∈ L k)
      ∧ (∀ k < NBUCKET, ∀ b ∈ L k, b < N
          ∧ hash (toInt (s.mem (Ptr.buf b)).blockno) = (k : Int)
          ∧ idx (hash (toInt (s.mem (Ptr.buf b)).blockno)) = some k
          ∧ ∀ m < NBUCKET, b ∈ L m → m = k) := by
  obtain ⟨L, hL⟩ := reachable_layout N s h
  refine ⟨L, hL.ring, hL.cover, ?_⟩
  intro k hk b hb
  have hh := hL.home k hk b hb
  refine ⟨hL.lt k hk b hb, (idx_lt _ _ hh).2, hh, ?_⟩
  intro m hm hbm
  by_contra hne
  exact hL.disj m hm k hk hne b hbm hb

/-- C15 for the cache with three buffers after `bget(0, 0)` by process 1. -/
theorem owning_bucket_witness :
    ∃ L : Nat → List Nat, (∀ k < NBUCKET, Ring held1 k (L k))
      ∧ (∀ b < 3, ∃ k < NBUCKET, b ∈ L k)
      ∧ (∀ k < NBUCKET, ∀ b ∈ L k, b < 3
          ∧ hash (toInt (held1.mem (Ptr.buf b)).blockno) = (k : Int)
          ∧ idx (hash (toInt (held1.mem (Ptr.buf b)).blockno)) = some k
          ∧ ∀ m < NBUCKET, b ∈ L m → m = k) :=
  owning_bucket 3 held1
    (Reachable.bget_ret (binit 3 zeroed) held1 13 1 0 0 (Ptr.buf 2) Reachable.init
      (by decide) (by decide) rfl)

/-! The state after `binit`, link by link -/

/-- Along a chain, going forward and then back, or back and then forward, leads to where one
started: `x.next.prev = x` at the start and at every buffer, `x.prev.next = x` at the end and
at every buffer. -/
theorem chain_round (s : State) (z : Ptr) :
    ∀ (l : List Nat) (a : Ptr), Chain s a l z →
      (s.mem (s.mem a).next).prev = a ∧ (s.mem (s.mem z).prev).next = z
      ∧ ∀ k ∈ l, (s.mem (s.mem (Ptr.buf k)).next).prev = Ptr.buf k
          ∧ (s.mem (s.mem (Ptr.buf k)).prev).next = Ptr.buf k := by
  intro l
  induction l with
  | nil =>
    intro a h
    obtain ⟨h1, h2⟩ := h
    refine ⟨by rw [h1, h2], by rw [h2, h1], ?_⟩
    intro k hk
    cases hk
  | cons k t ih =>
    intro a h
    obtain ⟨h1, h2, h3⟩ := h
    obtain ⟨i1, i2, i3⟩ := ih (Ptr.buf k) h3
    refine ⟨by rw [h1, h2], i2, ?_⟩
    intro x hx
    rcases List.mem_cons.1 hx with rfl | hx
    · exact ⟨i1, by rw [h2, h1]⟩
    · exact i3 x hx

/-- C17.  After `binit` (run on the zero-initialised `bcache` with `NBUF = N`) the list of
bucket 0 is `N - 1, ..., 1, 0`: it holds each of the `N` buffers exactly once.  Every other
bucket is empty, the `next` and `prev` of its head pointing to the head itself.  Every list
is a circular doubly linked list: `x.next.prev = x` and `x.prev.next = x` for every head and
every buffer. -/
theorem binit_initial (N : Nat) :
    Ring (binit N zeroed) 0 (List.range N).reverse
      ∧ (∀ k, k ∈ (List.range N).reverse ↔ k < N)
      ∧ (List.range N).reverse.Nodup
      ∧ (∀ k, k < N → (List.range N).reverse.count k = 1)
      ∧ (∀ i, 0 < i → i < NBUCKET → Ring (binit N zeroed) i []
          ∧ ((binit N zeroed).mem (Ptr.head i)).next = Ptr.head i
          ∧ ((binit N zeroed).mem (Ptr.head i)).prev = Ptr.head i)
      ∧ (∀ i, i < NBUCKET →
          ((binit N zeroed).mem ((binit N zeroed).mem (Ptr.head i)).next).prev = Ptr.head i
          ∧ ((binit N zeroed).mem ((binit N zeroed).mem (Ptr.head i)).prev).next = Ptr.head i)
      ∧ (∀ k, k < N →
          ((binit N zeroed).mem ((binit N zeroed).mem (Ptr.buf k)).next).prev = Ptr.buf k
          ∧ ((binit N zeroed).mem ((binit N zeroed).mem (Ptr.buf k)).prev).next = Ptr.buf k) := by
  obtain ⟨h0, hrest⟩ := binit_rings N
  have hmem : ∀ k, k ∈ (List.range N).reverse ↔ k < N := by
    intro k
    rw [List.mem_reverse, List.mem_range]
  have hnd : (List.range N).reverse.Nodup := List.nodup_reverse.2 (List.nodup_range N)
  refine ⟨h0, hmem, hnd, ?_, ?_, ?_, ?_⟩
  · intro k hk
    exact List.count_eq_one_of_mem hnd ((hmem k).2 hk)
  · intro i h1 h2
    have hr := hrest i h1 h2
    exact ⟨hr, hr.1, hr.2⟩
  · intro i hi
    rcases Nat.eq_zero_or_pos i with rfl | hpos
    · obtain ⟨r1, r2, _⟩ := chain_round _ _ _ _ h0
      exact ⟨r1, r2⟩
    · obtain ⟨r1, r2, _⟩ := chain_round _ _ _ _ (hrest i hpos hi)
      exact ⟨r1, r2⟩
  · intro k hk
    obtain ⟨_, _, r3⟩ := chain_round _ _ _ _ h0
    exact r3 k ((hmem k).2 hk)

/-! `bpin` and `bunpin` -/

/-- When no cell changes its key, a key that at most one buffer carries stays so. -/
theorem unique_same (N : Nat) (s t : State) (dev blockno : Nat)
    (hkeys : ∀ q, (t.mem q).dev = (s.mem q).dev ∧ (t.mem q).blockno = (s.mem q).blockno)
    (h : Unique N s dev blockno) : Unique N t dev blockno := by
  intro k1 h1 k2 h2 c1 c2
  refine h k1 h1 k2 h2 ⟨?_, ?_⟩ ⟨?_, ?_⟩
  · rw [← (hkeys _).1]; exact c1.1
  · rw [← (hkeys _).2]; exact c1.2
  · rw [← (hkeys _).1]; exact c2.1
  · rw [← (hkeys _).2]; exact c2.2

/-- In a well-formed cache a key that no buffer of its bucket carries is carried by no buffer
of the pool. -/
theorem miss_everywhere (N : Nat) (s : State) (L : Nat → List Nat) (hL : Layout N s L)
    (i dev blockno : Nat) (hi : idx (hash (toInt blockno)) = some i)
    (hmiss : ∀ x ∈ L i, ¬ Carries s dev blockno x) :
    ∀ x < N, ¬ Carries s dev blockno x := by
  intro x hx hc
  obtain ⟨j, hj, hxj⟩ := hL.cover x hx
  have hh := hL.home j hj x hxj
  rw [hc.2, hi] at hh
  simp only [Option.some.injEq] at hh
  subst hh
  exact hmiss x hxj hc

/-- Giving buffer `k` a key that no buffer of the key's bucket carries keeps every key that
at most one buffer carries so. -/
theorem unique_claim (N : Nat) (s t : State) (L : Nat → List Nat) (hL : Layout N s L)
    (i k dev blockno : Nat) (hi : idx (hash (toInt blockno)) = some i)
    (hmiss : ∀ x ∈ L i, ¬ Carries s dev blockno x)
    (hkeys : ∀ q, (t.mem q).dev = ((s.upd (Ptr.buf k) (claim dev blockno)).mem q).dev
      ∧ (t.mem q).blockno = ((s.upd (Ptr.buf k) (claim dev blockno)).mem q).blockno)
    (d b : Nat) (h : Unique N s d b) : Unique N t d b := by
  have hnone := miss_everywhere N s L hL i dev blockno hi hmiss
  have hk : (t.mem (Ptr.buf k)).dev = dev ∧ (t.mem (Ptr.buf k)).blockno = blockno := by
    have := hkeys (Ptr.buf k)
    rw [upd_mem_same] at this
    exact this
  have hother : ∀ x, x ≠ k → (Carries t d b x ↔ Carries s d b x) := by
    intro x hx
    have := hkeys (Ptr.buf x)
    rw [upd_mem_other s _ _ _ (by simpa using hx)] at this
    unfold Carries
    rw [this.1, this.2]
  intro k1 h1 k2 h2 c1 c2
  by_cases e1 : k1 = k
  · by_cases e2 : k2 = k
    · rw [e1, e2]
    · exfalso
      subst e1
      have hd : d = dev := by rw [← c1.1, hk.1]
      have hb : b = blockno := by rw [← c1.2, hk.2]
      subst hd hb
      exact hnone k2 h2 ((hother k2 e2).1 c2)
  · by_cases e2 : k2 = k
    · exfalso
      subst e2
      have hd : d = dev := by rw [← c2.1, hk.1]
      have hb : b = blockno := by rw [← c2.2, hk.2]
      subst hd hb
      exact hnone k1 h1 ((hother k1 e1).1 c1)
    · exact h k1 h1 k2 h2 ((hother k1 e1).1 c1) ((hother k2 e2).1 c2)

/-- A call of `bget` that resolves its key keeps every key that at most one buffer carries
so. -/
theorem bget_unique (N : Nat) (s t : State) (L : Nat → List Nat) (h : Layout N s L)
    (fuel pid dev blockno : Nat) (hfuel : N < fuel) (hfuel2 : NBUCKET ≤ fuel) (b : Ptr)
    (hout : bget fuel pid s dev blockno = Outcome.ret b t
      ∨ bget fuel pid s dev blockno = Outcome.sleep b t)
    (d c : Nat) (hu : Unique N s d c) : Unique N t d c := by
  cases hidx : idx (hash (toInt blockno)) with
  | none =>
    rw [bget_fault_of_idx fuel pid dev blockno s hidx] at hout
    simp at hout
  | some i =>
    rcases bget_cases N s L h fuel pid dev blockno i hfuel hfuel2 hidx with
      ⟨l1, k0, l2, _, _, _, hexec⟩ | ⟨hmiss, ⟨k0, _, hexec⟩ | ⟨_, ⟨e, k0, u, _, _, _, _, _, _, hinfo, hexec⟩ | ⟨_, hexec⟩⟩⟩
    · rw [hexec] at hout
      obtain ⟨_, hf, _⟩ := acquiresleep_inv pid _ _ _ t hout
      refine unique_same N s t d c (fun q => ?_) hu
      rw [(hf q).2.1, (hf q).2.2.1]
      exact ⟨upd_preserve Buf.dev s _ _ incRef (fun _ => rfl),
        upd_preserve Buf.blockno s _ _ incRef (fun _ => rfl)⟩
    · rw [hexec] at hout
      obtain ⟨_, hf, _⟩ := acquiresleep_inv pid _ _ _ t hout
      exact unique_claim N s t L h i k0 dev blockno hidx hmiss
        (fun q => ⟨(hf q).2.1, (hf q).2.2.1⟩) d c hu
    · rw [hexec] at hout
      obtain ⟨_, hf, _⟩ := acquiresleep_inv pid _ _ _ t hout
      refine unique_claim N s t L h i k0 dev blockno hidx hmiss (fun q => ?_) d c hu
      rw [(hf q).2.1, (hf q).2.2.1]
      exact ⟨(info_fields _ _ (hinfo q)).2.1, (info_fields _ _ (hinfo q)).2.2.1⟩
    · rw [hexec] at hout
      simp at hout

/-- A call of `bget` for a key that some buffer of the pool carries changes the key of no
cell. -/
theorem bget_cached_keys (N : Nat) (s t : State) (L : Nat → List Nat) (h : Layout N s L)
    (fuel pid dev blockno : Nat) (hfuel : N < fuel) (hfuel2 : NBUCKET ≤ fuel) (b : Ptr)
    (hout : bget fuel pid s dev blockno = Outcome.ret b t
      ∨ bget fuel pid s dev blockno = Outcome.sleep b t)
    (hc : ∃ x < N, Carries s dev blockno x) :
    ∀ q, (t.mem q).dev = (s.mem q).dev ∧ (t.mem q).blockno = (s.mem q).blockno := by
  obtain ⟨x, hx, hcx⟩ := hc
  cases hidx : idx (hash (toInt blockno)) with
  | none =>
    rw [bget_fault_of_idx fuel pid dev blockno s hidx] at hout
    simp at hout
  | some i =>
    rcases bget_cases N s L h fuel pid dev blockno i hfuel hfuel2 hidx with
      ⟨l1, k0, l2, _, _, _, hexec⟩ | ⟨hmiss, _⟩
    · rw [hexec] at hout
      obtain ⟨_, hf, _⟩ := acquiresleep_inv pid _ _ _ t hout
      intro q
      rw [(hf q).2.1, (hf q).2.2.1]
      exact ⟨upd_preserve Buf.dev s _ _ incRef (fun _ => rfl),
        upd_preserve Buf.blockno s _ _ incRef (fun _ => rfl)⟩
    · exact absurd hcx (miss_everywhere N s L h i dev blockno hidx hmiss x hx)

/-- The calls `brelse`, `bpin` and `bunpin` and the taking of a sleep lock change no key. -/
theorem release_keys (s t : State) (b : Ptr)
    (h : (∃ pid ticks, brelse pid ticks s b = Effect.done t) ∨ bpin s b = Effect.done t
      ∨ bunpin s b = Effect.done t ∨ ∃ pid, acquiresleep pid b s = Outcome.ret b t) :
    ∀ q, (t.mem q).dev = (s.mem q).dev ∧ (t.mem q).blockno = (s.mem q).blockno := by
  rcases h with ⟨pid, ticks, hout⟩ | hout | hout | ⟨pid, hout⟩
  · obtain ⟨hb, hlx, j, hj⟩ := brelse_done_inv pid ticks s t _ hout
    obtain ⟨t2, ht2, hcell, hother⟩ := brelse_effect s pid ticks b j hb hlx hj
    rw [hout] at ht2
    simp only [Effect.done.injEq] at ht2
    subst ht2
    intro y
    by_cases hy : y = b
    · subst hy
      rw [hcell]
      split <;> exact ⟨rfl, rfl⟩
    · rw [hother _ hy]
      exact ⟨rfl, rfl⟩
  · unfold Bcache.bpin at hout
    split at hout
    · simp at hout
    · split at hout
      · simp at hout
      · simp only [Effect.done.injEq] at hout
        subst hout
        exact fun q => ⟨upd_preserve Buf.dev s _ _ incRef (fun _ => rfl),
          upd_preserve Buf.blockno s _ _ incRef (fun _ => rfl)⟩
  · unfold Bcache.bunpin at hout
    split at hout
    · simp at hout
    · split at hout
      · simp at hout
      · simp only [Effect.done.injEq] at hout
        subst hout
        exact fun q => ⟨upd_preserve Buf.dev s _ _ decRef (fun _ => rfl),
          upd_preserve Buf.blockno s _ _ decRef (fun _ => rfl)⟩
  · obtain ⟨_, hf, _⟩ := acquiresleep_inv pid _ _ s t (Or.inl hout)
    exact fun q => ⟨(hf q).2.1, (hf q).2.2.1⟩

/-- In every reachable state, every key other than `(0, 0)` is carried by at most one
buffer. -/
theorem reachable_unique (N : Nat) (s : State) (h : Reachable N s) :
    ∀ dev blockno, ¬ (dev = 0 ∧ blockno = 0) → Unique N s dev blockno := by
  induction h with
  | init =>
    intro dev blockno hne k1 _ _ _ c1 _
    exfalso
    apply hne
    have hi := info_fields _ _ (binit_info N (Ptr.buf k1))
    exact ⟨by rw [← c1.1, hi.2.1]; rfl, by rw [← c1.2, hi.2.2.1]; rfl⟩
  | bget_ret s t fuel pid dev blockno b hs hf1 hf2 hout ih =>
    intro d c hne
    obtain ⟨L, hL⟩ := reachable_layout N s hs
    exact bget_unique N s t L hL fuel pid dev blockno hf1 hf2 b (Or.inl hout) d c (ih d c hne)
  | bget_sleep s t fuel pid dev blockno b hs hf1 hf2 hout ih =>
    intro d c hne
    obtain ⟨L, hL⟩ := reachable_layout N s hs
    exact bget_unique N s t L hL fuel pid dev blockno hf1 hf2 b (Or.inr hout) d c (ih d c hne)
  | wake s t pid k _ _ hout ih =>
    intro d c hne
    exact unique_same N s t d c (release_keys s t _ (Or.inr (Or.inr (Or.inr ⟨pid, hout⟩))))
      (ih d c hne)
  | brelse s t pid ticks k _ _ hout ih =>
    intro d c hne
    exact unique_same N s t d c (release_keys s t _ (Or.inl ⟨pid, ticks, hout⟩)) (ih d c hne)
  | bpin s t k _ _ hout ih =>
    intro d c hne
    exact unique_same N s t d c (release_keys s t _ (Or.inr (Or.inl hout))) (ih d c hne)
  | bunpin s t k _ _ hout ih =>
    intro d c hne
    exact unique_same N s t d c (release_keys s t _ (Or.inr (Or.inr (Or.inl hout)))) (ih d c hne)

/-- C20.  In every state reachable from `binit` by calls of `bget`, `brelse`, `bpin` and
`bunpin`, every key `(dev, blockno)` other than `(0, 0)` is carried by at most one buffer of
the pool.  And a call of `bget` for a key that some buffer of the pool carries already (this
one for any key, `(0, 0)` too) gives no buffer a new key: it makes no second copy. -/
theorem key_uniqueness (N : Nat) (s : State) (h : Reachable N s) :
    (∀ dev blockno, ¬ (dev = 0 ∧ blockno = 0) →
      ∀ k1 < N, ∀ k2 < N, Carries s dev blockno k1 → Carries s dev blockno k2 → k1 = k2)
    ∧ (∀ (fuel pid dev blockno : Nat) (b : Ptr) (t : State), N < fuel → NBUCKET ≤ fuel →
        (bget fuel pid s dev blockno = Outcome.ret b t
          ∨ bget fuel pid s dev blockno = Outcome.sleep b t) →
        (∃ x < N, Carries s dev blockno x) →
        ∀ q, (t.mem q).dev = (s.mem q).dev ∧ (t.mem q).blockno = (s.mem q).blockno) := by
  refine ⟨reachable_unique N s h, ?_⟩
  intro fuel pid dev blockno b t hf1 hf2 hout hc
  obtain ⟨L, hL⟩ := reachable_layout N s h
  exact bget_cached_keys N s t L hL fuel pid dev blockno hf1 hf2 b hout hc

/-- C20 for the cache with three buffers after `bget(1, 13)` by process 1. -/
theorem key_uniqueness_witness :
    Reachable 3 coh1
    ∧ (∀ dev blockno, ¬ (dev = 0 ∧ blockno = 0) →
      ∀ k1 < 3, ∀ k2 < 3, Carries coh1 dev blockno k1 → Carries coh1 dev blockno k2 → k1 = k2)
    ∧ (∀ (fuel pid dev blockno : Nat) (b : Ptr) (t : State), 3 < fuel → NBUCKET ≤ fuel →
        (bget fuel pid coh1 dev blockno = Outcome.ret b t
          ∨ bget fuel pid coh1 dev blockno = Outcome.sleep b t) →
        (∃ x < 3, Carries coh1 dev blockno x) →
        ∀ q, (t.mem q).dev = (coh1.mem q).dev ∧ (t.mem q).blockno = (coh1.mem q).blockno) :=
  ⟨Reachable.bget_ret (binit 3 zeroed) coh1 13 1 1 13 (Ptr.buf 2) Reachable.init
      (by decide) (by decide) rfl,
    key_uniqueness 3 coh1
      (Reachable.bget_ret (binit 3 zeroed) coh1 13 1 1 13 (Ptr.buf 2) Reachable.init
        (by decide) (by decide) rfl)⟩

/-! `bwrite` and `brelse` without the lock -/

/-- C11.  For a buffer `b`, `bwrite(b)` and `brelse(b)` end in `panic` exactly when
`holdingsleep(&b->lock)` is false, that is when the sleep lock of `b` is not held by the
caller.  When they do, the memory of the cache is the one before the call (the holder of the
lock, `refcnt` and `lastuse` of `b` included) and so is the disk, whose list of transfers has
no new entry; the messages are `"bwrite"` and `"brelse"`. -/
theorem ownership_violation (pid ticks : Nat) (s : State) (d : Disk) (b : Ptr)
    (hb : b ≠ Ptr.null) :
    ((∃ msg t, brelse pid ticks s b = Effect.panic msg t) ↔ holdingsleep pid (s.mem b) = false)
    ∧ ((∃ msg t, (bwrite pid s d b).1 = Effect.panic msg t) ↔ holdingsleep pid (s.mem b) = false)
    ∧ (holdingsleep pid (s.mem b) = false ↔ (s.mem b).lock ≠ some pid)
    ∧ (holdingsleep pid (s.mem b) = false →
        brelse pid ticks s b = Effect.panic "brelse" s
        ∧ bwrite pid s d b = (Effect.panic "bwrite" s, d)) := by
  have hpanic : holdingsleep pid (s.mem b) = false →
      brelse pid ticks s b = Effect.panic "brelse" s
      ∧ bwrite pid s d b = (Effect.panic "bwrite" s, d) := by
    intro h
    simp only [brelse, bwrite, hb, if_false, h, Bool.not_false, if_true, and_self]
  refine ⟨⟨?_, fun h => ⟨_, _, (hpanic h).1⟩⟩, ⟨?_, fun h => ⟨_, _, by rw [(hpanic h).2]⟩⟩, ?_,
    hpanic⟩
  · rintro ⟨msg, t, h⟩
    cases hh : holdingsleep pid (s.mem b) with
    | false => rfl
    | true =>
      exfalso
      simp only [brelse, hb, if_false, hh, Bool.not_true, Bool.false_eq_true] at h
      split at h
      · simp at h
      · split at h <;> simp at h
  · rintro ⟨msg, t, h⟩
    cases hh : holdingsleep pid (s.mem b) with
    | false => rfl
    | true =>
      exfalso
      simp only [bwrite, hb, if_false, hh, Bool.not_true, Bool.false_eq_true] at h
      simp at h
  · simp [holdingsleep]

/-- C11 for the cache with three buffers after `bget(0, 0)` by process 1: process 2 does not
hold `bcache.buf[2]`. -/
theorem ownership_violation_witness :
    Ptr.buf 2 ≠ Ptr.null
    ∧ ((∃ msg t, brelse 2 7 held1 (Ptr.buf 2) = Effect.panic msg t)
        ↔ holdingsleep 2 (held1.mem (Ptr.buf 2)) = false)
    ∧ ((∃ msg t, (bwrite 2 held1 blank (Ptr.buf 2)).1 = Effect.panic msg t)
        ↔ holdingsleep 2 (held1.mem (Ptr.buf 2)) = false)
    ∧ (holdingsleep 2 (held1.mem (Ptr.buf 2)) = false ↔ (held1.mem (Ptr.buf 2)).lock ≠ some 2)
    ∧ (holdingsleep 2 (held1.mem (Ptr.buf 2)) = false →
        brelse 2 7 held1 (Ptr.buf 2) = Effect.panic "brelse" held1
        ∧ bwrite 2 held1 blank (Ptr.buf 2) = (Effect.panic "bwrite" held1, blank)) :=
  ⟨by decide, ownership_violation 2 7 held1 blank (Ptr.buf 2) (by decide)⟩

/-! `bread` -/

/-- What lines 231-235 of `bread` do: when `valid` is 0, one read transfer for `b` that
loads the block `(b->dev, b->blockno)` into the payload of `b`, and `valid = 1`; nothing
otherwise. -/
theorem breadRest_spec (s : State) (d : Disk) (b : Ptr) :
    ((s.mem b).valid = 0 →
      breadRest s d b
        = ((s.upd b (setData (d.block (s.mem b).dev (s.mem b).blockno))).upd b (setValid 1),
            { block := d.block, log := (false, b) :: d.log }))
    ∧ ((s.mem b).valid ≠ 0 → breadRest s d b = (s, d)) := by
  constructor
  · intro h
    simp only [breadRest, virtio_disk_rw, h, if_true, Bool.false_eq_true, if_false]
  · intro h
    simp only [breadRest, h, if_false]

/-- After lines 231-235 of `bread` the flag `valid` of `b` is 1 when it was 0 or 1 before;
all the other fields of `b` but the payload, and all other cells, are as before. -/
theorem breadRest_fields (s : State) (d : Disk) (b : Ptr) (hv : (s.mem b).valid ≤ 1) :
    ((breadRest s d b).1.mem b).valid = 1
    ∧ (∀ q, q ≠ b → (breadRest s d b).1.mem q = s.mem q)
    ∧ (∀ q, ((breadRest s d b).1.mem q).dev = (s.mem q).dev
        ∧ ((breadRest s d b).1.mem q).blockno = (s.mem q).blockno
        ∧ ((breadRest s d b).1.mem q).refcnt = (s.mem q).refcnt
        ∧ ((breadRest s d b).1.mem q).lastuse = (s.mem q).lastuse
        ∧ ((breadRest s d b).1.mem q).lock = (s.mem q).lock
        ∧ ((breadRest s d b).1.mem q).prev = (s.mem q).prev
        ∧ ((breadRest s d b).1.mem q).next = (s.mem q).next) := by
  by_cases h0 : (s.mem b).valid = 0
  · rw [(breadRest_spec s d b).1 h0]
    refine ⟨?_, ?_, ?_⟩
    · rw [upd_mem_same]; rfl
    · intro q hq
      rw [upd_mem_other _ _ _ _ hq, upd_mem_other _ _ _ _ hq]
    · intro q
      refine ⟨?_, ?_, ?_, ?_, ?_, ?_, ?_⟩
      · rw [upd_preserve Buf.dev _ _ _ (setValid 1) (fun _ => rfl),
          upd_preserve Buf.dev _ _ _ (setData _) (fun _ => rfl)]
      · rw [upd_preserve Buf.blockno _ _ _ (setValid 1) (fun _ => rfl),
          upd_preserve Buf.blockno _ _ _ (setData _) (fun _ => rfl)]
      · rw [upd_preserve Buf.refcnt _ _ _ (setValid 1) (fun _ => rfl),
          upd_preserve Buf.refcnt _ _ _ (setData _) (fun _ => rfl)]
      · rw [upd_preserve Buf.lastuse _ _ _ (setValid 1) (fun _ => rfl),
          upd_preserve Buf.lastuse _ _ _ (setData _) (fun _ => rfl)]
      · rw [upd_preserve Buf.lock _ _ _ (setValid 1) (fun _ => rfl),
          upd_preserve Buf.lock _ _ _ (setData _) (fun _ => rfl)]
      · rw [upd_preserve Buf.prev _ _ _ (setValid 1) (fun _ => rfl),
          upd_preserve Buf.prev _ _ _ (setData _) (fun _ => rfl)]
      · rw [upd_preserve Buf.next _ _ _ (setValid 1) (fun _ => rfl),
          upd_preserve Buf.next _ _ _ (setData _) (fun _ => rfl)]
  · rw [(breadRest_spec s d b).2 h0]
    exact ⟨show (s.mem b).valid = 1 by omega, fun _ _ => rfl,
      fun _ => ⟨rfl, rfl, rfl, rfl, rfl, rfl, rfl⟩⟩

/-- A call of `bget` that resolves its key leaves `valid` a flag (0 or 1) in every cell where
it was one, and on a hit it changes neither `valid` nor the payload of any cell. -/
theorem bget_flags (N : Nat) (s t : State) (L : Nat → List Nat) (h : Layout N s L)
    (fuel pid dev blockno : Nat) (hfuel : N < fuel) (hfuel2 : NBUCKET ≤ fuel) (b : Ptr)
    (hout : bget fuel pid s dev blockno = Outcome.ret b t
      ∨ bget fuel pid s dev blockno = Outcome.sleep b t) :
    (∀ q, (s.mem q).valid ≤ 1 → (t.mem q).valid ≤ 1)
    ∧ ((∃ x < N, Carries s dev blockno x) →
        ∀ q, (t.mem q).valid = (s.mem q).valid ∧ (t.mem q).data = (s.mem q).data) := by
  cases hidx : idx (hash (toInt blockno)) with
  | none =>
    rw [bget_fault_of_idx fuel pid dev blockno s hidx] at hout
    simp at hout
  | some i =>
    have hclaim : ∀ (k0 : Nat) (q : Ptr), (s.mem q).valid ≤ 1 →
        ((s.upd (Ptr.buf k0) (claim dev blockno)).mem q).valid ≤ 1 := by
      intro k0 q hq
      by_cases e : q = Ptr.buf k0
      · rw [e, upd_mem_same]
        show 0 ≤ 1
        omega
      · rw [upd_mem_other _ _ _ _ e]
        exact hq
    rcases bget_cases N s L h fuel pid dev blockno i hfuel hfuel2 hidx with
      ⟨l1, k0, l2, _, _, _, hexec⟩ | ⟨hmiss, ⟨k0, _, hexec⟩ | ⟨_, ⟨e, k0, u, _, _, _, _, _, _, hinfo, hexec⟩ | ⟨_, hexec⟩⟩⟩
    · rw [hexec] at hout
      obtain ⟨_, hf, _⟩ := acquiresleep_inv pid _ _ _ t hout
      have hsame : ∀ q, (t.mem q).valid = (s.mem q).valid ∧ (t.mem q).data = (s.mem q).data := by
        intro q
        rw [(hf q).1, (hf q).2.2.2.2.2.2.2]
        exact ⟨upd_preserve Buf.valid s _ _ incRef (fun _ => rfl),
          upd_preserve Buf.data s _ _ incRef (fun _ => rfl)⟩
      exact ⟨fun q hq => by rw [(hsame q).1]; exact hq, fun _ => hsame⟩
    · rw [hexec] at hout
      obtain ⟨_, hf, _⟩ := acquiresleep_inv pid _ _ _ t hout
      refine ⟨fun q hq => by rw [(hf q).1]; exact hclaim k0 q hq, ?_⟩
      rintro ⟨x, hx, hcx⟩
      exact absurd hcx (miss_everywhere N s L h i dev blockno hidx hmiss x hx)
    · rw [hexec] at hout
      obtain ⟨_, hf, _⟩ := acquiresleep_inv pid _ _ _ t hout
      refine ⟨fun q hq => by
        rw [(hf q).1, (info_fields _ _ (hinfo q)).1]; exact hclaim k0 q hq, ?_⟩
      rintro ⟨x, hx, hcx⟩
      exact absurd hcx (miss_everywhere N s L h i dev blockno hidx hmiss x hx)
    · rw [hexec] at hout
      simp at hout

/-- What lines 231-235 of `bread` do for the buffer `b`, whose `valid` is a flag, in the
memory `t` and with the disk `d`: afterwards `valid` is 1; one read transfer for `b` has
been issued, which loaded the block of `b`'s key into the payload, when `valid` was 0, and
none otherwise; nothing else has changed. -/
theorem breadRest_load (t : State) (d : Disk) (b : Ptr) (hvt : (t.mem b).valid ≤ 1) :
    ((breadRest t d b).1.mem b).valid = 1
    ∧ ((t.mem b).valid = 0 → (breadRest t d b).2.log = (false, b) :: d.log
        ∧ (breadRest t d b).2.block = d.block
        ∧ ((breadRest t d b).1.mem b).data = d.block (t.mem b).dev (t.mem b).blockno)
    ∧ ((t.mem b).valid ≠ 0 → (breadRest t d b).2 = d ∧ (breadRest t d b).1 = t)
    ∧ ((breadRest t d b).2.log = (false, b) :: d.log ↔ (t.mem b).valid = 0)
    ∧ ((breadRest t d b).2.log = d.log ↔ (t.mem b).valid ≠ 0)
    ∧ (∀ q, q ≠ b → (breadRest t d b).1.mem q = t.mem q)
    ∧ (((breadRest t d b).1.mem b).dev = (t.mem b).dev
        ∧ ((breadRest t d b).1.mem b).blockno = (t.mem b).blockno
        ∧ ((breadRest t d b).1.mem b).refcnt = (t.mem b).refcnt
        ∧ ((breadRest t d b).1.mem b).lock = (t.mem b).lock) := by
  obtain ⟨f1, f2, f3⟩ := breadRest_fields t d b hvt
  obtain ⟨r0, r1⟩ := breadRest_spec t d b
  have hlog : ∀ (x : Bool × Ptr) (l : List (Bool × Ptr)), x :: l ≠ l := by
    intro x l e
    have := congrArg List.length e
    simp at this
  refine ⟨f1, ?_, ?_, ?_, ?_, f2, ?_⟩
  · intro h0
    rw [r0 h0]
    refine ⟨rfl, rfl, ?_⟩
    rw [upd_preserve Buf.data _ _ _ (setValid 1) (fun _ => rfl), upd_mem_same]
    rfl
  · intro h1
    rw [r1 h1]
    exact ⟨rfl, rfl⟩
  · constructor
    · intro hl
      by_contra h1
      rw [r1 h1] at hl
      exact hlog _ _ hl.symm
    · intro h0
      rw [r0 h0]
  · constructor
    · intro hl h0
      rw [r0 h0] at hl
      exact hlog _ _ hl
    · intro h1
      rw [r1 h1]
  · exact ⟨(f3 b).1, (f3 b).2.1, (f3 b).2.2.1, (f3 b).2.2.2.2.1⟩

/-- A caller is left asleep by `acquiresleep` only on a lock that somebody holds, and the
memory is then as before. -/
theorem acquiresleep_sleep (pid : Nat) (b c : Ptr) (s t : State)
    (h : acquiresleep pid c s = Outcome.sleep b t) :
    b = c ∧ t = s ∧ (s.mem c).lock ≠ none := by
  unfold acquiresleep at h
  split at h
  · simp at h
  · rename_i hlock
    simp only [Outcome.sleep.injEq] at h
    exact ⟨h.1.symm, h.2.symm, hlock⟩

/-- In a well-formed cache a `bget` for a block number that has a bucket, when it does not
panic, resolves the key to a buffer: it returns it, or leaves the caller asleep on its lock,
which somebody holds. -/
theorem bget_resolves (N : Nat) (s : State) (L : Nat → List Nat) (h : Layout N s L)
    (fuel pid dev blockno i : Nat) (hfuel : N < fuel) (hfuel2 : NBUCKET ≤ fuel)
    (hi : idx (hash (toInt blockno)) = some i)
    (hnp : (bget fuel pid s dev blockno).isPanic = false) :
    ∃ b t, bget fuel pid s dev blockno = Outcome.ret b t
      ∨ (bget fuel pid s dev blockno = Outcome.sleep b t ∧ (t.mem b).lock ≠ none) := by
  have hacq : ∀ (c : Ptr) (u : State), bget fuel pid s dev blockno = acquiresleep pid c u →
      ∃ b t, bget fuel pid s dev blockno = Outcome.ret b t
        ∨ (bget fuel pid s dev blockno = Outcome.sleep b t ∧ (t.mem b).lock ≠ none) := by
    intro c u hexec
    obtain ⟨t, ht, _⟩ := acquiresleep_post pid c u
    rw [← hexec] at ht
    rcases ht with ht | ht
    · exact ⟨c, t, Or.inl ht⟩
    · refine ⟨c, t, Or.inr ⟨ht, ?_⟩⟩
      rw [hexec] at ht
      obtain ⟨_, e2, e3⟩ := acquiresleep_sleep pid c c u t ht
      rw [e2]
      exact e3
  rcases bget_cases N s L h fuel pid dev blockno i hfuel hfuel2 hi with
    ⟨_, k0, _, _, _, _, hexec⟩ | ⟨_, ⟨k0, _, hexec⟩ | ⟨_, ⟨_, k0, u, _, _, _, _, _, _, _, hexec⟩ | ⟨_, hexec⟩⟩⟩
  · exact hacq _ _ hexec
  · exact hacq _ _ hexec
  · exact hacq _ _ hexec
  · rw [hexec] at hnp
    simp [Outcome.isPanic] at hnp

/-- C12.  In a well-formed cache whose `valid` fields are flags (0 or 1), let
`bget(dev, blockno)`, for a block number that has a bucket, not panic.  Then `bget` resolves
the key to a buffer `b`, and `valid` is still a flag everywhere.  When `bget` returns `b`
(in the memory `t`), `bread(dev, blockno)` returns `b` with `valid == 1`; it issues one
transfer, a read (`write = 0`) for `b`, which loads the block of `b`'s key into the payload,
when `valid` of `b` was 0 behind `bget`, and no transfer otherwise; it changes nothing else
behind `bget`; when the key was cached before the call and `valid` of `b` was 1, no transfer
is issued and the payload of `b` is the one before the call.  When `bget` leaves the caller
asleep on the lock of `b`, `bread` has issued no transfer and waits inside `bget`; in
whatever memory `w` and with whatever disk `e0` the caller gets the lock later, its `bread`
then returns `b` with `valid == 1`, with one read transfer for `b` when `valid` of `b` was 0
at that moment and none otherwise, and with nothing else changed. -/
theorem bread_load (N : Nat) (s : State) (L : Nat → List Nat) (h : Layout N s L)
    (hv : ∀ q, (s.mem q).valid ≤ 1) (d : Disk)
    (fuel pid dev blockno i : Nat) (hfuel : N < fuel) (hfuel2 : NBUCKET ≤ fuel)
    (hi : idx (hash (toInt blockno)) = some i)
    (hnp : (bget fuel pid s dev blockno).isPanic = false) :
    ∃ b t, (bget fuel pid s dev blockno = Outcome.ret b t
        ∨ bget fuel pid s dev blockno = Outcome.sleep b t)
      ∧ (∀ q, (t.mem q).valid ≤ 1)
      ∧ (bget fuel pid s dev blockno = Outcome.ret b t →
          ∃ u e, bread fuel pid s d dev blockno = (Outcome.ret b u, e)
            ∧ (u.mem b).valid = 1
            ∧ ((t.mem b).valid = 0 → e.log = (false, b) :: d.log ∧ e.block = d.block
                ∧ (u.mem b).data = d.block (t.mem b).dev (t.mem b).blockno)
            ∧ ((t.mem b).valid ≠ 0 → e = d ∧ u = t)
            ∧ (e.log = (false, b) :: d.log ↔ (t.mem b).valid = 0)
            ∧ (e.log = d.log ↔ (t.mem b).valid ≠ 0)
            ∧ (∀ q, q ≠ b → u.mem q = t.mem q)
            ∧ ((u.mem b).dev = (t.mem b).dev ∧ (u.mem b).blockno = (t.mem b).blockno
                ∧ (u.mem b).refcnt = (t.mem b).refcnt ∧ (u.mem b).lock = (t.mem b).lock)
            ∧ ((∃ x < N, Carries s dev blockno x) → (s.mem b).valid = 1 →
                e = d ∧ (u.mem b).data = (s.mem b).data))
      ∧ (bget fuel pid s dev blockno = Outcome.sleep b t →
          bread fuel pid s d dev blockno = (Outcome.sleep b t, d)
          ∧ (t.mem b).lock ≠ none
          ∧ ∀ (w w1 : State) (e0 : Disk), (w.mem b).valid ≤ 1 →
              acquiresleep pid b w = Outcome.ret b w1 →
              ∃ u e, breadResume pid w e0 b = (Outcome.ret b u, e)
                ∧ (u.mem b).valid = 1
                ∧ ((w1.mem b).valid = 0 → e.log = (false, b) :: e0.log ∧ e.block = e0.block
                    ∧ (u.mem b).data = e0.block (w1.mem b).dev (w1.mem b).blockno)
                ∧ ((w1.mem b).valid ≠ 0 → e = e0 ∧ u = w1)
                ∧ (e.log = (false, b) :: e0.log ↔ (w1.mem b).valid = 0)
                ∧ (e.log = e0.log ↔ (w1.mem b).valid ≠ 0)
                ∧ (∀ q, q ≠ b → u.mem q = w1.mem q)
                ∧ ((u.mem b).dev = (w1.mem b).dev ∧ (u.mem b).blockno = (w1.mem b).blockno
                    ∧ (u.mem b).refcnt = (w1.mem b).refcnt
                    ∧ (u.mem b).lock = (w1.mem b).lock)) := by
  obtain ⟨b, t, hres⟩ := bget_resolves N s L h fuel pid dev blockno i hfuel hfuel2 hi hnp
  have hout : bget fuel pid s dev blockno = Outcome.ret b t
      ∨ bget fuel pid s dev blockno = Outcome.sleep b t := hres.elim Or.inl (fun x => Or.inr x.1)
  obtain ⟨hflag, hhit⟩ := bget_flags N s t L h fuel pid dev blockno hfuel hfuel2 b hout
  refine ⟨b, t, hout, fun q => hflag q (hv q), ?_, ?_⟩
  · intro hget
    obtain ⟨p1, p2, p3, p4, p5, p6, p7⟩ := breadRest_load t d b (hflag b (hv b))
    refine ⟨(breadRest t d b).1, (breadRest t d b).2, ?_, p1, p2, p3, p4, p5, p6, p7, ?_⟩
    · simp only [bread, hget]
    · intro hc hs1
      have hvalid : (t.mem b).valid ≠ 0 := by
        rw [(hhit hc b).1, hs1]
        decide
      rw [(p3 hvalid).1, (p3 hvalid).2]
      exact ⟨rfl, (hhit hc b).2⟩
  · intro hsl
    have hlock : (t.mem b).lock ≠ none := by
      rcases hres with hr | hr
      · rw [hsl] at hr
        simp at hr
      · exact hr.2
    refine ⟨by simp only [bread, hsl], hlock, ?_⟩
    intro w w1 e0 hw hacq
    obtain ⟨_, hf, _⟩ := acquiresleep_inv pid b b w w1 (Or.inl hacq)
    have hw1 : (w1.mem b).valid ≤ 1 := by
      rw [(hf b).1]
      exact hw
    obtain ⟨p1, p2, p3, p4, p5, p6, p7⟩ := breadRest_load w1 e0 b hw1
    refine ⟨(breadRest w1 e0 b).1, (breadRest w1 e0 b).2, ?_, p1, p2, p3, p4, p5, p6, p7⟩
    simp only [breadResume, hacq]

/-- C12 for the cache with three buffers after `bget(0, 0)` by process 1, who holds
`bcache.buf[2]`, and the blank disk: `bread(0, 0)` by process 2 does not panic; it waits for
the buffer. -/
theorem bread_load_witness :
    Layout 3 held1 (initLists 3)
    ∧ (∀ q, (held1.mem q).valid ≤ 1)
    ∧ idx (hash (toInt 0)) = some 0
    ∧ (bget 13 2 held1 0 0).isPanic = false
    ∧ bread 13 2 held1 blank 0 0 = (Outcome.sleep (Ptr.buf 2) (held1.upd (Ptr.buf 2) incRef), blank)
    ∧ ∃ b t, (bget 13 2 held1 0 0 = Outcome.ret b t ∨ bget 13 2 held1 0 0 = Outcome.sleep b t)
      ∧ (∀ q, (t.mem q).valid ≤ 1)
      ∧ (bget 13 2 held1 0 0 = Outcome.ret b t →
          ∃ u e, bread 13 2 held1 blank 0 0 = (Outcome.ret b u, e)
            ∧ (u.mem b).valid = 1
            ∧ ((t.mem b).valid = 0 → e.log = (false, b) :: blank.log ∧ e.block = blank.block
                ∧ (u.mem b).data = blank.block (t.mem b).dev (t.mem b).blockno)
            ∧ ((t.mem b).valid ≠ 0 → e = blank ∧ u = t)
            ∧ (e.log = (false, b) :: blank.log ↔ (t.mem b).valid = 0)
            ∧ (e.log = blank.log ↔ (t.mem b).valid ≠ 0)
            ∧ (∀ q, q ≠ b → u.mem q = t.mem q)
            ∧ ((u.mem b).dev = (t.mem b).dev ∧ (u.mem b).blockno = (t.mem b).blockno
                ∧ (u.mem b).refcnt = (t.mem b).refcnt ∧ (u.mem b).lock = (t.mem b).lock)
            ∧ ((∃ x < 3, Carries held1 0 0 x) → (held1.mem b).valid = 1 →
                e = blank ∧ (u.mem b).data = (held1.mem b).data))
      ∧ (bget 13 2 held1 0 0 = Outcome.sleep b t →
          bread 13 2 held1 blank 0 0 = (Outcome.sleep b t, blank)
          ∧ (t.mem b).lock ≠ none
          ∧ ∀ (w w1 : State) (e0 : Disk), (w.mem b).valid ≤ 1 →
              acquiresleep 2 b w = Outcome.ret b w1 →
              ∃ u e, breadResume 2 w e0 b = (Outcome.ret b u, e)
                ∧ (u.mem b).valid = 1
                ∧ ((w1.mem b).valid = 0 → e.log = (false, b) :: e0.log ∧ e.block = e0.block
                    ∧ (u.mem b).data = e0.block (w1.mem b).dev (w1.mem b).blockno)
                ∧ ((w1.mem b).valid ≠ 0 → e = e0 ∧ u = w1)
                ∧ (e.log = (false, b) :: e0.log ↔ (w1.mem b).valid = 0)
                ∧ (e.log = e0.log ↔ (w1.mem b).valid ≠ 0)
                ∧ (∀ q, q ≠ b → u.mem q = w1.mem q)
                ∧ ((u.mem b).dev = (w1.mem b).dev ∧ (u.mem b).blockno = (w1.mem b).blockno
                    ∧ (u.mem b).refcnt = (w1.mem b).refcnt
                    ∧ (u.mem b).lock = (w1.mem b).lock)) :=
  ⟨held1_layout,
    (fun q => by
      rw [show held1 = ((binit 3 zeroed).upd (Ptr.buf 2) incRef).upd (Ptr.buf 2)
          (setLock (some 1)) from rfl,
        upd_preserve Buf.valid _ _ _ (setLock (some 1)) (fun _ => rfl),
        upd_preserve Buf.valid _ _ _ incRef (fun _ => rfl),
        (info_fields _ _ (binit_info 3 q)).1]
      decide),
    by decide, rfl, rfl,
    bread_load 3 held1 (initLists 3) held1_layout
      (fun q => by
        rw [show held1 = ((binit 3 zeroed).upd (Ptr.buf 2) incRef).upd (Ptr.buf 2)
            (setLock (some 1)) from rfl,
          upd_preserve Buf.valid _ _ _ (setLock (some 1)) (fun _ => rfl),
          upd_preserve Buf.valid _ _ _ incRef (fun _ => rfl),
          (info_fields _ _ (binit_info 3 q)).1]
        decide)
      blank 13 2 0 0 0 (by decide) (by decide) (by decide) rfl⟩

/-! Write, release, read again -/

/-- What `bwrite` does when its caller holds the lock of `b`: one write transfer for `b`,
which stores the payload of `b` in the block `(b->dev, b->blockno)` of the disk and leaves
every other block and the memory of the cache as they are. -/
theorem bwrite_spec (pid : Nat) (s : State) (d : Disk) (b : Ptr) (hb : b ≠ Ptr.null)
    (hold : (s.mem b).lock = some pid) :
    ∃ d1, bwrite pid s d b = (Effect.done s, d1)
      ∧ d1.log = (true, b) :: d.log
      ∧ d1.block (s.mem b).dev (s.mem b).blockno = (s.mem b).data
      ∧ ∀ dev blockno, ¬ (dev = (s.mem b).dev ∧ blockno = (s.mem b).blockno) →
          d1.block dev blockno = d.block dev blockno := by
  have hhold : holdingsleep pid (s.mem b) = true := by
    simp only [holdingsleep, hold, decide_True]
  refine ⟨{ block := fun dev2 blockno2 =>
              if dev2 = (s.mem b).dev ∧ blockno2 = (s.mem b).blockno
              then (s.mem b).data else d.block dev2 blockno2,
            log := (true, b) :: d.log }, ?_, rfl, ?_, ?_⟩
  · simp only [bwrite, hb, if_false, hhold, Bool.not_true, Bool.false_eq_true, virtio_disk_rw,
      if_true]
  · show (if (s.mem b).dev = (s.mem b).dev ∧ (s.mem b).blockno = (s.mem b).blockno
      then (s.mem b).data else _) = _
    rw [if_pos ⟨rfl, rfl⟩]
  · intro dev blockno hne
    show (if dev = (s.mem b).dev ∧ blockno = (s.mem b).blockno
      then (s.mem b).data else d.block dev blockno) = _
    rw [if_neg hne]

/-- C13.  Let process `p` hold buffer `k` for the key `(dev, blockno)` and let the payload of
the buffer be `(s.mem (Ptr.buf k)).data`.  Then `bwrite` of the buffer returns and stores the
payload in the block `(dev, blockno)` of the disk, `brelse` of the buffer returns, and a
`bread(dev, blockno)` right behind them returns the same buffer, with the same payload:
unchanged in memory when `valid` is set, read back from the disk when it is not. -/
theorem round_trip (N : Nat) (s : State) (dev blockno k p : Nat)
    (h : HeldBy N s dev blockno k p) (dsk : Disk) (fuel ticks : Nat) (hfuel : N < fuel) :
    ∃ d1 s2 u e, bwrite p s dsk (Ptr.buf k) = (Effect.done s, d1)
      ∧ d1.block dev blockno = (s.mem (Ptr.buf k)).data
      ∧ d1.log = (true, Ptr.buf k) :: dsk.log
      ∧ brelse p ticks s (Ptr.buf k) = Effect.done s2
      ∧ bread fuel p s2 d1 dev blockno = (Outcome.ret (Ptr.buf k) u, e)
      ∧ (u.mem (Ptr.buf k)).data = (s.mem (Ptr.buf k)).data
      ∧ (u.mem (Ptr.buf k)).dev = dev ∧ (u.mem (Ptr.buf k)).blockno = blockno
      ∧ (u.mem (Ptr.buf k)).lock = some p := by
  obtain ⟨L, i, l1, l2, hL, hi, hl, hk, hfirst, hlk, hrc⟩ := h
  obtain ⟨hilt, _⟩ := idx_lt _ _ hi
  have hne : Ptr.buf k ≠ Ptr.null := fun e => Ptr.noConfusion e
  obtain ⟨d1, hw1, hw2, hw3, _⟩ := bwrite_spec p s dsk (Ptr.buf k) hne hlk
  have hidx : idx (hash (toInt (s.mem (Ptr.buf k)).blockno)) = some i := by rw [hk.2]; exact hi
  obtain ⟨s2, hs2, hcell, hother⟩ := brelse_effect s p ticks (Ptr.buf k) i hne hlk hidx
  have hL2 := brelse_layout N s s2 L hL p ticks _ hs2
  have hkeys := release_keys s s2 (Ptr.buf k) (Or.inl ⟨p, ticks, hs2⟩)
  have hcar : ∀ x, Carries s2 dev blockno x ↔ Carries s dev blockno x := by
    intro x
    unfold Carries
    rw [(hkeys (Ptr.buf x)).1, (hkeys (Ptr.buf x)).2]
  have hf2 : (s2.mem (Ptr.buf k)).lock = none ∧ (s2.mem (Ptr.buf k)).data = (s.mem (Ptr.buf k)).data
      ∧ (s2.mem (Ptr.buf k)).valid = (s.mem (Ptr.buf k)).valid := by
    rw [hcell]
    split <;> exact ⟨rfl, rfl, rfl⟩
  have hexec := bget_exec_hit s2 fuel p dev blockno i l1 l2 k hi
    (by rw [← hl]; exact hL2.ring i hilt)
    (by rw [← hl]; exact lt_of_le_of_lt (layout_length N s2 L hL2 i hilt) hfuel)
    ((hcar k).2 hk) (fun x hx hc => hfirst x hx ((hcar x).1 hc))
  have hlock1 : ((s2.upd (Ptr.buf k) incRef).mem (Ptr.buf k)).lock = none := by
    rw [upd_mem_same]; exact hf2.1
  have hret : bget fuel p s2 dev blockno = Outcome.ret (Ptr.buf k)
      ((s2.upd (Ptr.buf k) incRef).upd (Ptr.buf k) (setLock (some p))) := by
    rw [hexec]; simp only [acquiresleep, hlock1, if_true]
  have htcell : (((s2.upd (Ptr.buf k) incRef).upd (Ptr.buf k) (setLock (some p))).mem (Ptr.buf k))
      = setLock (some p) (incRef (s2.mem (Ptr.buf k))) := by
    rw [upd_mem_same, upd_mem_same]
  have hk2 := (hcar k).2 hk
  generalize ht : (s2.upd (Ptr.buf k) incRef).upd (Ptr.buf k) (setLock (some p)) = t at hret htcell
  have htf : (t.mem (Ptr.buf k)).dev = dev ∧ (t.mem (Ptr.buf k)).blockno = blockno
      ∧ (t.mem (Ptr.buf k)).data = (s.mem (Ptr.buf k)).data
      ∧ (t.mem (Ptr.buf k)).lock = some p := by
    rw [htcell]
    exact ⟨hk2.1, hk2.2, hf2.2.1, rfl⟩
  refine ⟨d1, s2, (breadRest t d1 (Ptr.buf k)).1, (breadRest t d1 (Ptr.buf k)).2, hw1, ?_, hw2,
    hs2, ?_, ?_, ?_, ?_, ?_⟩
  · rw [← hk.1, ← hk.2]
    exact hw3
  · simp only [bread, hret]
  · by_cases h0 : (t.mem (Ptr.buf k)).valid = 0
    · rw [(breadRest_spec t _ (Ptr.buf k)).1 h0,
        upd_preserve Buf.data _ _ _ (setValid 1) (fun _ => rfl), upd_mem_same]
      show d1.block (t.mem (Ptr.buf k)).dev (t.mem (Ptr.buf k)).blockno = _
      rw [htf.1, htf.2.1, ← hk.1, ← hk.2]
      exact hw3
    · rw [(breadRest_spec t _ (Ptr.buf k)).2 h0]
      exact htf.2.2.1
  · have hv : (t.mem (Ptr.buf k)).valid = 0 ∨ (t.mem (Ptr.buf k)).valid ≠ 0 := by omega
    rcases hv with h0 | h0
    · rw [(breadRest_spec t _ (Ptr.buf k)).1 h0,
        upd_preserve Buf.dev _ _ _ (setValid 1) (fun _ => rfl),
        upd_preserve Buf.dev _ _ _ (setData _) (fun _ => rfl)]
      exact htf.1
    · rw [(breadRest_spec t _ (Ptr.buf k)).2 h0]
      exact htf.1
  · have hv : (t.mem (Ptr.buf k)).valid = 0 ∨ (t.mem (Ptr.buf k)).valid ≠ 0 := by omega
    rcases hv with h0 | h0
    · rw [(breadRest_spec t _ (Ptr.buf k)).1 h0,
        upd_preserve Buf.blockno _ _ _ (setValid 1) (fun _ => rfl),
        upd_preserve Buf.blockno _ _ _ (setData _) (fun _ => rfl)]
      exact htf.2.1
    · rw [(breadRest_spec t _ (Ptr.buf k)).2 h0]
      exact htf.2.1
  · have hv : (t.mem (Ptr.buf k)).valid = 0 ∨ (t.mem (Ptr.buf k)).valid ≠ 0 := by omega
    rcases hv with h0 | h0
    · rw [(breadRest_spec t _ (Ptr.buf k)).1 h0,
        upd_preserve Buf.lock _ _ _ (setValid 1) (fun _ => rfl),
        upd_preserve Buf.lock _ _ _ (setData _) (fun _ => rfl)]
      exact htf.2.2.2
    · rw [(breadRest_spec t _ (Ptr.buf k)).2 h0]
      exact htf.2.2.2

/-- C13 for the cache with three buffers after `bget(0, 0)` by process 1, who has put the
payload `[7, 8]` into the buffer it holds, and the blank disk. -/
theorem round_trip_witness :
    HeldBy 3 (held1.upd (Ptr.buf 2) (setData [7, 8])) 0 0 2 1 ∧ 3 < 13
    ∧ ∃ d1 s2 u e,
      bwrite 1 (held1.upd (Ptr.buf 2) (setData [7, 8])) blank (Ptr.buf 2)
        = (Effect.done (held1.upd (Ptr.buf 2) (setData [7, 8])), d1)
      ∧ d1.block 0 0 = ((held1.upd (Ptr.buf 2) (setData [7, 8])).mem (Ptr.buf 2)).data
      ∧ d1.log = (true, Ptr.buf 2) :: blank.log
      ∧ brelse 1 5 (held1.upd (Ptr.buf 2) (setData [7, 8])) (Ptr.buf 2) = Effect.done s2
      ∧ bread 13 1 s2 d1 0 0 = (Outcome.ret (Ptr.buf 2) u, e)
      ∧ (u.mem (Ptr.buf 2)).data = ((held1.upd (Ptr.buf 2) (setData [7, 8])).mem (Ptr.buf 2)).data
      ∧ (u.mem (Ptr.buf 2)).dev = 0 ∧ (u.mem (Ptr.buf 2)).blockno = 0
      ∧ (u.mem (Ptr.buf 2)).lock = some 1 :=
  ⟨⟨initLists 3, 0, [], [1, 0],
      layout_upd 3 _ _ held1_layout _ (setData [7, 8]) (fun _ => rfl) (fun _ => rfl)
        (fun _ => Or.inl rfl) (fun _ => rfl),
      by decide, rfl, by decide, (fun x hx => by cases hx), by decide, by decide⟩,
    by decide,
    round_trip 3 (held1.upd (Ptr.buf 2) (setData [7, 8])) 0 0 2 1
      ⟨initLists 3, 0, [], [1, 0],
        layout_upd 3 _ _ held1_layout _ (setData [7, 8]) (fun _ => rfl) (fun _ => rfl)
          (fun _ => Or.inl rfl) (fun _ => rfl),
        by decide, rfl, by decide, (fun x hx => by cases hx), by decide, by decide⟩
      blank 13 5 (by decide)⟩

/-! The lock calls of `bget` -/

/-- The loop with its lock calls ends as the loop does. -/
theorem stealOps_outcome (pid dev blockno i fuel : Nat) (s : State) :
    ∀ (n : Nat) (j mt : Int),
      (stealOps pid dev blockno i fuel s n j mt).1 = steal pid dev blockno i fuel s n j mt := by
  intro n
  induction n with
  | zero => intro j mt; rfl
  | succ n ih =>
    intro j mt
    unfold stealOps steal
    split
    · rfl
    · split
      · rfl
      · split
        · rfl
        · rfl
        · split <;> rfl
        · exact ih _ _

/-- The function `bgetOps` ends as `bget` does. -/
theorem bgetOps_outcome (fuel pid : Nat) (s : State) (dev blockno : Nat) :
    (bgetOps fuel pid s dev blockno).1 = bget fuel pid s dev blockno := by
  unfold bgetOps bget
  split
  · rfl
  · split
    · rfl
    · rfl
    · rfl
    · dsimp only
      split
      · rfl
      · rfl
      · rfl
      · exact stealOps_outcome _ _ _ _ _ _ _ _ _

/-- A passage over buckets that yield nothing leaves the held locks as they were. -/
theorem heldAfter_pass (held : List LockId) (rest : List LockOp) :
    ∀ js : List Nat, heldAfter held (passOps js ++ rest) = heldAfter held rest := by
  intro js
  induction js with
  | nil => rfl
  | cons j js ih =>
    show heldAfter ((LockId.bucket j :: held).erase (LockId.bucket j)) (passOps js ++ rest) = _
    rw [List.erase_cons_head]
    exact ih

/-- The calls of a passage are calls for bucket locks, an `acquire` and a `release` for each
bucket passed. -/
theorem mem_passOps (x : LockOp) :
    ∀ js : List Nat, x ∈ passOps js ↔
      ∃ j ∈ js, x = LockOp.acquire (LockId.bucket j) ∨ x = LockOp.release (LockId.bucket j) := by
  intro js
  induction js with
  | nil => simp [passOps]
  | cons j js ih =>
    simp only [passOps, List.mem_cons, ih]
    constructor
    · rintro (h | h | ⟨c, hc, h⟩)
      · exact ⟨j, Or.inl rfl, Or.inl h⟩
      · exact ⟨j, Or.inl rfl, Or.inr h⟩
      · exact ⟨c, Or.inr hc, h⟩
    · rintro ⟨c, rfl | hc, h⟩
      · rcases h with h | h
        · exact Or.inl h
        · exact Or.inr (Or.inl h)
      · exact Or.inr (Or.inr ⟨c, hc, h⟩)

/-- The lock calls of a run of the stealing loop that ends with a buffer: a passage over
some buckets, then `release(&bcache.lock[i])`, `release(&bcache.biglock)` and
`acquiresleep` on the buffer. -/
theorem stealOps_shape (pid dev blockno i fuel : Nat) (s : State) :
    ∀ (n : Nat) (j mt : Int) (b : Ptr) (t : State),
      ((stealOps pid dev blockno i fuel s n j mt).1 = Outcome.ret b t
        ∨ (stealOps pid dev blockno i fuel s n j mt).1 = Outcome.sleep b t) →
      ∃ js, (stealOps pid dev blockno i fuel s n j mt).2
        = passOps js ++ [LockOp.release (LockId.bucket i), LockOp.release LockId.big,
            LockOp.acquire (LockId.buffer b)] := by
  intro n
  induction n with
  | zero =>
    intro j mt b t h
    simp [stealOps] at h
  | succ n ih =>
    intro j mt b t h
    unfold stealOps at h ⊢
    split at h
    · simp at h
    · rename_i hji
      rw [if_neg hji]
      split at h
      · simp at h
      · rename_i _ jn hidx
        split at h
        · simp at h
        · simp at h
        · rename_i _ b2 _ hscan
          split at h
          · simp at h
          · rename_i s1 hrel
            obtain ⟨hb, _⟩ := acquiresleep_inv pid b b2 s1 t h
            subst hb
            refine ⟨[jn], ?_⟩
            simp only [hidx, hscan, hrel]
            rfl
        · rename_i _ mt2 hscan
          obtain ⟨js, hjs⟩ := ih _ _ b t h
          refine ⟨jn :: js, ?_⟩
          simp only [hidx, hscan]
          rw [hjs]
          rfl

/-- The lock calls of a run of `bget` that ends with the buffer `b`: either the first scan
finds the key and the calls are `acquire` and `release` of `lock[i]` and `acquiresleep`, or
it does not and the calls are `acquire` and `release` of `lock[i]`, `acquire` of `biglock`
and of `lock[i]`, a passage over some other buckets, `release` of `lock[i]` and of
`biglock`, and `acquiresleep`. -/
theorem bgetOps_shape (fuel pid : Nat) (s : State) (dev blockno : Nat) (b : Ptr) (t : State)
    (hout : (bgetOps fuel pid s dev blockno).1 = Outcome.ret b t
      ∨ (bgetOps fuel pid s dev blockno).1 = Outcome.sleep b t) :
    ∃ i, idx (hash (toInt blockno)) = some i
      ∧ ((findKey s i dev blockno fuel (s.mem (Ptr.head i)).next = Loop.done (some b)
          ∧ (bgetOps fuel pid s dev blockno).2
            = [LockOp.acquire (LockId.bucket i), LockOp.release (LockId.bucket i),
                LockOp.acquire (LockId.buffer b)])
        ∨ (findKey s i dev blockno fuel (s.mem (Ptr.head i)).next = Loop.done none
          ∧ ∃ js, (bgetOps fuel pid s dev blockno).2
            = [LockOp.acquire (LockId.bucket i), LockOp.release (LockId.bucket i),
                LockOp.acquire LockId.big, LockOp.acquire (LockId.bucket i)]
              ++ (passOps js ++ [LockOp.release (LockId.bucket i), LockOp.release LockId.big,
                LockOp.acquire (LockId.buffer b)]))) := by
  unfold bgetOps at hout ⊢
  split at hout
  · simp at hout
  · rename_i _ i hidx
    refine ⟨i, hidx, ?_⟩
    simp only [hidx]
    split at hout
    · simp at hout
    · simp at hout
    · rename_i _ c hscan
      obtain ⟨hb, _⟩ := acquiresleep_inv pid b c _ t hout
      subst hb
      left
      simp only [hscan, and_self]
    · rename_i _ hscan
      right
      simp only [hscan, true_and]
      dsimp only at hout
      split at hout
      · simp at hout
      · simp at hout
      · rename_i _ b2 _ hlru
        obtain ⟨hb, _⟩ := acquiresleep_inv pid b b2 _ t hout
        subst hb
        refine ⟨[], ?_⟩
        simp only [hlru]
        rfl
      · rename_i _ mt hlru
        obtain ⟨js, hjs⟩ := stealOps_shape pid dev blockno i fuel s fuel _ mt b t hout
        refine ⟨js, ?_⟩
        simp only [hlru]
        rw [hjs]

/-- The calls of the slow path of `bget` before `acquiresleep` leave no lock held, hold no
call of `acquiresleep`, and release every lock they acquire. -/
theorem slow_path_balanced (i : Nat) (js : List Nat) :
    heldAfter [] ([LockOp.acquire (LockId.bucket i), LockOp.release (LockId.bucket i),
        LockOp.acquire LockId.big, LockOp.acquire (LockId.bucket i)]
      ++ (passOps js ++ [LockOp.release (LockId.bucket i), LockOp.release LockId.big])) = []
    ∧ (∀ c, LockOp.acquire (LockId.buffer c) ∉
        [LockOp.acquire (LockId.bucket i), LockOp.release (LockId.bucket i),
          LockOp.acquire LockId.big, LockOp.acquire (LockId.bucket i)]
        ++ (passOps js ++ [LockOp.release (LockId.bucket i), LockOp.release LockId.big]))
    ∧ (∀ l, LockOp.acquire l ∈
        [LockOp.acquire (LockId.bucket i), LockOp.release (LockId.bucket i),
          LockOp.acquire LockId.big, LockOp.acquire (LockId.bucket i)]
        ++ (passOps js ++ [LockOp.release (LockId.bucket i), LockOp.release LockId.big]) →
      LockOp.release l ∈
        [LockOp.acquire (LockId.bucket i), LockOp.release (LockId.bucket i),
          LockOp.acquire LockId.big, LockOp.acquire (LockId.bucket i)]
        ++ (passOps js ++ [LockOp.release (LockId.bucket i), LockOp.release LockId.big])) := by
  refine ⟨?_, ?_, ?_⟩
  · show heldAfter (([LockId.bucket i].erase (LockId.bucket i)))
      (LockOp.acquire LockId.big :: LockOp.acquire (LockId.bucket i)
        :: (passOps js ++ [LockOp.release (LockId.bucket i), LockOp.release LockId.big])) = []
    rw [List.erase_cons_head]
    show heldAfter [LockId.bucket i, LockId.big]
      (passOps js ++ [LockOp.release (LockId.bucket i), LockOp.release LockId.big]) = []
    rw [heldAfter_pass]
    show heldAfter (([LockId.bucket i, LockId.big].erase (LockId.bucket i)).erase LockId.big) [] = []
    rw [List.erase_cons_head, List.erase_cons_head]
    rfl
  · intro c hc
    simp only [List.cons_append, List.nil_append, List.mem_cons, List.mem_append, mem_passOps,
      LockOp.acquire.injEq, List.mem_singleton, reduceCtorEq, false_or, or_false, List.not_mem_nil,
      exists_false, and_false] at hc
  · intro l hl
    simp only [List.cons_append, List.nil_append, List.mem_cons, List.mem_append, mem_passOps,
      LockOp.acquire.injEq, LockOp.release.injEq, List.mem_singleton, reduceCtorEq, false_or,
      or_false, List.not_mem_nil] at hl ⊢
    rcases hl with rfl | rfl | rfl | ⟨j, hj, rfl⟩
    · exact Or.inl rfl
    · exact Or.inr (Or.inr (Or.inr rfl))
    · exact Or.inl rfl
    · exact Or.inr (Or.inl ⟨j, hj, rfl⟩)

/-- C18.  On every run of `bget` that ends with the buffer `b` (returned, or with the caller
asleep in `acquiresleep`), the lock calls of `bget` are a list `pre` followed by the one call
of `acquiresleep`, on `b`; after `pre` the caller holds no lock at all, bucket lock or
`biglock`, and `pre` has a `release` for every lock it has an `acquire` for.  When the first
scan finds the key, `pre` is `acquire(&bcache.lock[i]); release(&bcache.lock[i])`: `biglock`
is not acquired. -/
theorem lock_discipline (fuel pid : Nat) (s : State) (dev blockno : Nat) (b : Ptr) (t : State)
    (hout : bget fuel pid s dev blockno = Outcome.ret b t
      ∨ bget fuel pid s dev blockno = Outcome.sleep b t) :
    (bgetOps fuel pid s dev blockno).1 = bget fuel pid s dev blockno
    ∧ ∃ pre, (bgetOps fuel pid s dev blockno).2 = pre ++ [LockOp.acquire (LockId.buffer b)]
      ∧ heldAfter [] pre = []
      ∧ (∀ c, LockOp.acquire (LockId.buffer c) ∉ pre)
      ∧ (∀ l, LockOp.acquire l ∈ pre → LockOp.release l ∈ pre)
      ∧ (∀ i c, idx (hash (toInt blockno)) = some i →
          findKey s i dev blockno fuel (s.mem (Ptr.head i)).next = Loop.done (some c) →
          pre = [LockOp.acquire (LockId.bucket i), LockOp.release (LockId.bucket i)]
          ∧ LockOp.acquire LockId.big ∉ (bgetOps fuel pid s dev blockno).2) := by
  have h1 := bgetOps_outcome fuel pid s dev blockno
  rw [← h1] at hout
  refine ⟨h1, ?_⟩
  obtain ⟨i, hidx, ⟨hscan, htr⟩ | ⟨hscan, js, htr⟩⟩ := bgetOps_shape fuel pid s dev blockno b t hout
  · refine ⟨[LockOp.acquire (LockId.bucket i), LockOp.release (LockId.bucket i)], ?_, ?_, ?_, ?_,
      ?_⟩
    · rw [htr]; rfl
    · show heldAfter ([LockId.bucket i].erase (LockId.bucket i)) [] = []
      rw [List.erase_cons_head]
      rfl
    · intro c hc
      simp at hc
    · intro l hl
      simp only [List.mem_cons, LockOp.acquire.injEq, reduceCtorEq, List.mem_singleton,
        or_false, List.not_mem_nil] at hl
      rw [hl]
      simp
    · intro i2 c hi2 _
      rw [hidx] at hi2
      simp only [Option.some.injEq] at hi2
      subst hi2
      refine ⟨rfl, ?_⟩
      rw [htr]
      simp
  · obtain ⟨b1, b2, b3⟩ := slow_path_balanced i js
    refine ⟨[LockOp.acquire (LockId.bucket i), LockOp.release (LockId.bucket i),
        LockOp.acquire LockId.big, LockOp.acquire (LockId.bucket i)]
      ++ (passOps js ++ [LockOp.release (LockId.bucket i), LockOp.release LockId.big]),
      ?_, b1, b2, b3, ?_⟩
    · rw [htr]
      simp only [List.append_assoc, List.cons_append, List.nil_append]
    · intro i2 c hi2 hc
      rw [hidx] at hi2
      simp only [Option.some.injEq] at hi2
      subst hi2
      rw [hscan] at hc
      simp at hc

/-- C18 for the cache with three buffers right after `binit`: `bget(0, 0)` by process 1. -/
theorem lock_discipline_witness :
    (bget 13 1 (binit 3 zeroed) 0 0 = Outcome.ret (Ptr.buf 2) held1
      ∨ bget 13 1 (binit 3 zeroed) 0 0 = Outcome.sleep (Ptr.buf 2) held1)
    ∧ (bgetOps 13 1 (binit 3 zeroed) 0 0).1 = bget 13 1 (binit 3 zeroed) 0 0
    ∧ ∃ pre, (bgetOps 13 1 (binit 3 zeroed) 0 0).2
          = pre ++ [LockOp.acquire (LockId.buffer (Ptr.buf 2))]
      ∧ heldAfter [] pre = []
      ∧ (∀ c, LockOp.acquire (LockId.buffer c) ∉ pre)
      ∧ (∀ l, LockOp.acquire l ∈ pre → LockOp.release l ∈ pre)
      ∧ (∀ i c, idx (hash (toInt 0)) = some i →
          findKey (binit 3 zeroed) i 0 0 13 ((binit 3 zeroed).mem (Ptr.head i)).next
            = Loop.done (some c) →
          pre = [LockOp.acquire (LockId.bucket i), LockOp.release (LockId.bucket i)]
          ∧ LockOp.acquire LockId.big ∉ (bgetOps 13 1 (binit 3 zeroed) 0 0).2) :=
  ⟨Or.inl rfl, lock_discipline 13 1 (binit 3 zeroed) 0 0 (Ptr.buf 2) held1 (Or.inl rfl)⟩

/-! The order in which the stealing loop visits the buckets -/

/-- The buckets `(i + d) % NBUCKET, (i + d + 1) % NBUCKET, ...`, `m` of them. -/
theorem passOps_range (i d m : Nat) :
    passOps ((List.range (m + 1)).map (fun c => (i + (d + c)) % NBUCKET))
      = LockOp.acquire (LockId.bucket ((i + d) % NBUCKET))
        :: LockOp.release (LockId.bucket ((i + d) % NBUCKET))
        :: passOps ((List.range m).map (fun c => (i + (d + 1 + c)) % NBUCKET)) := by
  rw [List.range_succ_eq_map, List.map_cons, List.map_map]
  show LockOp.acquire (LockId.bucket ((i + (d + 0)) % NBUCKET))
      :: LockOp.release (LockId.bucket ((i + (d + 0)) % NBUCKET)) :: passOps _ = _
  congr 3
  apply List.map_congr_left
  intro c _
  show (i + (d + (c + 1))) % NBUCKET = (i + (d + 1 + c)) % NBUCKET
  congr 1
  omega

/-- A run of the stealing loop in a well-formed cache, entered at bucket `(i + d) % NBUCKET`
with `e` buckets left before it is back at bucket `i`: the loop passes over `m ≤ e` buckets
in a row and then either takes a buffer from the last of them or, with `m = e`, comes to
the `panic`; the second when none of the `e` buckets has a free buffer. -/
theorem stealOps_run (N : Nat) (s : State) (L : Nat → List Nat) (h : Layout N s L)
    (pid dev blockno i fuel : Nat) (hi : idx (hash (toInt blockno)) = some i)
    (hfuel : N < fuel) (mt : Int) :
    ∀ (e d n : Nat), 1 ≤ d → d + e = NBUCKET → e < n →
      ∃ m tl, m ≤ e
        ∧ (stealOps pid dev blockno i fuel s n (((i + d) % NBUCKET : Nat) : Int) mt).2
            = passOps ((List.range m).map (fun c => (i + (d + c)) % NBUCKET)) ++ tl
        ∧ (((stealOps pid dev blockno i fuel s n (((i + d) % NBUCKET : Nat) : Int) mt).1
                = Outcome.panic "bget: no buffers" s
              ∧ tl = [LockOp.release (LockId.bucket i), LockOp.release LockId.big] ∧ m = e)
          ∨ (∃ k t,
              ((stealOps pid dev blockno i fuel s n (((i + d) % NBUCKET : Nat) : Int) mt).1
                  = Outcome.ret (Ptr.buf k) t
                ∨ (stealOps pid dev blockno i fuel s n (((i + d) % NBUCKET : Nat) : Int) mt).1
                  = Outcome.sleep (Ptr.buf k) t)
              ∧ tl = [LockOp.release (LockId.bucket i), LockOp.release LockId.big,
                  LockOp.acquire (LockId.buffer (Ptr.buf k))] ∧ 1 ≤ m))
        ∧ ((∀ c, d ≤ c → c < NBUCKET → ∀ x ∈ L ((i + c) % NBUCKET), ¬ Free s x) →
            (stealOps pid dev blockno i fuel s n (((i + d) % NBUCKET : Nat) : Int) mt).1
                = Outcome.panic "bget: no buffers" s ∧ m = e) := by
  obtain ⟨hilt, _⟩ := idx_lt _ _ hi
  intro e
  induction e with
  | zero =>
    intro d n hd1 hd2 hn
    obtain ⟨n, rfl⟩ : ∃ n0, n = n0 + 1 := ⟨n - 1, by omega⟩
    have hback : (i + d) % NBUCKET = i := by
      simp only [NBUCKET] at hilt hd2 ⊢
      omega
    rw [hback]
    refine ⟨0, [LockOp.release (LockId.bucket i), LockOp.release LockId.big], le_refl _, ?_, ?_, ?_⟩
    · simp only [stealOps, if_true]
      rfl
    · left
      simp only [stealOps, if_true, and_self]
    · intro _
      simp only [stealOps, if_true, and_self]
  | succ e ih =>
    intro d n hd1 hd2 hn
    obtain ⟨n, rfl⟩ : ∃ n0, n = n0 + 1 := ⟨n - 1, by omega⟩
    have hj : (i + d) % NBUCKET < NBUCKET := Nat.mod_lt _ (by decide)
    have hji : (i + d) % NBUCKET ≠ i := by
      simp only [NBUCKET] at hd2 hilt ⊢
      omega
    have hne : ¬ ((((i + d) % NBUCKET : Nat) : Int) = (i : Int)) := by omega
    have hlen : (L ((i + d) % NBUCKET)).length < fuel :=
      lt_of_le_of_lt (layout_length N s L h _ hj) hfuel
    have hscan := findLru_chain s _ (L ((i + d) % NBUCKET)) _ fuel none mt (h.ring _ hj) hlen
    have hmod : ((i + d) % NBUCKET + 1) % NBUCKET = (i + (d + 1)) % NBUCKET := by
      simp only [NBUCKET]; omega
    by_cases hfree : ∃ x ∈ L ((i + d) % NBUCKET), Free s x
    · obtain ⟨k, hk, hlru⟩ := lruScan_none_of_free s mt _
        (fun x hx => h.time x (h.lt _ hj x hx)) hfree
      obtain ⟨t, hrel, _, _⟩ := layout_steal N s L h i _ k dev blockno hj (fun e0 => hji e0.symm)
        (isLru_mem s _ k hlru).1 hi
      have hrun : stealOps pid dev blockno i fuel s (n + 1) (((i + d) % NBUCKET : Nat) : Int) mt
          = (acquiresleep pid (Ptr.buf k) t,
              [LockOp.acquire (LockId.bucket ((i + d) % NBUCKET)),
                LockOp.release (LockId.bucket ((i + d) % NBUCKET)),
                LockOp.release (LockId.bucket i), LockOp.release LockId.big,
                LockOp.acquire (LockId.buffer (Ptr.buf k))]) := by
        simp only [stealOps, hne, if_false, idx_cast _ hj, hscan, hk, hrel]
      obtain ⟨u, hu, _⟩ := acquiresleep_post pid (Ptr.buf k) t
      refine ⟨1, [LockOp.release (LockId.bucket i), LockOp.release LockId.big,
        LockOp.acquire (LockId.buffer (Ptr.buf k))], by omega, ?_, ?_, ?_⟩
      · rw [hrun]
        rfl
      · right
        rw [hrun]
        exact ⟨k, u, hu, rfl, le_refl _⟩
      · intro hbusy
        obtain ⟨x, hx, hxf⟩ := hfree
        exact absurd hxf (hbusy d (le_refl _) (by omega) x hx)
    · have hbusy : ∀ x ∈ L ((i + d) % NBUCKET), ¬ Free s x := fun x hx hf => hfree ⟨x, hx, hf⟩
      have hrun : stealOps pid dev blockno i fuel s (n + 1) (((i + d) % NBUCKET : Nat) : Int) mt
          = ((stealOps pid dev blockno i fuel s n (((i + (d + 1)) % NBUCKET : Nat) : Int) mt).1,
              LockOp.acquire (LockId.bucket ((i + d) % NBUCKET))
                :: LockOp.release (LockId.bucket ((i + d) % NBUCKET))
                :: (stealOps pid dev blockno i fuel s n
                    (((i + (d + 1)) % NBUCKET : Nat) : Int) mt).2) := by
        simp only [stealOps, hne, if_false, idx_cast _ hj, hscan,
          lruScan_none_of_busy s mt _ hbusy, hash_succ, hmod]
      obtain ⟨m, tl, hm, htr, hcase, hall⟩ := ih (d + 1) n (by omega) (by omega) (by omega)
      refine ⟨m + 1, tl, by omega, ?_, ?_, ?_⟩
      · rw [hrun, passOps_range]
        show _ :: _ :: _ = _ :: _ :: (_ ++ tl)
        rw [htr]
      · rw [hrun]
        rcases hcase with ⟨h1, h2, h3⟩ | ⟨k, t, h1, h2, h3⟩
        · left
          exact ⟨h1, h2, by omega⟩
        · right
          exact ⟨k, t, h1, h2, by omega⟩
      · intro hb
        rw [hrun]
        obtain ⟨h1, h2⟩ := hall (fun c hc1 hc2 => hb c (by omega) hc2)
        exact ⟨h1, by omega⟩

/-- A passage over the buckets `js` visits `js`. -/
theorem visits_pass (tl : List LockOp) :
    ∀ js : List Nat, visits (passOps js ++ tl) = js ++ visits tl := by
  intro js
  induction js with
  | nil => rfl
  | cons j js ih =>
    show j :: visits (passOps js ++ tl) = j :: (js ++ visits tl)
    rw [ih]

/-- During a passage over the buckets `js` the locks held are the ones held before it, and
in between the lock of one bucket of `js` besides. -/
theorem heldAlong_pass (H : List LockId) (tl : List LockOp) :
    ∀ js : List Nat, ∀ held ∈ heldAlong H (passOps js ++ tl),
      held = H ∨ (∃ j ∈ js, held = LockId.bucket j :: H) ∨ held ∈ heldAlong H tl := by
  intro js
  induction js with
  | nil =>
    intro held hh
    exact Or.inr (Or.inr hh)
  | cons j js ih =>
    intro held hh
    have hstep : heldAlong H (passOps (j :: js) ++ tl)
        = (LockId.bucket j :: H) :: H :: heldAlong H (passOps js ++ tl) := by
      show (LockId.bucket j :: H) :: (LockId.bucket j :: H).erase (LockId.bucket j)
        :: heldAlong ((LockId.bucket j :: H).erase (LockId.bucket j)) (passOps js ++ tl) = _
      rw [List.erase_cons_head]
    rw [hstep] at hh
    rcases List.mem_cons.1 hh with e | hh
    · exact Or.inr (Or.inl ⟨j, List.mem_cons_self _ _, e⟩)
    · rcases List.mem_cons.1 hh with e | hh
      · exact Or.inl e
      · rcases ih held hh with e | ⟨c, hc, e⟩ | e
        · exact Or.inl e
        · exact Or.inr (Or.inl ⟨c, List.mem_cons_of_mem _ hc, e⟩)
        · exact Or.inr (Or.inr e)

/-- The stealing loop never holds the lock of more than one bucket other than `i`: its lock
calls are a passage followed by the release of `lock[i]` and `biglock` (and maybe an
`acquiresleep`). -/
theorem foreign_pass (i : Nat) (js : List Nat) (tl : List LockOp)
    (htl : tl = [LockOp.release (LockId.bucket i), LockOp.release LockId.big]
      ∨ ∃ b, tl = [LockOp.release (LockId.bucket i), LockOp.release LockId.big,
          LockOp.acquire (LockId.buffer b)]) :
    ∀ held ∈ heldAlong [LockId.bucket i, LockId.big] (passOps js ++ tl),
      (foreign i held).length ≤ 1 := by
  intro held hh
  have hH : foreign i [LockId.bucket i, LockId.big] = [] := by
    simp [foreign]
  rcases heldAlong_pass _ tl js held hh with e | ⟨j, _, e⟩ | e
  · rw [e, hH]
    exact Nat.zero_le _
  · rw [e]
    show (List.filter _ (LockId.bucket j :: [LockId.bucket i, LockId.big])).length ≤ 1
    rw [List.filter_cons]
    split
    · show (foreign i [LockId.bucket i, LockId.big]).length + 1 ≤ 1
      rw [hH]
      exact le_refl _
    · show (foreign i [LockId.bucket i, LockId.big]).length ≤ 1
      rw [hH]
      exact Nat.zero_le _
  · rcases htl with rfl | ⟨b, rfl⟩
    · have hl : heldAlong [LockId.bucket i, LockId.big]
          [LockOp.release (LockId.bucket i), LockOp.release LockId.big] = [[LockId.big], []] := by
        simp [heldAlong]
      rw [hl] at e
      simp only [List.mem_cons, List.mem_singleton, List.not_mem_nil, or_false] at e
      rcases e with rfl | rfl <;> simp [foreign]
    · have hl : heldAlong [LockId.bucket i, LockId.big]
          [LockOp.release (LockId.bucket i), LockOp.release LockId.big,
            LockOp.acquire (LockId.buffer b)]
          = [[LockId.big], [], [LockId.buffer b]] := by
        simp [heldAlong]
      rw [hl] at e
      simp only [List.mem_cons, List.mem_singleton, List.not_mem_nil, or_false] at e
      rcases e with rfl | rfl | rfl <;> simp [foreign]

/-- The buckets `(i + 1) % NBUCKET, ..., (i + m) % NBUCKET` for `m < NBUCKET` are different
from each other and from `i`, and for `m = NBUCKET - 1` they are all the buckets but `i`. -/
theorem cycle_facts (i m : Nat) (hi : i < NBUCKET) (hm : m ≤ NBUCKET - 1) :
    ((List.range m).map (fun c => (i + 1 + c) % NBUCKET)).Nodup
    ∧ i ∉ (List.range m).map (fun c => (i + 1 + c) % NBUCKET)
    ∧ (m = NBUCKET - 1 → ∀ j < NBUCKET, j ≠ i →
        j ∈ (List.range m).map (fun c => (i + 1 + c) % NBUCKET)) := by
  simp only [NBUCKET] at hi hm ⊢
  refine ⟨?_, ?_, ?_⟩
  · apply List.Nodup.map_on _ (List.nodup_range m)
    intro x hx y hy hxy
    rw [List.mem_range] at hx hy
    omega
  · intro hmem
    obtain ⟨c, hc, he⟩ := List.mem_map.1 hmem
    rw [List.mem_range] at hc
    omega
  · intro hm12 j hj hji
    apply List.mem_map.2
    refine ⟨(j + 12 - i) % 13, ?_, ?_⟩
    · rw [List.mem_range]
      omega
    · omega

/-- C19.  In a well-formed cache, for the target bucket `i` of a block number, the stealing
loop of `bget` (entered with `j = hash(i + 1)`, with any value of `min_ticks`) comes to an
end: it takes a buffer or reaches the `panic`.  The buckets whose lock it acquires are
`(i + 1) % NBUCKET, (i + 2) % NBUCKET, ...` in this order, `m ≤ NBUCKET - 1` of them, each
once and never bucket `i`; when no bucket other than `i` has a free buffer they are all the
`NBUCKET - 1` other buckets, each visited exactly once, and the loop ends in the `panic`.
At no point of the loop does the caller hold more than one bucket lock besides `lock[i]`. -/
theorem cyclic_visitation (N : Nat) (s : State) (L : Nat → List Nat) (h : Layout N s L)
    (pid dev blockno i fuel : Nat) (hi : idx (hash (toInt blockno)) = some i)
    (hfuel : N < fuel) (hfuel2 : NBUCKET ≤ fuel) (mt : Int) :
    (stealOps pid dev blockno i fuel s fuel (hash ((i : Int) + 1)) mt).1
      = steal pid dev blockno i fuel s fuel (hash ((i : Int) + 1)) mt
    ∧ ∃ m, m ≤ NBUCKET - 1
      ∧ visits (stealOps pid dev blockno i fuel s fuel (hash ((i : Int) + 1)) mt).2
          = (List.range m).map (fun c => (i + 1 + c) % NBUCKET)
      ∧ (((stealOps pid dev blockno i fuel s fuel (hash ((i : Int) + 1)) mt).1
              = Outcome.panic "bget: no buffers" s ∧ m = NBUCKET - 1)
        ∨ (∃ k t, ((stealOps pid dev blockno i fuel s fuel (hash ((i : Int) + 1)) mt).1
              = Outcome.ret (Ptr.buf k) t
            ∨ (stealOps pid dev blockno i fuel s fuel (hash ((i : Int) + 1)) mt).1
              = Outcome.sleep (Ptr.buf k) t) ∧ 1 ≤ m))
      ∧ ((∀ j < NBUCKET, j ≠ i → ∀ x ∈ L j, ¬ Free s x) →
          (stealOps pid dev blockno i fuel s fuel (hash ((i : Int) + 1)) mt).1
            = Outcome.panic "bget: no buffers" s
          ∧ visits (stealOps pid dev blockno i fuel s fuel (hash ((i : Int) + 1)) mt).2
            = (List.range (NBUCKET - 1)).map (fun c => (i + 1 + c) % NBUCKET)
          ∧ ∀ j < NBUCKET, j ≠ i →
            (visits (stealOps pid dev blockno i fuel s fuel (hash ((i : Int) + 1)) mt).2).count j
              = 1)
      ∧ i ∉ visits (stealOps pid dev blockno i fuel s fuel (hash ((i : Int) + 1)) mt).2
      ∧ (visits (stealOps pid dev blockno i fuel s fuel (hash ((i : Int) + 1)) mt).2).Nodup
      ∧ ∀ held ∈ heldAlong [LockId.bucket i, LockId.big]
            (stealOps pid dev blockno i fuel s fuel (hash ((i : Int) + 1)) mt).2,
          (foreign i held).length ≤ 1 := by
  refine ⟨stealOps_outcome _ _ _ _ _ _ _ _ _, ?_⟩
  obtain ⟨hilt, _⟩ := idx_lt _ _ hi
  rw [hash_succ]
  obtain ⟨m, tl, hm, htr, hcase, hall⟩ := stealOps_run N s L h pid dev blockno i fuel hi hfuel mt
    12 1 fuel (le_refl _) (by decide) (by simp only [NBUCKET] at hfuel2; omega)
  have hfun : (fun c => (i + (1 + c)) % NBUCKET) = (fun c => (i + 1 + c) % NBUCKET) := by
    funext c
    congr 1
    omega
  rw [hfun] at htr
  have htl : tl = [LockOp.release (LockId.bucket i), LockOp.release LockId.big]
      ∨ ∃ b, tl = [LockOp.release (LockId.bucket i), LockOp.release LockId.big,
          LockOp.acquire (LockId.buffer b)] := by
    rcases hcase with ⟨_, h2, _⟩ | ⟨k, _, _, h2, _⟩
    · exact Or.inl h2
    · exact Or.inr ⟨_, h2⟩
  have hvis : visits (stealOps pid dev blockno i fuel s fuel (((i + 1) % NBUCKET : Nat) : Int) mt).2
      = (List.range m).map (fun c => (i + 1 + c) % NBUCKET) := by
    rw [htr, visits_pass]
    rcases htl with rfl | ⟨b, rfl⟩
    · exact List.append_nil _
    · exact List.append_nil _
  have hm12 : m ≤ NBUCKET - 1 := hm
  obtain ⟨c1, c2, c3⟩ := cycle_facts i m hilt hm12
  refine ⟨m, hm12, hvis, ?_, ?_, ?_, ?_, ?_⟩
  · rcases hcase with ⟨h1, _, h3⟩ | ⟨k, t, h1, _, h3⟩
    · exact Or.inl ⟨h1, h3⟩
    · exact Or.inr ⟨k, t, h1, h3⟩
  · intro hbusy
    obtain ⟨h1, h2⟩ := hall (fun c hc1 hc2 x hx =>
      hbusy _ (Nat.mod_lt _ (by decide)) (by simp only [NBUCKET] at hc2 hilt ⊢; omega) x hx)
    have hme : m = NBUCKET - 1 := h2
    refine ⟨h1, by rw [hvis, hme], ?_⟩
    intro j hj hji
    rw [hvis]
    exact List.count_eq_one_of_mem c1 (c3 hme j hj hji)
  · rw [hvis]
    exact c2
  · rw [hvis]
    exact c1
  · rw [htr]
    exact foreign_pass i _ tl htl

/-- C19 for the cache with three buffers right after `binit`, with bucket 1 the target (as
for `bget(0, 1)`). -/
theorem cyclic_visitation_witness :
    Layout 3 (binit 3 zeroed) (initLists 3) ∧ idx (hash (toInt 1)) = some 1 ∧ 3 < 13
    ∧ NBUCKET ≤ 13
    ∧ (stealOps 1 0 1 1 13 (binit 3 zeroed) 13 (hash (((1 : Nat) : Int) + 1)) 0).1
      = steal 1 0 1 1 13 (binit 3 zeroed) 13 (hash (((1 : Nat) : Int) + 1)) 0
    ∧ ∃ m, m ≤ NBUCKET - 1
      ∧ visits (stealOps 1 0 1 1 13 (binit 3 zeroed) 13 (hash (((1 : Nat) : Int) + 1)) 0).2
          = (List.range m).map (fun c => (1 + 1 + c) % NBUCKET)
      ∧ (((stealOps 1 0 1 1 13 (binit 3 zeroed) 13 (hash (((1 : Nat) : Int) + 1)) 0).1
              = Outcome.panic "bget: no buffers" (binit 3 zeroed) ∧ m = NBUCKET - 1)
        ∨ (∃ k t, ((stealOps 1 0 1 1 13 (binit 3 zeroed) 13 (hash (((1 : Nat) : Int) + 1)) 0).1
              = Outcome.ret (Ptr.buf k) t
            ∨ (stealOps 1 0 1 1 13 (binit 3 zeroed) 13 (hash (((1 : Nat) : Int) + 1)) 0).1
              = Outcome.sleep (Ptr.buf k) t) ∧ 1 ≤ m))
      ∧ ((∀ j < NBUCKET, j ≠ 1 → ∀ x ∈ initLists 3 j, ¬ Free (binit 3 zeroed) x) →
          (stealOps 1 0 1 1 13 (binit 3 zeroed) 13 (hash (((1 : Nat) : Int) + 1)) 0).1
            = Outcome.panic "bget: no buffers" (binit 3 zeroed)
          ∧ visits (stealOps 1 0 1 1 13 (binit 3 zeroed) 13 (hash (((1 : Nat) : Int) + 1)) 0).2
            = (List.range (NBUCKET - 1)).map (fun c => (1 + 1 + c) % NBUCKET)
          ∧ ∀ j < NBUCKET, j ≠ 1 →
            (visits (stealOps 1 0 1 1 13 (binit 3 zeroed) 13
              (hash (((1 : Nat) : Int) + 1)) 0).2).count j = 1)
      ∧ 1 ∉ visits (stealOps 1 0 1 1 13 (binit 3 zeroed) 13 (hash (((1 : Nat) : Int) + 1)) 0).2
      ∧ (visits (stealOps 1 0 1 1 13 (binit 3 zeroed) 13
          (hash (((1 : Nat) : Int) + 1)) 0).2).Nodup
      ∧ ∀ held ∈ heldAlong [LockId.bucket 1, LockId.big]
            (stealOps 1 0 1 1 13 (binit 3 zeroed) 13 (hash (((1 : Nat) : Int) + 1)) 0).2,
          (foreign 1 held).length ≤ 1 :=
  ⟨binit_layout 3, by decide, by decide, by decide,
    cyclic_visitation 3 (binit 3 zeroed) (initLists 3) (binit_layout 3) 1 0 1 1 13 (by decide)
      (by decide) (by decide) 0⟩

/-! Holders of a buffer -/

end Bcache
